import Mathlib

/-!
RSS news aggregator with a thread pool: verification development.

Shallow embedding of `news-aggregator.cc` (the article merger `updateRawMap`, the
admission checks and the fan-in barrier of `runArticleThread` / `runFeedThread`) and of
`thread-pool.cc` (constructor, `schedule`, `dispatcher`, `worker`, `wait`, destructor).

Conventions of the embedding:

* `std::string` is `String`; `operator<` on `std::string` is the lexicographic order on
  the character sequence, which is the order Mathlib puts on `String`.
* `std::vector<T>` and `std::queue<T>` are `List T`.
* `std::map<K, V>` is an association list kept sorted by key (the iteration order of
  `std::map`), with `find` and `assign` standing for `find` and `operator[] =`.
* `std::set<std::string>` is a sorted duplicate-free `List String`.
* code run under a `std::mutex` that every access to its data takes (`seenLock`,
  `mapLock`, `q_lock`) is one atomic step; every other statement of a thread is a step of
  its own in the transition systems further down. The predicate of `ThreadPool::wait()`
  runs under `cv_lock`, which the dispatcher and the workers do not hold when they change
  what it reads, so each of its three reads is a step of its own.
-/

namespace NewsAggregator

/-! ## Strings and the standard algorithms used by `updateRawMap` -/

/-- Decision procedure for `operator<` on `std::string`, by characters. -/
instance strDecLt (a b : String) : Decidable (a < b) :=
  decidable_of_iff (a.toList < b.toList) String.lt_iff_toList_lt.symm

/-- Decision procedure for `operator<=` on `std::string` (`a <= b` is `!(b < a)`). -/
instance strDecLe (a b : String) : Decidable (a ≤ b) :=
  (inferInstance : Decidable (¬ b < a))

/-- The result of `std::sort(v.begin(), v.end())` on a vector of strings: the ascending
rearrangement of `v` (unique, since equivalent strings are equal). -/
def sort (v : List String) : List String :=
  List.insertionSort (fun a b => a ≤ b) v

/-- Inner loop of `std::set_intersection` while the first range starts with `a`;
`recAs` is the algorithm continued after `++first1`. -/
def set_intersection1 (a : String) (recAs : List String → List String) :
    List String → List String
  | [] => []
  | b :: bs =>
    if a < b then recAs (b :: bs)
    else if b < a then set_intersection1 a recAs bs
    else a :: recAs bs

/-- The output of `std::set_intersection(first1, last1, first2, last2, back_inserter(out))`:
```
while (first1 != last1 && first2 != last2)
  if (*first1 < *first2) ++first1;
  else { if (!(*first2 < *first1)) *out++ = *first1++; ++first2; }
```
-/
def set_intersection : List String → List String → List String
  | [], _ => []
  | a :: as, l2 => set_intersection1 a (set_intersection as) l2

/-! ## Data model -/

abbrev url := String
abbrev server := String
abbrev title := String

/-- Modelled from the spec: the `Article` record of `article.h` (not among the sources),
an immutable pair of a URL and a title. -/
structure Article where
  url : String
  title : String
deriving DecidableEq, Repr, Inhabited

/-- `operator<` of `std::pair<server, title>`: lexicographic. -/
def keyLt (a b : server × title) : Prop :=
  a.1 < b.1 ∨ (¬ b.1 < a.1 ∧ a.2 < b.2)

instance keyLtDec (a b : server × title) : Decidable (keyLt a b) := by
  unfold keyLt; exact inferInstance

/-- The raw index `articleMap` of type
`std::map<std::pair<server, title>, std::pair<Article, std::vector<std::string>>>`. -/
abbrev ArticleMap := List ((server × title) × (Article × List String))

/-- The mapped value at `articleMap.find(key)`, `none` for `articleMap.end()`. -/
def find : ArticleMap → server × title → Option (Article × List String)
  | [], _ => none
  | (k, v) :: rest, key => if k = key then some v else find rest key

/-- The map after `articleMap[key] = v`. -/
def assign : ArticleMap → server × title → Article × List String → ArticleMap
  | [], key, v => [(key, v)]
  | (k, w) :: rest, key, v =>
    if k = key then (key, v) :: rest
    else if keyLt key k then (key, v) :: (k, w) :: rest
    else (k, w) :: assign rest key v

/-- The map invariant of `std::map`: keys strictly ascending. -/
def KeysSorted (m : ArticleMap) : Prop :=
  List.Pairwise (fun a b => keyLt a.1 b.1) m

/-- `NewsAggregator::updateRawMap` (the body runs under `mapLock`): the article map after
the call. -/
def updateRawMap (articleMap : ArticleMap) (tokens : List String) (key : server × title)
    (article : Article) : ArticleMap :=
  match find articleMap key with
  | none =>
    -- If we haven't seen this server/title pair before, add it to the raw map
    assign articleMap key (article, tokens)
  | some curr =>
    let currTokens := sort curr.2
    let tokens := sort tokens
    let tokens_intersect := set_intersection currTokens tokens
    -- Save the URL that comes first lexicographically
    if article.url > curr.1.url then
      assign articleMap key (curr.1, tokens_intersect)
    else
      assign articleMap key (article, tokens_intersect)

/-- A sequence of `updateRawMap` calls on one key, each with its token list and article. -/
def merges (articleMap : ArticleMap) (key : server × title)
    (calls : List (List String × Article)) : ArticleMap :=
  calls.foldl (fun m c => updateRawMap m c.1 key c.2) articleMap

/-- A sequence of `updateRawMap` calls on arbitrary keys. -/
def mergeAll (articleMap : ArticleMap)
    (calls : List (List String × (server × title) × Article)) : ArticleMap :=
  calls.foldl (fun m c => updateRawMap m c.1 c.2.1 c.2.2) articleMap

/-! ## The seen-URL set, the fan-in barrier and the crawl tasks -/

/-- Modelled from the spec: the counting semaphore of `semaphore.h` (not among the
sources): an integer counter, which may start negative; `signal` increments it and `wait`
blocks until it is positive and then decrements it. -/
structure semaphore where
  value : Int
deriving DecidableEq, Repr, Inhabited

/-- The semaphore after `signal()`. -/
def semaphore.signal (s : semaphore) : semaphore := ⟨s.value + 1⟩

/-- The semaphore after a `wait()` that passes; `none` while `wait()` blocks. -/
def semaphore.wait (s : semaphore) : Option semaphore :=
  if 0 < s.value then some ⟨s.value - 1⟩ else none

/-- Subtraction of two `size_t` values (64 bits, wrapping). -/
def size_t_sub (a b : Nat) : Nat := (a + 2 ^ 64 - b % 2 ^ 64) % 2 ^ 64

/-- Narrowing of a `size_t` to `int` (32 bits, two's complement). -/
def int_of_size_t (n : Nat) : Int :=
  if n % 2 ^ 32 < 2 ^ 31 then ((n % 2 ^ 32 : Nat) : Int) else ((n % 2 ^ 32 : Nat) : Int) - 2 ^ 32

/-- The fan-in semaphore of `runFeedThread`: `semaphore completed(1 - articles.size())`. -/
def completed (articles : List Article) : semaphore :=
  ⟨int_of_size_t (size_t_sub 1 (articles.length % 2 ^ 64))⟩

/-- The set after `seenURLs.insert(u)` on a `std::set<url>`. -/
def setInsert (u : url) : List url → List url
  | [] => [u]
  | v :: rest =>
    if u < v then u :: v :: rest
    else if v < u then v :: setInsert u rest
    else v :: rest

/-- A task of one of the two pools: `runFeedThread(f)` scheduled by `processAllFeeds`, or
the thunk `runArticleThread(article); completed.signal();` scheduled by the feed task with
index `feed` in the task table. -/
inductive Task where
  | feed (f : url × String)
  | article (article : Article) (feed : Nat)
deriving DecidableEq, Repr

/-- The URL a task carries. -/
def Task.url : Task → url
  | .feed f => f.1
  | .article a _ => a.url

/-- Control points of a task. -/
inductive Pc where
  /-- Before the `seenLock` critical section. -/
  | admission
  /-- URL inserted; before `document.parse()` / `feed.parse()`. -/
  | parse
  /-- Feed task: before the semaphore is built and the article tasks are scheduled. -/
  | schedule (articles : List Article)
  /-- Feed task: before `completed.wait()`. -/
  | waitCompleted
  /-- Article task: before `updateRawMap(document.getTokens(), ...)`. -/
  | update (tokens : List String)
  /-- Article task: `runArticleThread` has returned; before `completed.signal()`. -/
  | signal
  /-- The task has returned. -/
  | returned
deriving DecidableEq, Repr

/-- A task with its control point and, for a feed task, its semaphore `completed`. -/
structure Thread where
  task : Task
  pc : Pc
  completed : semaphore
deriving DecidableEq, Repr

/-- What the external parser does when a task calls it. -/
inductive Outcome where
  /-- The parser throws (`HTMLDocumentException` / `RSSFeedException`). -/
  | failure
  /-- The tokens of `document.getTokens()`. -/
  | tokens (ts : List String)
  /-- The articles of `feed.getArticles()`. -/
  | articles (as : List Article)
deriving DecidableEq, Repr

/-- Shared state of a crawl: the fields `seenURLs` and `articleMap` of `NewsAggregator`,
the tasks, and two logs kept for the proofs: the URLs handed to the external parsers and
the URLs admitted, both in order. -/
structure Crawl where
  seenURLs : List url
  articleMap : ArticleMap
  threads : List Thread
  parsed : List url
  admitted : List url
deriving DecidableEq, Repr

/-- One step of task `i`, which runs `runArticleThread(article)` and then signals the
semaphore of feed task `feed`; `o` is what `document.parse()` does if this step calls it.
`none` when the task cannot move. -/
def runArticleThread (getURLServer : url → server) (s : Crawl) (i : Nat) (t : Thread)
    (article : Article) (feed : Nat) (o : Outcome) : Option Crawl :=
  match t.pc with
  | .admission =>
    -- Make sure this isn't a duplicate URL
    if article.url ∈ s.seenURLs then
      some { s with threads := s.threads.set i { t with pc := .signal } }
    else
      some { s with
        seenURLs := setInsert article.url s.seenURLs
        admitted := s.admitted ++ [article.url]
        threads := s.threads.set i { t with pc := .parse } }
  | .parse =>
    match o with
    | .failure =>
      some { s with
        parsed := s.parsed ++ [article.url]
        threads := s.threads.set i { t with pc := .signal } }
    | .tokens ts =>
      some { s with
        parsed := s.parsed ++ [article.url]
        threads := s.threads.set i { t with pc := .update ts } }
    | .articles _ => none
  | .update ts =>
    some { s with
      articleMap := updateRawMap s.articleMap ts (getURLServer article.url, article.title) article
      threads := s.threads.set i { t with pc := .signal } }
  | .signal =>
    match s.threads[feed]? with
    | some ft =>
      some { s with
        threads := (s.threads.set feed { ft with completed := ft.completed.signal }).set i
          { t with pc := .returned } }
    | none => none
  | _ => none

/-- One step of task `i`, which runs `runFeedThread(f)`; `o` is what `feed.parse()` does
if this step calls it. `none` when the task cannot move. -/
def runFeedThread (s : Crawl) (i : Nat) (t : Thread) (f : url × String) (o : Outcome) :
    Option Crawl :=
  match t.pc with
  | .admission =>
    -- Check that we haven't seen this feed URI before, returning if we have
    if f.1 ∈ s.seenURLs then
      some { s with threads := s.threads.set i { t with pc := .returned } }
    else
      some { s with
        seenURLs := setInsert f.1 s.seenURLs
        admitted := s.admitted ++ [f.1]
        threads := s.threads.set i { t with pc := .parse } }
  | .parse =>
    match o with
    | .failure =>
      some { s with
        parsed := s.parsed ++ [f.1]
        threads := s.threads.set i { t with pc := .returned } }
    | .articles as =>
      some { s with
        parsed := s.parsed ++ [f.1]
        threads := s.threads.set i { t with pc := .schedule as } }
    | .tokens _ => none
  | .schedule articles =>
    some { s with
      threads := s.threads.set i { t with pc := .waitCompleted, completed := completed articles }
        ++ articles.map (fun a => ⟨.article a i, .admission, ⟨0⟩⟩) }
  | .waitCompleted =>
    match t.completed.wait with
    | some c => some { s with threads := s.threads.set i { t with pc := .returned, completed := c } }
    | none => none
  | _ => none

/-- One step of the crawl: task `a.1` moves, the external parser answering `a.2`. -/
def step (getURLServer : url → server) (s : Crawl) (a : Nat × Outcome) : Option Crawl :=
  match s.threads[a.1]? with
  | none => none
  | some t =>
    match t.task with
    | .article article feed => runArticleThread getURLServer s a.1 t article feed a.2
    | .feed f => runFeedThread s a.1 t f a.2

/-- A run of the crawl: the steps `as` one after the other. -/
def run (getURLServer : url → server) (s : Crawl) : List (Nat × Outcome) → Option Crawl
  | [] => some s
  | a :: as => (step getURLServer s a).bind (fun s2 => run getURLServer s2 as)

/-- The crawl when `processAllFeeds` has scheduled one feed task per feed. -/
def init (feeds : List (url × String)) : Crawl :=
  { seenURLs := [], articleMap := [], parsed := [], admitted := []
    threads := feeds.map (fun f => ⟨.feed f, .admission, ⟨0⟩⟩) }

/-- Parses task `t` owes for URL `u`: one when it has been admitted with `u` and has not
called the parser yet. -/
def parseDue (u : url) (t : Thread) : Nat :=
  if t.pc = .parse ∧ t.task.url = u then 1 else 0

/-- Invariant of the crawl: no URL is admitted twice, the admitted URLs are the elements
of `seenURLs`, and for every URL the parser calls made and owed do not exceed its
admissions. -/
def AdmittedOnce (s : Crawl) : Prop :=
  s.admitted.Nodup ∧ (∀ u, u ∈ s.admitted ↔ u ∈ s.seenURLs) ∧
    ∀ u, (s.threads.map (parseDue u)).sum + s.parsed.count u ≤ s.admitted.count u

/-- A crawl of two feeds that both list the article `http://s/a`: both feeds are admitted,
parsed and schedule their article task; the first article task is admitted, the second is
skipped; the document parse of the first then succeeds. -/
def sampleCrawl : List (Nat × Outcome) :=
  [(0, .failure), (0, .articles [⟨"http://s/a", "T"⟩]), (0, .failure),
   (1, .failure), (1, .articles [⟨"http://s/a", "T"⟩]), (1, .failure),
   (2, .failure), (3, .failure), (2, .tokens ["x", "y"])]

/-- The state `sampleCrawl` leads to. -/
def sampleCrawlState : Crawl :=
  (run (fun _ => "s") (init [("http://s/f1", "F1"), ("http://s/f2", "F2")]) sampleCrawl).getD
    (init [])

/-- The value `1 - k` of the fan-in semaphore of a feed with `k` articles, as the code
computes it. -/
def barrier (k : Nat) : Int := int_of_size_t (size_t_sub 1 (k % 2 ^ 64))

/-- One for an article task scheduled by feed task `i`. -/
def scheduledBy (i : Nat) (t : Thread) : Nat :=
  match t.task with
  | .article _ feed => if feed = i then 1 else 0
  | .feed _ => 0

/-- One for an article task scheduled by feed task `i` that has run `completed.signal()`
and returned. -/
def signalledBy (i : Nat) (t : Thread) : Nat :=
  if t.pc = .returned then scheduledBy i t else 0

/-- How many article tasks feed task `i` has scheduled. -/
def articleTasks (s : Crawl) (i : Nat) : Nat := (s.threads.map (scheduledBy i)).sum

/-- How many article tasks of feed task `i` have signalled its semaphore. -/
def signals (s : Crawl) (i : Nat) : Nat := (s.threads.map (signalledBy i)).sum

/-- What holds of task `t` at index `i` in the invariant of the fan-in: a feed task that
waits has `completed` at its initial value plus one per article task that has signalled,
a feed task that has not scheduled yet has no article task, and an article task was
scheduled by a feed task and is at a control point of `runArticleThread`. -/
def FanInAt (s : Crawl) (i : Nat) (t : Thread) : Prop :=
  match t.task with
  | .feed _ =>
    (t.pc = .waitCompleted →
      t.completed.value = barrier (articleTasks s i) + signals s i) ∧
    (t.pc ≠ .waitCompleted → t.pc ≠ .returned → articleTasks s i = 0)
  | .article _ feed =>
    (∃ ft f, s.threads[feed]? = some ft ∧ ft.task = .feed f) ∧
    (∀ l, t.pc ≠ .schedule l) ∧ t.pc ≠ .waitCompleted

/-- Invariant of the fan-in barrier of the crawl. -/
def FanIn (s : Crawl) : Prop := ∀ i t, s.threads[i]? = some t → FanInAt s i t

/-- A crawl of one feed with three articles in which the first two article tasks have
signalled and the third, a duplicate of the first, is about to signal. -/
def sampleFanIn : List (Nat × Outcome) :=
  [(0, .failure),
   (0, .articles [⟨"http://s/a", "T"⟩, ⟨"http://s/b", "T"⟩, ⟨"http://s/a", "T"⟩]),
   (0, .failure),
   (1, .failure), (1, .failure), (1, .failure),
   (2, .failure), (2, .tokens ["x"]), (2, .failure), (2, .failure),
   (3, .failure)]

/-- The state `sampleFanIn` leads to. -/
def sampleFanInState : Crawl :=
  (run (fun _ => "s") (init [("http://s/f1", "F1")]) sampleFanIn).getD (init [])

/-- A crawl of one feed with two articles in which the first article task has been
admitted and is about to call `document.parse()`. -/
def sampleFailure : List (Nat × Outcome) :=
  [(0, .failure), (0, .articles [⟨"http://s/a", "T"⟩, ⟨"http://s/b", "T"⟩]), (0, .failure),
   (1, .failure)]

/-- The state `sampleFailure` leads to. -/
def sampleFailureState : Crawl :=
  (run (fun _ => "s") (init [("http://s/f1", "F1")]) sampleFailure).getD (init [])

end NewsAggregator

/-! ## The thread pool of `thread-pool.cc` -/

namespace ThreadPool

open NewsAggregator (semaphore)

/-- A thunk, named by a number. -/
abbrev thunk_t := Nat

/-- The value after `++` on a `std::atomic<size_t>`. -/
def size_t_inc (n : Nat) : Nat := (n + 1) % 2 ^ 64

/-- The value after `--` on a `std::atomic<size_t>`. -/
def size_t_dec (n : Nat) : Nat := (n + 2 ^ 64 - 1) % 2 ^ 64

/-- The struct `worker_t`. -/
structure worker_t where
  id : Nat
  available : Bool
  job_waiting : semaphore
  job : Option thunk_t
deriving DecidableEq, Repr

/-- Control points of a worker thread (`ThreadPool::worker`). -/
inductive WorkerPc where
  /-- Thread created; before `num_workers++`. -/
  | start
  /-- Before the first `num_available_workers++`. -/
  | incAvailableFirst
  /-- Before `worker.available = true`. -/
  | setAvailable
  /-- Before `available_workers.signal()`. -/
  | signalAvailable
  /-- Before `worker.job_waiting.wait()`. -/
  | waitJob
  /-- Before `if (done)`. -/
  | checkDone
  /-- Before the call `worker.job()`. -/
  | callJob
  /-- Inside the thunk. -/
  | running (t : thunk_t)
  /-- Before `num_available_workers++` after the job. -/
  | incAvailable
  /-- Before `if (num_available_workers == num_workers)`. -/
  | checkAll
  /-- The thread routine has returned. -/
  | exited
deriving DecidableEq, Repr

/-- Control points of the dispatcher thread (`ThreadPool::dispatcher`). -/
inductive DispatcherPc where
  /-- Before `queue_not_empty.wait()`. -/
  | waitQueue
  /-- Before `available_workers.wait()`. -/
  | waitWorker
  /-- Before `if (done)`. -/
  | checkDone
  /-- In the search loop, before `if (w.available)` for `w = workers[i]`. -/
  | search (i : Nat)
  /-- Before `w.available = false` for `w = workers[i]`. -/
  | markBusy (i : Nat)
  /-- Before `num_available_workers--`. -/
  | decAvailable
  /-- Before `worker_t& worker = workers[worker_id]`. -/
  | bindWorker
  /-- Before the `q_lock` section with `front()` and `pop()`. -/
  | pop
  /-- Before `worker.job = thunk`. -/
  | setJob
  /-- Before `worker.job_waiting.signal()`. -/
  | signalJob
  /-- The thread routine has returned. -/
  | exited
deriving DecidableEq, Repr

/-- Control points of a thread in `wait()`, which evaluates the predicate
`(num_available_workers == num_workers) && (scheduled.size() == 0)` under `cv_lock`: two
atomic loads, in an order the language leaves open, and then the size of the queue. The
dispatcher and the workers change the three without `cv_lock`, so they can run between
the reads. -/
inductive WaitPc where
  /-- No evaluation under way: before the call, or asleep on `all_available` after the
  predicate was false (a wake-up, notified or spurious, evaluates it again). -/
  | idle
  /-- One operand of `==` has been read with value `v`, `num_available_workers` when
  `availableFirst` and `num_workers` otherwise; before the read of the other operand. -/
  | compare (availableFirst : Bool) (v : Nat)
  /-- The operands were equal; before `scheduled.size() == 0`. -/
  | size
  /-- The predicate was true: `wait()` has returned. -/
  | returned
deriving DecidableEq, Repr

/-- Control points of the thread running `~ThreadPool`. -/
inductive DtorPc where
  /-- The destructor has not been called. -/
  | live
  /-- In the call `wait()`; at `wait .returned` the call has returned and `done = true` is
  the next statement. -/
  | wait (pc : WaitPc)
  /-- Before `workers[i].job_waiting.signal()`. -/
  | signalWorker (i : Nat)
  /-- Before `wts[i].join()`. -/
  | joinWorker (i : Nat)
  /-- Before `queue_not_empty.signal()`. -/
  | signalQueue
  /-- Before `available_workers.signal()`. -/
  | signalAvailable
  /-- Before `dt.join()`. -/
  | joinDispatcher
  /-- The destructor has returned. -/
  | finished
deriving DecidableEq, Repr

/-- State of a `ThreadPool`: its fields, the control points of its threads, of the
destructor and of a caller of `wait()`, the locals `worker_id` and `thunk` of the
dispatcher, the number of `schedule` calls between their `push` and their `signal`, and
four logs kept for the proofs. -/
structure Pool where
  /-- The constructor argument. -/
  numThreads : Nat
  workers : Nat → worker_t
  /-- Control point of the thread `wts[i]`. -/
  wts : Nat → WorkerPc
  /-- Control point of the thread `dt`. -/
  dt : DispatcherPc
  worker_id : Option Nat
  thunk : Option thunk_t
  available_workers : semaphore
  queue_not_empty : semaphore
  num_workers : Nat
  num_available_workers : Nat
  done : Bool
  scheduled : List thunk_t
  signalsDue : Nat
  dtor : DtorPc
  /-- Thunks in the order `schedule` pushed them. -/
  scheduleLog : List thunk_t
  /-- Thunks in the order the dispatcher stored them in a `worker.job`. -/
  dispatchLog : List thunk_t
  /-- Thunks in the order workers called them. -/
  startLog : List thunk_t
  /-- Thunks in the order they returned. -/
  finishLog : List thunk_t
  /-- Control point of a thread that calls `wait()`. -/
  waiter : WaitPc

/-- The pool when the constructor `ThreadPool(numThreads)` returns: every `workers[i]`
initialised with `available = true` and `job = nullptr`, the dispatcher and the workers
spawned, none having run a statement yet. -/
def init (numThreads : Nat) : Pool :=
  { numThreads := numThreads
    workers := fun i => ⟨i, true, ⟨0⟩, none⟩
    wts := fun _ => .start
    dt := .waitQueue
    worker_id := none
    thunk := none
    available_workers := ⟨0⟩
    queue_not_empty := ⟨0⟩
    num_workers := 0
    num_available_workers := 0
    done := false
    scheduled := []
    signalsDue := 0
    dtor := .live
    scheduleLog := []
    dispatchLog := []
    startLog := []
    finishLog := []
    waiter := .idle }

/-- The `q_lock` section of `schedule(thunk)`: `scheduled.push(thunk)`. -/
def schedulePush (s : Pool) (thunk : thunk_t) : Option Pool :=
  some { s with
    scheduled := s.scheduled ++ [thunk]
    signalsDue := s.signalsDue + 1
    scheduleLog := s.scheduleLog ++ [thunk] }

/-- The last statement of `schedule`: `queue_not_empty.signal()`. -/
def scheduleSignal (s : Pool) : Option Pool :=
  if 0 < s.signalsDue then
    some { s with
      queue_not_empty := s.queue_not_empty.signal
      signalsDue := s.signalsDue - 1 }
  else none

/-- The predicate of `wait()`:
`num_available_workers == num_workers && scheduled.size() == 0`. -/
def waitPredicate (s : Pool) : Bool :=
  s.num_available_workers == s.num_workers && s.scheduled.length == 0

/-- One read of the evaluation of the predicate of `wait()` by a thread at `pc`; the
first read is of `num_available_workers` when `availableFirst` and of `num_workers`
otherwise. -/
def evaluate (s : Pool) (availableFirst : Bool) : WaitPc → WaitPc
  | .compare first v =>
    if v = (if first then s.num_workers else s.num_available_workers) then .size else .idle
  | .size => if s.scheduled.length = 0 then .returned else .idle
  | _ => .compare availableFirst
      (if availableFirst then s.num_available_workers else s.num_workers)

/-- One read of a call of `wait()`; at `returned` a new call starts. -/
def wait (s : Pool) (availableFirst : Bool) : Option Pool :=
  some { s with waiter := evaluate s availableFirst s.waiter }

/-- One statement of the dispatcher thread. `none` when it blocks, has exited, or the
statement has no defined behaviour (`workers[worker_id]` with `worker_id` never assigned,
`front()` of an empty queue). -/
def dispatcher (s : Pool) : Option Pool :=
  match s.dt with
  | .waitQueue =>
    (s.queue_not_empty.wait).map (fun q => { s with queue_not_empty := q, dt := .waitWorker })
  | .waitWorker =>
    (s.available_workers.wait).map
      (fun q => { s with available_workers := q, dt := .checkDone })
  | .checkDone =>
    if s.done then some { s with dt := .exited }
    else some { s with worker_id := none, thunk := none, dt := .search 0 }
  | .search i =>
    if i < s.numThreads then
      if (s.workers i).available then
        some { s with worker_id := some (s.workers i).id, dt := .markBusy i }
      else some { s with dt := .search (i + 1) }
    else some { s with dt := .bindWorker }
  | .markBusy i =>
    some { s with
      workers := Function.update s.workers i { s.workers i with available := false }
      dt := .decAvailable }
  | .decAvailable =>
    some { s with num_available_workers := size_t_dec s.num_available_workers, dt := .bindWorker }
  | .bindWorker =>
    match s.worker_id with
    | some w => if w < s.numThreads then some { s with dt := .pop } else none
    | none => none
  | .pop =>
    match s.scheduled with
    | thunk :: rest => some { s with thunk := some thunk, scheduled := rest, dt := .setJob }
    | [] => none
  | .setJob =>
    match s.worker_id, s.thunk with
    | some w, some thunk =>
      some { s with
        workers := Function.update s.workers w { s.workers w with job := some thunk }
        dispatchLog := s.dispatchLog ++ [thunk]
        dt := .signalJob }
    | _, _ => none
  | .signalJob =>
    match s.worker_id with
    | some w =>
      some { s with
        workers := Function.update s.workers w
          { s.workers w with job_waiting := (s.workers w).job_waiting.signal }
        dt := .waitQueue }
    | none => none
  | .exited => none

/-- One statement of the worker thread `wts[i]`, which runs `worker(workers[i])`. `none`
when it blocks, has exited, there is no such thread, or it calls an empty `job`. -/
def worker (s : Pool) (i : Nat) : Option Pool :=
  if i < s.numThreads then
    match s.wts i with
    | .start =>
      some { s with
        num_workers := size_t_inc s.num_workers
        wts := Function.update s.wts i .incAvailableFirst }
    | .incAvailableFirst =>
      some { s with
        num_available_workers := size_t_inc s.num_available_workers
        wts := Function.update s.wts i .setAvailable }
    | .setAvailable =>
      some { s with
        workers := Function.update s.workers i { s.workers i with available := true }
        wts := Function.update s.wts i .signalAvailable }
    | .signalAvailable =>
      some { s with
        available_workers := s.available_workers.signal
        wts := Function.update s.wts i .waitJob }
    | .waitJob =>
      ((s.workers i).job_waiting.wait).map (fun q =>
        { s with
          workers := Function.update s.workers i { s.workers i with job_waiting := q }
          wts := Function.update s.wts i .checkDone })
    | .checkDone =>
      if s.done then some { s with wts := Function.update s.wts i .exited }
      else some { s with wts := Function.update s.wts i .callJob }
    | .callJob =>
      match (s.workers i).job with
      | some t =>
        some { s with
          startLog := s.startLog ++ [t]
          wts := Function.update s.wts i (.running t) }
      | none => none
    | .running t =>
      some { s with
        finishLog := s.finishLog ++ [t]
        wts := Function.update s.wts i .incAvailable }
    | .incAvailable =>
      some { s with
        num_available_workers := size_t_inc s.num_available_workers
        wts := Function.update s.wts i .checkAll }
    | .checkAll =>
      -- `all_available.notify_all()` changes no field
      some { s with wts := Function.update s.wts i .setAvailable }
    | .exited => none
  else none

/-- One statement of `~ThreadPool`, the reads of its call of `wait()` one at a time.
`none` when it blocks in a `join` or has returned. -/
def destructor (s : Pool) (availableFirst : Bool) : Option Pool :=
  match s.dtor with
  | .live => some { s with dtor := .wait (evaluate s availableFirst .idle) }
  | .wait .returned =>
    some { s with done := true, dtor := if 0 < s.numThreads then .signalWorker 0 else .signalQueue }
  | .wait pc => some { s with dtor := .wait (evaluate s availableFirst pc) }
  | .signalWorker i =>
    some { s with
      workers := Function.update s.workers i
        { s.workers i with job_waiting := (s.workers i).job_waiting.signal }
      dtor := .joinWorker i }
  | .joinWorker i =>
    if s.wts i = .exited then
      some { s with dtor := if i + 1 < s.numThreads then .signalWorker (i + 1) else .signalQueue }
    else none
  | .signalQueue =>
    some { s with queue_not_empty := s.queue_not_empty.signal, dtor := .signalAvailable }
  | .signalAvailable =>
    some { s with available_workers := s.available_workers.signal, dtor := .joinDispatcher }
  | .joinDispatcher => if s.dt = .exited then some { s with dtor := .finished } else none
  | .finished => none

/-- What can happen next in a pool. -/
inductive Action where
  /-- A caller of `schedule(thunk)` pushes the thunk. -/
  | schedulePush (thunk : thunk_t)
  /-- A caller of `schedule` that has pushed signals `queue_not_empty`. -/
  | scheduleSignal
  /-- A thread in `wait()` makes its next read. -/
  | wait (availableFirst : Bool)
  /-- The dispatcher runs its next statement. -/
  | dispatcher
  /-- Worker thread `i` runs its next statement. -/
  | worker (i : Nat)
  /-- The destructor runs its next statement. -/
  | destructor (availableFirst : Bool)
deriving DecidableEq, Repr

/-- One step of the pool. No call of `schedule` starts once the destructor has been
called; a call that has pushed may still signal. -/
def step (s : Pool) : Action → Option Pool
  | .schedulePush thunk => if s.dtor = .live then schedulePush s thunk else none
  | .scheduleSignal => scheduleSignal s
  | .wait availableFirst => wait s availableFirst
  | .dispatcher => dispatcher s
  | .worker i => worker s i
  | .destructor availableFirst => destructor s availableFirst

/-- A run of the pool: the actions `as` one after the other. -/
def run (s : Pool) : List Action → Option Pool
  | [] => some s
  | a :: as => (step s a).bind (fun s2 => run s2 as)

/-- The states a pool of `numThreads` workers can reach. -/
def Reachable (numThreads : Nat) (s : Pool) : Prop :=
  ∃ as, run (init numThreads) as = some s

/-- How many worker threads have run `num_workers++`. -/
def startedWorkers (s : Pool) : Nat :=
  ((List.range s.numThreads).filter (fun i => decide (s.wts i ≠ .start))).length

/-- The thunk the dispatcher has popped and not yet stored in a `worker.job`. -/
def inHand (s : Pool) : List thunk_t :=
  if s.dt = .setJob then s.thunk.toList else []

/-- The counter `num_workers` counts the worker threads that have started. -/
def CountsStarted (N : Nat) (s : Pool) : Prop :=
  s.numThreads = N ∧ s.num_workers = startedWorkers s

/-- The interleaving in which worker thread 1 starts before worker thread 0, for a pool of
two workers and the calls `schedule(1); schedule(2); wait()`: the dispatcher hands thunk 1
to `workers[0]`, whose thread has not started and whose `available` flag the constructor
set; thread 0 then starts and sets the flag again, the dispatcher hands thunk 2 to
`workers[0]` as well, over thunk 1, and thread 0 runs `worker.job` twice. -/
def lostThunkTrace : List Action :=
  [.schedulePush 1, .scheduleSignal, .schedulePush 2, .scheduleSignal,
   -- worker thread 1: num_workers++, num_available_workers++, available = true, signal
   .worker 1, .worker 1, .worker 1, .worker 1,
   -- dispatcher: both waits, done, search finds workers[0], mark, decrement, bind, pop,
   -- job = 1, signal
   .dispatcher, .dispatcher, .dispatcher, .dispatcher, .dispatcher, .dispatcher,
   .dispatcher, .dispatcher, .dispatcher, .dispatcher,
   -- worker thread 0 starts: both increments, available = true, signal
   .worker 0, .worker 0, .worker 0, .worker 0,
   -- dispatcher: the same ten statements, job = 2
   .dispatcher, .dispatcher, .dispatcher, .dispatcher, .dispatcher, .dispatcher,
   .dispatcher, .dispatcher, .dispatcher, .dispatcher,
   -- worker thread 0: wait, done, call job (2), return, increment, compare; twice
   .worker 0, .worker 0, .worker 0, .worker 0, .worker 0, .worker 0,
   .worker 0, .worker 0,
   .worker 0, .worker 0, .worker 0, .worker 0, .worker 0, .worker 0,
   -- wait(): the two counters, then the size of the queue
   .wait true, .wait true, .wait true]

/-- A run of a pool of one worker: the worker thread starts and idles, `schedule(5)` is
called, the dispatcher hands thunk 5 to the worker, the worker runs it and increments
`num_available_workers`. -/
def quiescentTrace : List Action :=
  [.worker 0, .worker 0, .worker 0, .worker 0, .schedulePush 5, .scheduleSignal,
   .dispatcher, .dispatcher, .dispatcher, .dispatcher, .dispatcher, .dispatcher,
   .dispatcher, .dispatcher, .dispatcher, .dispatcher,
   .worker 0, .worker 0, .worker 0, .worker 0, .worker 0, .worker 0]

/-- The state `quiescentTrace` leads to. -/
def quiescentState : Pool := (run (init 1) quiescentTrace).getD (init 1)

/-! ## The ledgers of the thread pool: who owes what to the counters and semaphores -/

/-- Sum of `f 0, ..., f (n - 1)`. -/
def sumTo : Nat → (Nat → Int) → Int
  | 0, _ => 0
  | n + 1, f => sumTo n f + f n

/-- One for a worker thread that has taken a job from its handoff and has not yet run the
`num_available_workers++` that follows the job. -/
def busy : WorkerPc → Int
  | .checkDone => 1
  | .callJob => 1
  | .running _ => 1
  | .incAvailable => 1
  | _ => 0

/-- One for a worker thread that has run its first `num_available_workers++`. -/
def pastStart : WorkerPc → Int
  | .start => 0
  | .incAvailableFirst => 0
  | _ => 1

/-- One for a worker thread that has run `num_workers++`. -/
def started : WorkerPc → Int
  | .start => 0
  | _ => 1

/-- One for a worker thread blocked at (or about to pass) `job_waiting.wait()`: it has
signalled `available_workers` in this round of its loop. -/
def idle : WorkerPc → Int
  | .waitJob => 1
  | _ => 0

/-- One while the dispatcher has marked `workers[j]` busy and not yet signalled its
handoff. -/
def midDispatch (s : Pool) (j : Nat) : Int :=
  match s.dt with
  | .decAvailable => if s.worker_id = some j then 1 else 0
  | .bindWorker => if s.worker_id = some j then 1 else 0
  | .pop => if s.worker_id = some j then 1 else 0
  | .setJob => if s.worker_id = some j then 1 else 0
  | .signalJob => if s.worker_id = some j then 1 else 0
  | _ => 0

/-- One while the dispatcher has decremented `num_available_workers` and not yet signalled
the handoff of the worker it chose. -/
def decremented (s : Pool) : Int :=
  match s.dt with
  | .bindWorker => 1
  | .pop => 1
  | .setJob => 1
  | .signalJob => 1
  | _ => 0

/-- One while the dispatcher has passed `available_workers.wait()` and not yet signalled
the handoff of a worker. -/
def handing (s : Pool) : Int :=
  match s.dt with
  | .checkDone => 1
  | .search _ => 1
  | .markBusy _ => 1
  | .decAvailable => 1
  | .bindWorker => 1
  | .pop => 1
  | .setJob => 1
  | .signalJob => 1
  | _ => 0

/-- One while the dispatcher has passed `queue_not_empty.wait()` and not yet popped. -/
def queueHeld (s : Pool) : Int :=
  match s.dt with
  | .waitWorker => 1
  | .checkDone => 1
  | .search _ => 1
  | .markBusy _ => 1
  | .decAvailable => 1
  | .bindWorker => 1
  | .pop => 1
  | _ => 0

/-- Balance of worker `j` against `num_available_workers`: its first increment, less the
jobs waiting in or taken from its handoff and not yet followed by an increment. -/
def debit (s : Pool) (j : Nat) : Int :=
  pastStart (s.wts j) - (s.workers j).job_waiting.value - busy (s.wts j)

/-- Balance of worker `j` against `available_workers`: one when it waits for a job, less
the jobs waiting in its handoff. -/
def credit (s : Pool) (j : Nat) : Int :=
  idle (s.wts j) - (s.workers j).job_waiting.value

/-- Facts that hold in every state of a pool of `N` workers. -/
structure Basic (N : Nat) (s : Pool) : Prop where
  numThreads_eq : s.numThreads = N
  id_eq : ∀ j, (s.workers j).id = j
  job_waiting_nonneg : ∀ j, 0 ≤ (s.workers j).job_waiting.value
  available_nonneg : 0 ≤ s.available_workers.value
  queue_nonneg : 0 ≤ s.queue_not_empty.value

/-- Invariant of the pool while `done` is false. -/
structure Live (s : Pool) : Prop where
  done_false : s.done = false
  not_exited : s.dt ≠ .exited
  queue : (s.scheduled.length : Int) = s.queue_not_empty.value + s.signalsDue + queueHeld s
  counter : sumTo s.numThreads (debit s) = s.num_available_workers + decremented s
  tokens : sumTo s.numThreads (credit s) = s.available_workers.value + handing s
  flag : ∀ j, j < s.numThreads → (s.wts j = .signalAvailable ∨ s.wts j = .waitJob) →
    (s.workers j).job_waiting.value = 0 → midDispatch s j = 0 → (s.workers j).available = true
  found : ∀ k, s.dt = .search k →
    ∃ i, k ≤ i ∧ i < s.numThreads ∧ s.wts i = .waitJob ∧ (s.workers i).job_waiting.value = 0
  marked : ∀ k, s.dt = .markBusy k → k < s.numThreads ∧ s.worker_id = some k
  chosen : s.dt = .decAvailable ∨ s.dt = .bindWorker ∨ s.dt = .pop ∨ s.dt = .setJob ∨
    s.dt = .signalJob → ∃ w, w < s.numThreads ∧ s.worker_id = some w
  popped : s.dt = .setJob → s.thunk ≠ none

/-- One for a worker thread that has found `done` false after taking a job and has not
yet run the `num_available_workers++` that follows the job. -/
def working : WorkerPc → Int
  | .callJob => 1
  | .running _ => 1
  | .incAvailable => 1
  | _ => 0

/-- One for a worker thread whose job has returned and which has not yet run the
`num_available_workers++` that follows it. -/
def returning : WorkerPc → Int
  | .incAvailable => 1
  | _ => 0

/-- One while the dispatcher has decremented `num_available_workers` and not yet stored the
thunk in `worker.job`. -/
def unlogged (s : Pool) : Int :=
  match s.dt with
  | .bindWorker => 1
  | .pop => 1
  | .setJob => 1
  | _ => 0

/-- Invariant of the pool once the destructor has set `done`. -/
structure Shutdown (s : Pool) : Prop where
  dispatcher_pc : s.dt = .waitQueue ∨ s.dt = .waitWorker ∨ s.dt = .checkDone ∨
    s.dt = .setJob ∨ s.dt = .signalJob ∨ s.dt = .exited
  counter : (s.num_available_workers : Int) ≤
    sumTo s.numThreads (fun j => pastStart (s.wts j) - working (s.wts j))
  chosen : s.dt = .setJob ∨ s.dt = .signalJob → ∃ w, w < s.numThreads ∧ s.worker_id = some w
  popped : s.dt = .setJob → s.thunk ≠ none

/-- Invariant of a pool of `N` workers. -/
structure PoolInv (N : Nat) (s : Pool) : Prop where
  basic : Basic N s
  workers : CountsStarted N s
  live : s.done = false → Live s
  shutdown : s.done = true → Shutdown s

/-- Whether the destructor's call of `wait()` has returned. -/
def waited : DtorPc → Bool
  | .live => false
  | .wait .returned => true
  | .wait _ => false
  | _ => true

/-- The flag `done` is set exactly when the destructor has run `done = true`, and the
queue is empty from the return of the destructor's `wait()` on. -/
structure Phase (s : Pool) : Prop where
  done_iff : s.done = true ↔ (s.dtor ≠ .live ∧ ∀ pc, s.dtor ≠ .wait pc)
  drained : waited s.dtor = true → s.scheduled = []

/-- The counter `num_available_workers` against the logs: the start-up increments and the
increments after returned jobs, less the decrements of the dispatcher. -/
def History (s : Pool) : Prop :=
  (s.num_available_workers : Int) + s.dispatchLog.length + unlogged s +
      sumTo s.numThreads (fun j => returning (s.wts j)) =
    sumTo s.numThreads (fun j => pastStart (s.wts j)) + s.finishLog.length

/-- The job the dispatcher is about to signal is the thunk it dispatched last. -/
def Handoff (s : Pool) : Prop :=
  s.dt = .signalJob →
    ∃ w t, s.worker_id = some w ∧ (s.workers w).job = some t ∧ s.dispatchLog.getLast? = some t

/-- The invariant of the pool. -/
def Invariant (N : Nat) (s : Pool) : Prop := PoolInv N s ∧ Phase s ∧ History s ∧ Handoff s

/-- No task is dispatched and unfinished: the dispatcher holds no thunk, at least as many
thunks have returned as the dispatcher has stored in a `worker.job`, and every worker
whose job has returned has run the increment that follows it. -/
def NoneInFlight (s : Pool) : Prop :=
  inHand s = [] ∧ s.dispatchLog.length ≤ s.finishLog.length ∧
  ∀ j, j < s.numThreads → s.wts j ≠ .incAvailable

/-- A run of a pool of two workers up to the start of the dispatcher's second search: both
worker threads start and idle, `schedule(1); schedule(2)` are called, the dispatcher hands
thunk 1 to `workers[0]`, thread 0 takes it and calls it, and the dispatcher passes both
waits and the `done` test again. -/
def searchTrace : List Action :=
  [.worker 0, .worker 0, .worker 0, .worker 0, .worker 1, .worker 1, .worker 1, .worker 1,
   .schedulePush 1, .scheduleSignal, .schedulePush 2, .scheduleSignal,
   .dispatcher, .dispatcher, .dispatcher, .dispatcher, .dispatcher, .dispatcher,
   .dispatcher, .dispatcher, .dispatcher, .dispatcher,
   -- worker thread 0: wait, done, call job (1)
   .worker 0, .worker 0, .worker 0,
   -- dispatcher: both waits, done
   .dispatcher, .dispatcher, .dispatcher]

/-- The state `searchTrace` leads to. -/
def searchState : Pool := (run (init 2) searchTrace).getD (init 2)

/-- The run `searchTrace` continued: the search loop reads `workers[0].available` (clear),
thunk 1 returns and thread 0 increments, compares and sets `workers[0].available`, and the
search loop reads `workers[1].available` (set). -/
def scanRaceTrace : List Action :=
  searchTrace ++ [.dispatcher, .worker 0, .worker 0, .worker 0, .worker 0, .dispatcher]

/-- The first statements of `lostThunkTrace`: thunk 1 is in `workers[0].job` with the
handoff signalled, and thread 0 has started and set `workers[0].available`. -/
def pendingJobTrace : List Action := lostThunkTrace.take 22

/-- A run of a pool of two workers up to the store of the first thunk: `schedule(7)`,
`schedule(8)` and the push of `schedule(9)`, the start of worker thread 0, and the
dispatcher up to and including the pop. -/
def handoffTrace : List Action :=
  [.schedulePush 7, .scheduleSignal, .schedulePush 8, .scheduleSignal, .schedulePush 9,
   .worker 0, .worker 0, .worker 0, .worker 0,
   .dispatcher, .dispatcher, .dispatcher, .dispatcher, .dispatcher, .dispatcher,
   .dispatcher, .dispatcher]

/-- The state `handoffTrace` leads to. -/
def handoffState : Pool := (run (init 2) handoffTrace).getD (init 2)

/-- A run of a pool of one worker for `schedule(5)` and the destructor: the `wait()` of
the destructor reads the two counters (1 and 1) while the worker idles and the queue holds
thunk 5, the dispatcher runs up to and including the pop, `wait()` reads the empty queue
and returns, `done` is set, the dispatcher stores the thunk and signals, and the worker
takes the job, finds `done` set and leaves its loop. -/
def droppedJobTrace : List Action :=
  [.worker 0, .worker 0, .worker 0, .worker 0, .schedulePush 5, .scheduleSignal,
   .destructor true, .destructor true,
   .dispatcher, .dispatcher, .dispatcher, .dispatcher, .dispatcher, .dispatcher,
   .dispatcher, .dispatcher,
   .destructor true, .destructor true,
   .dispatcher, .dispatcher,
   .worker 0, .worker 0]

end ThreadPool

namespace NewsAggregator

/-! ## Theorems: the article merger -/

theorem count_eq_zero_of_lt_head {a b : String} {bs : List String}
    (h : (b :: bs).Sorted (fun x y => x ≤ y)) (hab : a < b) : (b :: bs).count a = 0 := by
  apply List.count_eq_zero_of_not_mem
  intro hmem
  rcases List.mem_cons.1 hmem with rfl | hm
  · exact lt_irrefl _ hab
  · exact absurd (lt_of_lt_of_le hab (List.rel_of_sorted_cons h a hm)) (lt_irrefl _)

theorem count_set_intersection (l1 : List String) :
    ∀ l2 : List String, l1.Sorted (fun x y => x ≤ y) → l2.Sorted (fun x y => x ≤ y) →
      ∀ t, (set_intersection l1 l2).count t = min (l1.count t) (l2.count t) := by
  induction l1 with
  | nil => intro l2 _ _ t; simp [set_intersection]
  | cons a as ih =>
    intro l2
    induction l2 with
    | nil => intro _ _ t; simp [set_intersection, set_intersection1]
    | cons b bs ih2 =>
      intro h1 h2 t
      have h1t : as.Sorted (fun x y => x ≤ y) := h1.of_cons
      have h2t : bs.Sorted (fun x y => x ≤ y) := h2.of_cons
      simp only [set_intersection, set_intersection1]
      split
      · rename_i hab
        rw [ih (b :: bs) h1t h2 t]
        by_cases hta : t = a
        · subst hta
          rw [count_eq_zero_of_lt_head h2 hab]; simp
        · rw [List.count_cons_of_ne hta]
      · split
        · rename_i hba
          have := ih2 h1 h2t t
          simp only [set_intersection] at this
          rw [this]
          by_cases htb : t = b
          · subst htb
            rw [count_eq_zero_of_lt_head h1 hba]; simp
          · rw [List.count_cons_of_ne htb]
        · rename_i hab hba
          have hab2 : a = b := le_antisymm (not_lt.1 hba) (not_lt.1 hab)
          subst hab2
          rw [List.count_cons, List.count_cons, List.count_cons, ih bs h1t h2t t]
          exact (min_add_add_right _ _ _).symm

theorem count_sort (v : List String) (t : String) : (sort v).count t = v.count t :=
  (List.perm_insertionSort _ v).count_eq t

theorem sorted_sort (v : List String) : (sort v).Sorted (fun x y => x ≤ y) :=
  List.sorted_insertionSort _ v

theorem find_assign_self (m : ArticleMap) (key : server × title) (v : Article × List String) :
    find (assign m key v) key = some v := by
  induction m with
  | nil => simp [assign, find]
  | cons e rest ih =>
    obtain ⟨k, w⟩ := e
    simp only [assign]
    split
    · simp [find]
    · split
      · simp [find]
      · rename_i hk _
        simp [find, hk, ih]

theorem find_assign_other (m : ArticleMap) (key k2 : server × title)
    (v : Article × List String) (h : k2 ≠ key) :
    find (assign m key v) k2 = find m k2 := by
  induction m with
  | nil => simp [assign, find, Ne.symm h]
  | cons e rest ih =>
    obtain ⟨k, w⟩ := e
    simp only [assign]
    split
    · rename_i hk
      subst hk
      simp [find, Ne.symm h]
    · split
      · simp [find, Ne.symm h]
      · simp [find, ih]

/-- Stored value after `updateRawMap` on a key that is present. -/
theorem find_updateRawMap_present (m : ArticleMap) (tokens : List String)
    (key : server × title) (article : Article) (curr : Article × List String)
    (h : find m key = some curr) :
    find (updateRawMap m tokens key article) key =
      some (if article.url > curr.1.url then curr.1 else article,
        set_intersection (sort curr.2) (sort tokens)) := by
  unfold updateRawMap
  rw [h]
  simp only
  split <;> exact find_assign_self _ _ _

/-- Stored value after `updateRawMap` on a key that is absent. -/
theorem find_updateRawMap_absent (m : ArticleMap) (tokens : List String)
    (key : server × title) (article : Article) (h : find m key = none) :
    find (updateRawMap m tokens key article) key = some (article, tokens) := by
  unfold updateRawMap
  rw [h]
  exact find_assign_self _ _ _

theorem count_merged_tokens (a b : List String) (t : String) :
    (set_intersection (sort a) (sort b)).count t = min (a.count t) (b.count t) := by
  rw [count_set_intersection _ _ (sorted_sort a) (sorted_sort b), count_sort, count_sort]

/-- C1: for a key already present in the article map, `updateRawMap` replaces the stored
token list by the multiset intersection of the stored list and `tokens`: every token occurs
in the new stored list min(old occurrences, occurrences in `tokens`) times. -/
theorem updateRawMap_tokens_intersection (m : ArticleMap) (tokens : List String)
    (key : server × title) (article : Article) (curr : Article × List String)
    (h : find m key = some curr) :
    ∃ e, find (updateRawMap m tokens key article) key = some e ∧
      ∀ t, e.2.count t = min (curr.2.count t) (tokens.count t) := by
  refine ⟨_, find_updateRawMap_present m tokens key article curr h, ?_⟩
  intro t
  exact count_merged_tokens _ _ t

theorem updateRawMap_tokens_intersection_witness :
    find [(("s", "t"), ((⟨"a", "t"⟩ : Article), ["x", "y", "y", "z"]))] ("s", "t") =
        some (⟨"a", "t"⟩, ["x", "y", "y", "z"]) ∧
      find (updateRawMap [(("s", "t"), ((⟨"a", "t"⟩ : Article), ["x", "y", "y", "z"]))]
        ["y", "y", "z", "w"] ("s", "t") ⟨"b", "t"⟩) ("s", "t") =
        some (⟨"a", "t"⟩, ["y", "y", "z"]) ∧
      ∃ e, find (updateRawMap [(("s", "t"), ((⟨"a", "t"⟩ : Article), ["x", "y", "y", "z"]))]
          ["y", "y", "z", "w"] ("s", "t") ⟨"b", "t"⟩) ("s", "t") = some e ∧
        ∀ t, e.2.count t =
          min (["x", "y", "y", "z"].count t) (["y", "y", "z", "w"].count t) :=
  ⟨by decide, by decide,
    updateRawMap_tokens_intersection _ _ _ _ (⟨"a", "t"⟩, ["x", "y", "y", "z"]) (by decide)⟩

theorem coe_merged_tokens (a b : List String) :
    ((set_intersection (sort a) (sort b) : List String) : Multiset String) =
      (a : Multiset String) ∩ (b : Multiset String) := by
  ext t
  rw [Multiset.count_inter, Multiset.coe_count, Multiset.coe_count, Multiset.coe_count]
  exact count_merged_tokens a b t

theorem foldl_inter_pull (a : Multiset String) (l : List (Multiset String)) :
    ∀ b, l.foldl (fun x y => x ∩ y) (a ∩ b) = a ∩ l.foldl (fun x y => x ∩ y) b := by
  induction l with
  | nil => intro b; rfl
  | cons y ys ih =>
    intro b
    simp only [List.foldl_cons]
    rw [← ih (b ∩ y)]
    congr 1
    simp only [← Multiset.inf_eq_inter, inf_assoc]

theorem foldl_inter_le_of_perm (x y : Multiset String) (xs ys : List (Multiset String))
    (h : (x :: xs).Perm (y :: ys)) :
    xs.foldl (fun a b => a ∩ b) x ≤ ys.foldl (fun a b => a ∩ b) y := by
  have hcomm : ∀ u ∈ x :: xs, ∀ v ∈ x :: xs, ∀ z : Multiset String,
      (z ∩ u) ∩ v = (z ∩ v) ∩ u := by
    intro u _ v _ z
    simp only [← Multiset.inf_eq_inter, inf_assoc, inf_comm u v]
  have h1 : xs.foldl (fun a b => a ∩ b) x = (x :: xs).foldl (fun a b => a ∩ b) x := by
    simp only [List.foldl_cons]
    congr 1
    simp [← Multiset.inf_eq_inter]
  have h2 := List.Perm.foldl_eq' h hcomm x
  have h3 : (y :: ys).foldl (fun a b => a ∩ b) x = x ∩ ys.foldl (fun a b => a ∩ b) y := by
    simp only [List.foldl_cons]
    exact foldl_inter_pull x ys y
  rw [h1, h2, h3]
  exact Multiset.inter_le_right _ _

theorem foldl_inter_eq_of_perm (x y : Multiset String) (xs ys : List (Multiset String))
    (h : (x :: xs).Perm (y :: ys)) :
    xs.foldl (fun a b => a ∩ b) x = ys.foldl (fun a b => a ∩ b) y :=
  le_antisymm (foldl_inter_le_of_perm x y xs ys h) (foldl_inter_le_of_perm y x ys xs h.symm)

/-- Tokens stored after a run of merges on a key that is present. -/
theorem find_merges_present_tokens (key : server × title) :
    ∀ (cs : List (List String × Article)) (m : ArticleMap) (curr : Article × List String),
      find m key = some curr →
      ∃ e, find (merges m key cs) key = some e ∧
        (e.2 : Multiset String) =
          (cs.map (fun c => (c.1 : Multiset String))).foldl (fun a b => a ∩ b)
            (curr.2 : Multiset String) := by
  intro cs
  induction cs with
  | nil => intro m curr h; exact ⟨curr, h, rfl⟩
  | cons c cs ih =>
    intro m curr h
    have hstep := find_updateRawMap_present m c.1 key c.2 curr h
    obtain ⟨e, he, hcount⟩ := ih _ _ hstep
    refine ⟨e, he, ?_⟩
    rw [hcount]
    simp only [List.map_cons, List.foldl_cons, coe_merged_tokens]

/-- Tokens stored after a non-empty run of merges on a key that was absent. -/
theorem find_merges_absent_tokens (key : server × title) (m : ArticleMap)
    (c : List String × Article) (cs : List (List String × Article))
    (h : find m key = none) :
    ∃ e, find (merges m key (c :: cs)) key = some e ∧
      (e.2 : Multiset String) =
        (cs.map (fun c => (c.1 : Multiset String))).foldl (fun a b => a ∩ b)
          (c.1 : Multiset String) :=
  find_merges_present_tokens key cs _ (c.2, c.1) (find_updateRawMap_absent m c.1 key c.2 h)

/-- C2: a non-empty sequence of `updateRawMap` calls on one key, starting from a map
without that key, leaves under the key the multiset intersection T1 ∩ T2 ∩ ... ∩ Tk of the
token lists, and every permutation of the calls leaves the same multiset. -/
theorem merges_tokens_intersection_any_order (m : ArticleMap) (key : server × title)
    (c : List String × Article) (cs : List (List String × Article))
    (h : find m key = none) :
    ∃ e, find (merges m key (c :: cs)) key = some e ∧
      (e.2 : Multiset String) =
        (cs.map (fun c => (c.1 : Multiset String))).foldl (fun a b => a ∩ b)
          (c.1 : Multiset String) ∧
      ∀ cs2 : List (List String × Article), cs2.Perm (c :: cs) →
        ∃ e2, find (merges m key cs2) key = some e2 ∧
          (e2.2 : Multiset String) = (e.2 : Multiset String) := by
  obtain ⟨e, he, htok⟩ := find_merges_absent_tokens key m c cs h
  refine ⟨e, he, htok, ?_⟩
  intro cs2 hperm
  cases cs2 with
  | nil => exact absurd hperm.symm (List.cons_ne_nil _ _ ∘ List.Perm.eq_nil)
  | cons d ds =>
    obtain ⟨e2, he2, htok2⟩ := find_merges_absent_tokens key m d ds h
    refine ⟨e2, he2, ?_⟩
    rw [htok, htok2]
    have hp : ((d.1 : Multiset String) :: ds.map (fun c => (c.1 : Multiset String))).Perm
        ((c.1 : Multiset String) :: cs.map (fun c => (c.1 : Multiset String))) := by
      have := hperm.map (fun c : List String × Article => (c.1 : Multiset String))
      simpa using this
    exact foldl_inter_eq_of_perm _ _ _ _ hp

theorem merges_tokens_intersection_any_order_witness :
    find ([] : ArticleMap) ("s", "t") = none ∧
      find (merges [] ("s", "t") [(["x", "y", "y", "z"], ⟨"a", "t"⟩),
        (["y", "y", "z", "w"], ⟨"b", "t"⟩), (["z", "y", "q"], ⟨"c", "t"⟩)]) ("s", "t") =
        some (⟨"a", "t"⟩, ["y", "z"]) ∧
      find (merges [] ("s", "t") [(["z", "y", "q"], ⟨"c", "t"⟩),
        (["y", "y", "z", "w"], ⟨"b", "t"⟩), (["x", "y", "y", "z"], ⟨"a", "t"⟩)]) ("s", "t") =
        some (⟨"a", "t"⟩, ["y", "z"]) ∧
      ∃ e, find (merges [] ("s", "t") [(["x", "y", "y", "z"], ⟨"a", "t"⟩),
          (["y", "y", "z", "w"], ⟨"b", "t"⟩), (["z", "y", "q"], ⟨"c", "t"⟩)]) ("s", "t") =
          some e ∧
        (e.2 : Multiset String) =
          ([(["y", "y", "z", "w"], (⟨"b", "t"⟩ : Article)), (["z", "y", "q"], ⟨"c", "t"⟩)].map
            (fun c => (c.1 : Multiset String))).foldl (fun a b => a ∩ b)
            ((["x", "y", "y", "z"] : List String) : Multiset String) ∧
        ∀ cs2 : List (List String × Article),
          cs2.Perm [(["x", "y", "y", "z"], ⟨"a", "t"⟩), (["y", "y", "z", "w"], ⟨"b", "t"⟩),
            (["z", "y", "q"], ⟨"c", "t"⟩)] →
          ∃ e2, find (merges [] ("s", "t") cs2) ("s", "t") = some e2 ∧
            (e2.2 : Multiset String) = (e.2 : Multiset String) :=
  ⟨by decide, by decide, by decide,
    merges_tokens_intersection_any_order [] ("s", "t") _ _ (by decide)⟩

/-- Article stored after a run of merges on a key that is present. -/
theorem find_merges_present_url (key : server × title) :
    ∀ (cs : List (List String × Article)) (m : ArticleMap) (curr : Article × List String),
      find m key = some curr →
      ∃ e, find (merges m key cs) key = some e ∧
        e.1 ∈ curr.1 :: cs.map (fun c => c.2) ∧ e.1.url ≤ curr.1.url ∧
        ∀ c ∈ cs, e.1.url ≤ c.2.url := by
  intro cs
  induction cs with
  | nil => intro m curr h; exact ⟨curr, h, by simp, le_refl _, by simp⟩
  | cons c cs ih =>
    intro m curr h
    have hstep := find_updateRawMap_present m c.1 key c.2 curr h
    obtain ⟨e, he, hmem, hle, hall⟩ := ih _ _ hstep
    refine ⟨e, he, ?_, ?_, ?_⟩
    · simp only [List.mem_cons] at hmem ⊢
      rcases hmem with h1 | h1
      · rw [h1]; split <;> simp
      · simp [h1]
    · refine le_trans hle ?_
      show (if c.2.url > curr.1.url then curr.1 else c.2).url ≤ curr.1.url
      split
      · exact le_refl _
      · rename_i hgt; exact not_lt.1 hgt
    · intro c2 hc2
      rcases List.mem_cons.1 hc2 with rfl | h2
      · refine le_trans hle ?_
        show (if c2.2.url > curr.1.url then curr.1 else c2.2).url ≤ c2.2.url
        split
        · rename_i hgt; exact le_of_lt hgt
        · exact le_refl _
      · exact hall c2 h2

/-- Article stored after a non-empty run of merges on a key that was absent: one of the
merged articles, with a URL no greater than any merged URL. -/
theorem find_merges_absent_url (key : server × title) (m : ArticleMap)
    (c : List String × Article) (cs : List (List String × Article))
    (h : find m key = none) :
    ∃ e, find (merges m key (c :: cs)) key = some e ∧
      e.1 ∈ (c :: cs).map (fun c => c.2) ∧ ∀ c2 ∈ c :: cs, e.1.url ≤ c2.2.url := by
  obtain ⟨e, he, hmem, hle, hall⟩ :=
    find_merges_present_url key cs _ (c.2, c.1) (find_updateRawMap_absent m c.1 key c.2 h)
  refine ⟨e, he, by simpa using hmem, ?_⟩
  intro c2 hc2
  rcases List.mem_cons.1 hc2 with rfl | h2
  · exact hle
  · exact hall c2 h2

/-- C3: two articles with the same key and URLs u1 < u2, merged in either order into a map
without the key, leave the article with url u1 under the key; and after any non-empty
sequence of merges on one key the stored article is one of the merged articles and its URL
is the least URL merged. -/
theorem updateRawMap_keeps_smallest_url (m : ArticleMap) (key : server × title)
    (h : find m key = none) :
    (∀ (a1 a2 : Article) (t1 t2 : List String), a1.url < a2.url →
      (∃ e, find (merges m key [(t1, a1), (t2, a2)]) key = some e ∧ e.1.url = a1.url) ∧
      (∃ e, find (merges m key [(t2, a2), (t1, a1)]) key = some e ∧ e.1.url = a1.url)) ∧
    (∀ (c : List String × Article) (cs : List (List String × Article)),
      ∃ e, find (merges m key (c :: cs)) key = some e ∧
        e.1 ∈ (c :: cs).map (fun c => c.2) ∧ ∀ c2 ∈ c :: cs, e.1.url ≤ c2.2.url) := by
  refine ⟨?_, fun c cs => find_merges_absent_url key m c cs h⟩
  intro a1 a2 t1 t2 hlt
  constructor
  · obtain ⟨e, he, hmem, hall⟩ := find_merges_absent_url key m (t1, a1) [(t2, a2)] h
    refine ⟨e, he, ?_⟩
    simp only [List.map_cons, List.map_nil, List.mem_cons, List.mem_singleton,
      List.not_mem_nil, or_false] at hmem
    rcases hmem with h1 | h1
    · rw [h1]
    · have := hall (t1, a1) (by simp)
      rw [h1] at this
      exact absurd (lt_of_lt_of_le hlt this) (lt_irrefl _)
  · obtain ⟨e, he, hmem, hall⟩ := find_merges_absent_url key m (t2, a2) [(t1, a1)] h
    refine ⟨e, he, ?_⟩
    simp only [List.map_cons, List.map_nil, List.mem_cons, List.mem_singleton,
      List.not_mem_nil, or_false] at hmem
    rcases hmem with h1 | h1
    · have := hall (t1, a1) (by simp)
      rw [h1] at this
      exact absurd (lt_of_lt_of_le hlt this) (lt_irrefl _)
    · rw [h1]

theorem updateRawMap_keeps_smallest_url_witness :
    find ([] : ArticleMap) ("s", "t") = none ∧
      find (merges [] ("s", "t") [(["x"], ⟨"http://s/b", "t"⟩), (["x"], ⟨"http://s/a", "t"⟩),
        (["x"], ⟨"http://s/c", "t"⟩)]) ("s", "t") = some (⟨"http://s/a", "t"⟩, ["x"]) ∧
      ((∀ (a1 a2 : Article) (t1 t2 : List String), a1.url < a2.url →
        (∃ e, find (merges [] ("s", "t") [(t1, a1), (t2, a2)]) ("s", "t") = some e ∧
          e.1.url = a1.url) ∧
        (∃ e, find (merges [] ("s", "t") [(t2, a2), (t1, a1)]) ("s", "t") = some e ∧
          e.1.url = a1.url)) ∧
      (∀ (c : List String × Article) (cs : List (List String × Article)),
        ∃ e, find (merges [] ("s", "t") (c :: cs)) ("s", "t") = some e ∧
          e.1 ∈ (c :: cs).map (fun c => c.2) ∧ ∀ c2 ∈ c :: cs, e.1.url ≤ c2.2.url)) :=
  ⟨by decide, by decide, updateRawMap_keeps_smallest_url [] ("s", "t") (by decide)⟩

theorem keyLt_irrefl (a : server × title) : ¬ keyLt a a := by
  intro h
  rcases h with h | ⟨_, h⟩ <;> exact lt_irrefl _ h

theorem keyLt_trans {a b c : server × title} (hab : keyLt a b) (hbc : keyLt b c) :
    keyLt a c := by
  rcases hab with h1 | ⟨h1, h2⟩
  · rcases hbc with h3 | ⟨h3, _⟩
    · exact Or.inl (lt_trans h1 h3)
    · exact Or.inl (lt_of_lt_of_le h1 (not_lt.1 h3))
  · rcases hbc with h3 | ⟨h3, h4⟩
    · exact Or.inl (lt_of_le_of_lt (not_lt.1 h1) h3)
    · exact Or.inr ⟨not_lt.2 (le_trans (not_lt.1 h1) (not_lt.1 h3)), lt_trans h2 h4⟩

theorem keyLt_of_ne_of_not_gt {a b : server × title} (hne : a ≠ b) (h : ¬ keyLt b a) :
    keyLt a b := by
  unfold keyLt at h ⊢
  push_neg at h
  obtain ⟨h1, h2⟩ := h
  by_cases h3 : a.1 < b.1
  · exact Or.inl h3
  · refine Or.inr ⟨not_lt.2 h1, ?_⟩
    have h4 : a.2 ≤ b.2 := h2 h3
    have h5 : a.1 = b.1 := le_antisymm h1 (not_lt.1 h3)
    rcases lt_or_eq_of_le h4 with h6 | h6
    · exact h6
    · exact absurd (Prod.ext h5 h6) hne

theorem mem_keys_of_find {m : ArticleMap} {key : server × title}
    {v : Article × List String} (h : find m key = some v) : (key, v) ∈ m := by
  induction m with
  | nil => simp [find] at h
  | cons e rest ih =>
    obtain ⟨k, w⟩ := e
    simp only [find] at h
    split at h
    · rename_i hk
      cases h
      subst hk
      exact List.mem_cons_self _ _
    · exact List.mem_cons_of_mem _ (ih h)

theorem find_ne_none_iff (m : ArticleMap) (key : server × title) :
    find m key ≠ none ↔ key ∈ m.map Prod.fst := by
  induction m with
  | nil => simp [find]
  | cons e rest ih =>
    obtain ⟨k, w⟩ := e
    simp only [find, List.map_cons, List.mem_cons]
    split
    · rename_i hk
      simp [hk]
    · rename_i hk
      rw [ih]
      constructor
      · exact Or.inr
      · rintro (h | h)
        · exact absurd h.symm hk
        · exact h

theorem mem_assign {m : ArticleMap} {key : server × title} {v : Article × List String}
    {e : (server × title) × (Article × List String)} (h : e ∈ assign m key v) :
    e = (key, v) ∨ e ∈ m := by
  induction m with
  | nil => simpa [assign] using h
  | cons e0 rest ih =>
    obtain ⟨k, w⟩ := e0
    simp only [assign] at h
    split at h
    · rcases List.mem_cons.1 h with h1 | h1
      · exact Or.inl h1
      · exact Or.inr (List.mem_cons_of_mem _ h1)
    · split at h
      · rcases List.mem_cons.1 h with h1 | h1
        · exact Or.inl h1
        · exact Or.inr h1
      · rcases List.mem_cons.1 h with h1 | h1
        · exact Or.inr (h1 ▸ List.mem_cons_self _ _)
        · rcases ih h1 with h2 | h2
          · exact Or.inl h2
          · exact Or.inr (List.mem_cons_of_mem _ h2)

theorem keysSorted_assign {m : ArticleMap} (key : server × title)
    (v : Article × List String) (h : KeysSorted m) : KeysSorted (assign m key v) := by
  induction m with
  | nil => simp [assign, KeysSorted]
  | cons e0 rest ih =>
    obtain ⟨k, w⟩ := e0
    unfold KeysSorted at h ⊢
    rw [List.pairwise_cons] at h
    obtain ⟨hhead, htail⟩ := h
    simp only [assign]
    split
    · rename_i hk
      subst hk
      exact List.pairwise_cons.2 ⟨hhead, htail⟩
    · split
      · rename_i hk hlt
        refine List.pairwise_cons.2 ⟨?_, List.pairwise_cons.2 ⟨hhead, htail⟩⟩
        intro e he
        rcases List.mem_cons.1 he with rfl | he2
        · exact hlt
        · exact keyLt_trans hlt (hhead e he2)
      · rename_i hk hlt
        refine List.pairwise_cons.2 ⟨?_, ih htail⟩
        intro e he
        rcases mem_assign he with rfl | he2
        · exact keyLt_of_ne_of_not_gt hk hlt
        · exact hhead e he2

theorem length_assign_absent (m : ArticleMap) (key : server × title)
    (v : Article × List String) (h : find m key = none) :
    (assign m key v).length = m.length + 1 := by
  induction m with
  | nil => simp [assign]
  | cons e0 rest ih =>
    obtain ⟨k, w⟩ := e0
    simp only [find] at h
    split at h
    · cases h
    · rename_i hk
      simp only [assign, if_neg hk]
      split
      · simp
      · simp [ih h]

theorem length_assign_present (m : ArticleMap) (key : server × title)
    (v : Article × List String) (hs : KeysSorted m) (h : find m key ≠ none) :
    (assign m key v).length = m.length := by
  induction m with
  | nil => simp [find] at h
  | cons e0 rest ih =>
    obtain ⟨k, w⟩ := e0
    unfold KeysSorted at hs
    rw [List.pairwise_cons] at hs
    obtain ⟨hhead, htail⟩ := hs
    simp only [find] at h
    simp only [assign]
    split
    · simp
    · rename_i hk
      rw [if_neg hk] at h
      split
      · rename_i hlt
        obtain ⟨c, hc⟩ := Option.ne_none_iff_exists'.1 h
        have := hhead _ (mem_keys_of_find hc)
        exact absurd (keyLt_trans hlt this) (keyLt_irrefl _)
      · simp [ih htail h]

theorem updateRawMap_eq_assign (m : ArticleMap) (tokens : List String)
    (key : server × title) (article : Article) :
    ∃ v, updateRawMap m tokens key article = assign m key v := by
  unfold updateRawMap
  split
  · exact ⟨_, rfl⟩
  · simp only
    split <;> exact ⟨_, rfl⟩

theorem keysSorted_updateRawMap {m : ArticleMap} (tokens : List String)
    (key : server × title) (article : Article) (h : KeysSorted m) :
    KeysSorted (updateRawMap m tokens key article) := by
  obtain ⟨v, hv⟩ := updateRawMap_eq_assign m tokens key article
  rw [hv]
  exact keysSorted_assign key v h

theorem mem_keys_updateRawMap (m : ArticleMap) (tokens : List String)
    (key : server × title) (article : Article) (k : server × title) :
    k ∈ (updateRawMap m tokens key article).map Prod.fst ↔ k = key ∨ k ∈ m.map Prod.fst := by
  obtain ⟨v, hv⟩ := updateRawMap_eq_assign m tokens key article
  rw [hv, ← find_ne_none_iff, ← find_ne_none_iff]
  by_cases hk : k = key
  · subst hk
    simp [find_assign_self]
  · rw [find_assign_other _ _ _ _ hk]
    simp [hk]

theorem mergeAll_keys (calls : List (List String × (server × title) × Article)) :
    ∀ m : ArticleMap, KeysSorted m →
      KeysSorted (mergeAll m calls) ∧
      ∀ k, k ∈ (mergeAll m calls).map Prod.fst ↔
        k ∈ m.map Prod.fst ∨ k ∈ calls.map (fun c => c.2.1) := by
  induction calls with
  | nil => intro m hm; exact ⟨hm, by simp [mergeAll]⟩
  | cons c cs ih =>
    intro m hm
    obtain ⟨h1, h2⟩ := ih _ (keysSorted_updateRawMap c.1 c.2.1 c.2.2 hm)
    refine ⟨h1, ?_⟩
    intro k
    have := h2 k
    simp only [mergeAll, List.foldl_cons] at this ⊢
    rw [this, mem_keys_updateRawMap]
    simp only [List.map_cons, List.mem_cons]
    tauto

theorem nodup_keys_of_sorted {m : ArticleMap} (h : KeysSorted m) :
    (m.map Prod.fst).Nodup := by
  unfold KeysSorted at h
  rw [List.Nodup, List.pairwise_map]
  refine h.imp ?_
  intro a b hab heq
  rw [heq] at hab
  exact keyLt_irrefl _ hab

/-- C4: on a key absent from the article map `updateRawMap` adds exactly one entry,
key -> (article, tokens) with the token list as given, and leaves every other key as it
was; on a key already present the number of entries is unchanged; hence after any sequence
of merges into the empty map each key merged has exactly one entry and no other key has
one. -/
theorem updateRawMap_one_entry_per_key :
    (∀ (m : ArticleMap) (tokens : List String) (key : server × title) (article : Article),
      find m key = none →
        find (updateRawMap m tokens key article) key = some (article, tokens) ∧
        (updateRawMap m tokens key article).length = m.length + 1 ∧
        ∀ k2, k2 ≠ key → find (updateRawMap m tokens key article) k2 = find m k2) ∧
    (∀ (m : ArticleMap) (tokens : List String) (key : server × title) (article : Article),
      KeysSorted m → find m key ≠ none →
        (updateRawMap m tokens key article).length = m.length) ∧
    (∀ calls : List (List String × (server × title) × Article),
      ((mergeAll [] calls).map Prod.fst).Nodup ∧
      ∀ k, k ∈ (mergeAll [] calls).map Prod.fst ↔ k ∈ calls.map (fun c => c.2.1)) := by
  refine ⟨?_, ?_, ?_⟩
  · intro m tokens key article h
    refine ⟨find_updateRawMap_absent m tokens key article h, ?_, ?_⟩
    · unfold updateRawMap
      rw [h]
      exact length_assign_absent m key _ h
    · intro k2 hk2
      obtain ⟨v, hv⟩ := updateRawMap_eq_assign m tokens key article
      rw [hv]
      exact find_assign_other m key k2 v hk2
  · intro m tokens key article hs h
    obtain ⟨v, hv⟩ := updateRawMap_eq_assign m tokens key article
    rw [hv]
    exact length_assign_present m key v hs h
  · intro calls
    obtain ⟨h1, h2⟩ := mergeAll_keys calls [] List.Pairwise.nil
    refine ⟨nodup_keys_of_sorted h1, ?_⟩
    intro k
    have hk := h2 k
    simp only [List.map_nil, List.not_mem_nil, false_or] at hk
    exact hk

theorem updateRawMap_one_entry_per_key_witness :
    updateRawMap [(("s", "t"), ((⟨"a", "t"⟩ : Article), ["x", "y"]))] ["q", "p", "q"]
        ("s", "u") ⟨"b", "u"⟩ =
      [(("s", "t"), (⟨"a", "t"⟩, ["x", "y"])), (("s", "u"), (⟨"b", "u"⟩, ["q", "p", "q"]))] ∧
    (updateRawMap [(("s", "t"), ((⟨"a", "t"⟩ : Article), ["x", "y"]))] ["y"]
        ("s", "t") ⟨"b", "t"⟩).length = 1 ∧
    (mergeAll [] [(["x"], ("s", "t"), ⟨"a", "t"⟩), (["x"], ("r", "t"), ⟨"c", "t"⟩),
        (["x"], ("s", "t"), ⟨"b", "t"⟩)]).map Prod.fst = [("r", "t"), ("s", "t")] ∧
    ((mergeAll [] [(["x"], ("s", "t"), ⟨"a", "t"⟩), (["x"], ("r", "t"), ⟨"c", "t"⟩),
        (["x"], ("s", "t"), ⟨"b", "t"⟩)]).map Prod.fst).Nodup :=
  ⟨by decide, by decide, by decide,
    (updateRawMap_one_entry_per_key.2.2 [(["x"], ("s", "t"), ⟨"a", "t"⟩),
      (["x"], ("r", "t"), ⟨"c", "t"⟩), (["x"], ("s", "t"), ⟨"b", "t"⟩)]).1⟩

end NewsAggregator

namespace NewsAggregator

/-! ## Theorems: the crawl and its fan-in barrier -/

/-- What a step of the crawl does, by the control point of the task that moves. -/
theorem step_cases (g : url → server) (s : Crawl) (a : Nat × Outcome) (s2 : Crawl)
    (h : step g s a = some s2) :
    ∃ t, s.threads[a.1]? = some t ∧
      ((t.pc = .admission ∧ t.task.url ∈ s.seenURLs ∧
          ∃ pc2, (pc2 = .signal ∨ pc2 = .returned) ∧
            s2 = { s with threads := s.threads.set a.1 { t with pc := pc2 } }) ∨
       (t.pc = .admission ∧ t.task.url ∉ s.seenURLs ∧
          s2 = { s with
            seenURLs := setInsert t.task.url s.seenURLs
            admitted := s.admitted ++ [t.task.url]
            threads := s.threads.set a.1 { t with pc := .parse } }) ∨
       (t.pc = .parse ∧ ∃ pc2, pc2 ≠ .parse ∧ pc2 ≠ .admission ∧
          s2 = { s with
            parsed := s.parsed ++ [t.task.url]
            threads := s.threads.set a.1 { t with pc := pc2 } }) ∨
       (∃ ts article feed, t.task = .article article feed ∧ t.pc = .update ts ∧
          s2 = { s with
            articleMap := updateRawMap s.articleMap ts (g article.url, article.title) article
            threads := s.threads.set a.1 { t with pc := .signal } }) ∨
       (∃ article feed ft, t.task = .article article feed ∧ t.pc = .signal ∧
          s.threads[feed]? = some ft ∧
          s2 = { s with
            threads := (s.threads.set feed { ft with completed := ft.completed.signal }).set a.1
              { t with pc := .returned } }) ∨
       (∃ f articles, t.task = .feed f ∧ t.pc = .schedule articles ∧
          s2 = { s with
            threads := s.threads.set a.1
                { t with pc := .waitCompleted, completed := completed articles }
              ++ articles.map (fun x => ⟨.article x a.1, .admission, ⟨0⟩⟩) }) ∨
       (∃ f c, t.task = .feed f ∧ t.pc = .waitCompleted ∧ t.completed.wait = some c ∧
          s2 = { s with
            threads := s.threads.set a.1 { t with pc := .returned, completed := c } })) := by
  unfold step at h
  split at h
  · cases h
  · rename_i t ht
    refine ⟨t, ht, ?_⟩
    split at h
    · rename_i article feed htask
      unfold runArticleThread at h
      split at h
      · rename_i hpc
        split at h
        · rename_i hmem
          cases h
          exact Or.inl ⟨hpc, by simpa [htask, Task.url] using hmem, .signal, Or.inl rfl, rfl⟩
        · rename_i hmem
          cases h
          refine Or.inr (Or.inl ⟨hpc, by simpa [htask, Task.url] using hmem, ?_⟩)
          simp [htask, Task.url]
      · rename_i hpc
        split at h
        · cases h
          refine Or.inr (Or.inr (Or.inl ⟨hpc, .signal, by simp, by simp, ?_⟩))
          simp [htask, Task.url]
        · rename_i ts _
          cases h
          refine Or.inr (Or.inr (Or.inl ⟨hpc, .update ts, by simp, by simp, ?_⟩))
          simp [htask, Task.url]
        · cases h
      · rename_i ts hpc
        cases h
        exact Or.inr (Or.inr (Or.inr (Or.inl ⟨ts, article, feed, htask, hpc, rfl⟩)))
      · rename_i hpc
        split at h
        · rename_i ft hft
          cases h
          exact Or.inr (Or.inr (Or.inr (Or.inr (Or.inl
            ⟨article, feed, ft, htask, hpc, hft, rfl⟩))))
        · cases h
      · cases h
    · rename_i f htask
      unfold runFeedThread at h
      split at h
      · rename_i hpc
        split at h
        · rename_i hmem
          cases h
          exact Or.inl ⟨hpc, by simpa [htask, Task.url] using hmem, .returned, Or.inr rfl, rfl⟩
        · rename_i hmem
          cases h
          refine Or.inr (Or.inl ⟨hpc, by simpa [htask, Task.url] using hmem, ?_⟩)
          simp [htask, Task.url]
      · rename_i hpc
        split at h
        · cases h
          refine Or.inr (Or.inr (Or.inl ⟨hpc, .returned, by simp, by simp, ?_⟩))
          simp [htask, Task.url]
        · rename_i arts _
          cases h
          refine Or.inr (Or.inr (Or.inl ⟨hpc, .schedule arts, by simp, by simp, ?_⟩))
          simp [htask, Task.url]
        · cases h
      · rename_i articles hpc
        cases h
        exact Or.inr (Or.inr (Or.inr (Or.inr (Or.inr (Or.inl
          ⟨f, articles, htask, hpc, rfl⟩)))))
      · rename_i hpc
        split at h
        · rename_i c hc
          cases h
          exact Or.inr (Or.inr (Or.inr (Or.inr (Or.inr (Or.inr
            ⟨f, c, htask, hpc, hc, rfl⟩)))))
        · cases h
      · cases h

theorem mem_setInsert (u x : url) (l : List url) : x ∈ setInsert u l ↔ x = u ∨ x ∈ l := by
  induction l with
  | nil => simp [setInsert]
  | cons v rest ih =>
    simp only [setInsert]
    split
    · simp
    · split
      · simp only [List.mem_cons, ih]; tauto
      · rename_i h1 h2
        have huv : u = v := le_antisymm (not_lt.1 h2) (not_lt.1 h1)
        subst huv
        simp

theorem sum_map_set (f : Thread → Nat) (l : List Thread) :
    ∀ (i : Nat) (t t2 : Thread), l[i]? = some t →
      ((l.set i t2).map f).sum + f t = (l.map f).sum + f t2 := by
  induction l with
  | nil => intro i t t2 h; simp at h
  | cons x l ih =>
    intro i t t2 h
    cases i with
    | zero =>
      simp only [List.getElem?_cons_zero, Option.some.injEq] at h
      subst h
      simp only [List.set_cons_zero, List.map_cons, List.sum_cons]
      omega
    | succ n =>
      simp only [List.getElem?_cons_succ] at h
      have := ih n t t2 h
      simp only [List.set_cons_succ, List.map_cons, List.sum_cons]
      omega

theorem sum_map_set_same (f : Thread → Nat) (l : List Thread) (i : Nat) (t t2 : Thread)
    (h : l[i]? = some t) (hf : f t2 = f t) : ((l.set i t2).map f).sum = (l.map f).sum := by
  have := sum_map_set f l i t t2 h
  omega

theorem parseDue_of_pc_ne (u : url) (t : Thread) (h : t.pc ≠ .parse) : parseDue u t = 0 := by
  simp [parseDue, h]

theorem admittedOnce_step (g : url → server) (s : Crawl) (a : Nat × Outcome) (s2 : Crawl)
    (hinv : AdmittedOnce s) (h : step g s a = some s2) : AdmittedOnce s2 := by
  obtain ⟨hnd, hmem, hdue⟩ := hinv
  obtain ⟨t, ht, hc⟩ := step_cases g s a s2 h
  rcases hc with ⟨hpc, _, pc2, hpc2, rfl⟩ | ⟨hpc, hnot, rfl⟩ | ⟨hpc, pc2, hpc2, _, rfl⟩ |
    ⟨ts, article, feed, _, hpc, rfl⟩ | ⟨article, feed, ft, _, hpc, hft, rfl⟩ |
    ⟨f, articles, _, hpc, rfl⟩ | ⟨f, c, _, hpc, _, rfl⟩
  · refine ⟨hnd, hmem, fun u => ?_⟩
    have := hdue u
    rw [sum_map_set_same (parseDue u) s.threads a.1 t _ ht]
    · exact this
    · rw [parseDue_of_pc_ne u t (by simp [hpc]), parseDue_of_pc_ne]
      rcases hpc2 with h | h <;> simp [h]
  · refine ⟨?_, ?_, fun u => ?_⟩
    · have hna : t.task.url ∉ s.admitted := fun hm => hnot ((hmem _).1 hm)
      exact List.Nodup.append hnd (List.nodup_singleton _) (by simpa using hna)
    · intro u
      simp only [List.mem_append, List.mem_singleton, mem_setInsert, hmem u]
      tauto
    · have h1 := hdue u
      have h2 := sum_map_set (parseDue u) s.threads a.1 t { t with pc := .parse } ht
      rw [parseDue_of_pc_ne u t (by simp [hpc])] at h2
      simp only [List.count_append]
      by_cases hu : t.task.url = u
      · have h3 : parseDue u { t with pc := .parse } = 1 := by simp [parseDue, hu]
        have h4 : List.count u [t.task.url] = 1 := by simp [hu]
        omega
      · have h3 : parseDue u { t with pc := .parse } = 0 := by simp [parseDue, hu]
        omega
  · refine ⟨hnd, hmem, fun u => ?_⟩
    have h1 := hdue u
    have h2 := sum_map_set (parseDue u) s.threads a.1 t { t with pc := pc2 } ht
    rw [parseDue_of_pc_ne u { t with pc := pc2 } (by simpa using hpc2)] at h2
    simp only [List.count_append]
    by_cases hu : t.task.url = u
    · have h3 : parseDue u t = 1 := by simp [parseDue, hu, hpc]
      have h4 : List.count u [t.task.url] = 1 := by simp [hu]
      omega
    · have h3 : parseDue u t = 0 := by simp [parseDue, hu]
      have h4 : List.count u [t.task.url] = 0 := by
        simp [List.count_singleton, hu]
      omega
  · refine ⟨hnd, hmem, fun u => ?_⟩
    have := hdue u
    rw [sum_map_set_same (parseDue u) s.threads a.1 t _ ht]
    · exact this
    · rw [parseDue_of_pc_ne u t (by simp [hpc]), parseDue_of_pc_ne]
      simp
  · refine ⟨hnd, hmem, fun u => ?_⟩
    have := hdue u
    have hlen : a.1 < s.threads.length := by
      rcases Nat.lt_or_ge a.1 s.threads.length with h | h
      · exact h
      · rw [List.getElem?_eq_none h] at ht; cases ht
    have hsecond : ((s.threads.set feed { ft with completed := ft.completed.signal })[a.1]?) =
        some (if feed = a.1 then { ft with completed := ft.completed.signal } else t) := by
      rw [List.getElem?_set]
      split
      · rename_i he
        subst he
        simp [hlen]
      · exact ht
    rw [sum_map_set_same (parseDue u) _ a.1 _ _ hsecond,
      sum_map_set_same (parseDue u) s.threads feed ft _ hft]
    · exact this
    · simp [parseDue]
    · rw [parseDue_of_pc_ne u _ (by simp)]
      split
      · rename_i he
        subst he
        rw [ht] at hft
        cases hft
        exact (parseDue_of_pc_ne u _ (by simp [hpc])).symm
      · exact (parseDue_of_pc_ne u _ (by simp [hpc])).symm
  · refine ⟨hnd, hmem, fun u => ?_⟩
    have := hdue u
    have hnew : ((articles.map (fun x => (⟨.article x a.1, .admission, ⟨0⟩⟩ : Thread))).map
        (parseDue u)).sum = 0 := by
      apply List.sum_eq_zero
      intro x hx
      simp only [List.map_map, List.mem_map, Function.comp] at hx
      obtain ⟨y, _, rfl⟩ := hx
      simp [parseDue]
    simp only [List.map_append, List.sum_append]
    rw [hnew, sum_map_set_same (parseDue u) s.threads a.1 t _ ht]
    · simpa using this
    · rw [parseDue_of_pc_ne u t (by simp [hpc]), parseDue_of_pc_ne]
      simp
  · refine ⟨hnd, hmem, fun u => ?_⟩
    have := hdue u
    rw [sum_map_set_same (parseDue u) s.threads a.1 t _ ht]
    · exact this
    · rw [parseDue_of_pc_ne u t (by simp [hpc]), parseDue_of_pc_ne]
      simp

theorem crawl_run_invariant (g : url → server) (P : Crawl → Prop)
    (hstep : ∀ s a s2, P s → step g s a = some s2 → P s2) :
    ∀ (as : List (Nat × Outcome)) (s0 s : Crawl), P s0 → run g s0 as = some s → P s := by
  intro as
  induction as with
  | nil =>
    intro s0 s h0 hrun
    simp only [run, Option.some.injEq] at hrun
    exact hrun ▸ h0
  | cons a as ih =>
    intro s0 s h0 hrun
    simp only [run] at hrun
    cases hs : step g s0 a with
    | none => rw [hs] at hrun; simp at hrun
    | some s1 =>
      rw [hs] at hrun
      exact ih s1 s (hstep s0 a s1 h0 hs) hrun

theorem admittedOnce_of_run (g : url → server) (feeds : List (url × String))
    (as : List (Nat × Outcome)) (s : Crawl) (hr : run g (init feeds) as = some s) :
    AdmittedOnce s := by
  refine crawl_run_invariant g AdmittedOnce (fun s a s2 h hs => admittedOnce_step g s a s2 h hs)
    as (init feeds) s ?_ hr
  refine ⟨List.nodup_nil, fun u => Iff.rfl, fun u => ?_⟩
  have hz : ((init feeds).threads.map (parseDue u)).sum = 0 := by
    apply List.sum_eq_zero
    intro x hx
    simp only [init, List.map_map, List.mem_map, Function.comp] at hx
    obtain ⟨y, _, rfl⟩ := hx
    simp [parseDue]
  rw [hz]
  simp [init]

theorem seen_mono_step (g : url → server) (s : Crawl) (a : Nat × Outcome) (s2 : Crawl)
    (h : step g s a = some s2) : ∀ u ∈ s.seenURLs, u ∈ s2.seenURLs := by
  obtain ⟨t, ht, hc⟩ := step_cases g s a s2 h
  intro u hu
  rcases hc with ⟨_, _, pc2, _, rfl⟩ | ⟨_, _, rfl⟩ | ⟨_, pc2, _, _, rfl⟩ |
    ⟨ts, article, feed, _, _, rfl⟩ | ⟨article, feed, ft, _, _, _, rfl⟩ |
    ⟨f, articles, _, _, rfl⟩ | ⟨f, c, _, _, _, rfl⟩
  all_goals first
    | exact hu
    | exact (mem_setInsert _ _ _).2 (Or.inr hu)

theorem seen_mono_run (g : url → server) (as : List (Nat × Outcome)) (s s2 : Crawl)
    (h : run g s as = some s2) : ∀ u ∈ s.seenURLs, u ∈ s2.seenURLs := by
  intro u hu
  exact crawl_run_invariant g (fun x => u ∈ x.seenURLs)
    (fun x a x2 hx hs => seen_mono_step g x a x2 hs u hx) as s s2 hu h

theorem le_sum_map_of_getElem (f : Thread → Nat) (l : List Thread) :
    ∀ (i : Nat) (t : Thread), l[i]? = some t → f t ≤ (l.map f).sum := by
  induction l with
  | nil => intro i t h; simp at h
  | cons x l ih =>
    intro i t h
    cases i with
    | zero =>
      simp only [List.getElem?_cons_zero, Option.some.injEq] at h
      subst h
      simp
    | succ n =>
      simp only [List.getElem?_cons_succ] at h
      have := ih n t h
      simp only [List.map_cons, List.sum_cons]
      omega

/-- A task between its admission and its parser call carries a URL of `seenURLs`. -/
theorem url_seen_of_parse_pc (s : Crawl) (hinv : AdmittedOnce s) (i : Nat) (t : Thread)
    (ht : s.threads[i]? = some t) (hpc : t.pc = .parse) : t.task.url ∈ s.seenURLs := by
  obtain ⟨_, hmem, hdue⟩ := hinv
  have h1 := hdue t.task.url
  have h2 := le_sum_map_of_getElem (parseDue t.task.url) s.threads i t ht
  have h3 : parseDue t.task.url t = 1 := by simp [parseDue, hpc]
  have h4 : 0 < s.admitted.count t.task.url := by omega
  exact (hmem _).1 (List.count_pos_iff.1 h4)

theorem lt_length_of_getElem {l : List Thread} {i : Nat} {t : Thread} (h : l[i]? = some t) :
    i < l.length := by
  rcases Nat.lt_or_ge i l.length with h1 | h1
  · exact h1
  · rw [List.getElem?_eq_none h1] at h; cases h

/-- The admission check of a task: a skip when its URL is in `seenURLs`, an insertion
otherwise. -/
theorem admission_step (g : url → server) (s : Crawl) (i : Nat) (t : Thread) (o : Outcome)
    (ht : s.threads[i]? = some t) (hpc : t.pc = .admission) :
    ∃ s2, step g s (i, o) = some s2 ∧ s2.parsed = s.parsed ∧ s2.articleMap = s.articleMap ∧
      (t.task.url ∈ s.seenURLs →
        s2.seenURLs = s.seenURLs ∧ s2.admitted = s.admitted ∧
        ∃ t2, s2.threads[i]? = some t2 ∧ (t2.pc = .signal ∨ t2.pc = .returned)) ∧
      (t.task.url ∉ s.seenURLs →
        s2.seenURLs = setInsert t.task.url s.seenURLs ∧ t.task.url ∈ s2.seenURLs ∧
        s2.admitted = s.admitted ++ [t.task.url] ∧
        ∃ t2, s2.threads[i]? = some t2 ∧ t2.pc = .parse) := by
  have hlen := lt_length_of_getElem ht
  cases htask : t.task with
  | article article feed =>
    by_cases hm : article.url ∈ s.seenURLs
    · refine ⟨{ s with threads := s.threads.set i { t with pc := .signal } }, ?_, rfl, rfl, ?_, ?_⟩
      · simp [step, ht, htask, runArticleThread, hpc, hm]
      · intro _
        exact ⟨rfl, rfl, { t with pc := .signal }, by simp [hlen], Or.inl rfl⟩
      · intro hn
        exact absurd (by simpa [Task.url] using hm) hn
    · refine ⟨{ s with
          seenURLs := setInsert article.url s.seenURLs
          admitted := s.admitted ++ [article.url]
          threads := s.threads.set i { t with pc := .parse } }, ?_, rfl, rfl, ?_, ?_⟩
      · simp [step, ht, htask, runArticleThread, hpc, hm]
      · intro hn
        exact absurd (by simpa [Task.url] using hn) hm
      · intro _
        exact ⟨rfl, (mem_setInsert _ _ _).2 (Or.inl rfl), rfl, { t with pc := .parse },
          by simp [hlen], rfl⟩
  | feed f =>
    by_cases hm : f.1 ∈ s.seenURLs
    · refine ⟨{ s with threads := s.threads.set i { t with pc := .returned } }, ?_, rfl, rfl,
        ?_, ?_⟩
      · simp [step, ht, htask, runFeedThread, hpc, hm]
      · intro _
        exact ⟨rfl, rfl, { t with pc := .returned }, by simp [hlen], Or.inr rfl⟩
      · intro hn
        exact absurd (by simpa [Task.url] using hm) hn
    · refine ⟨{ s with
          seenURLs := setInsert f.1 s.seenURLs
          admitted := s.admitted ++ [f.1]
          threads := s.threads.set i { t with pc := .parse } }, ?_, rfl, rfl, ?_, ?_⟩
      · simp [step, ht, htask, runFeedThread, hpc, hm]
      · intro hn
        exact absurd (by simpa [Task.url] using hn) hm
      · intro _
        exact ⟨rfl, (mem_setInsert _ _ _).2 (Or.inl rfl), rfl, { t with pc := .parse },
          by simp [hlen], rfl⟩

/-- C5: in every state of a crawl started with an empty `seenURLs`, the admission check of
a task succeeds iff its URL is not in the set and then inserts it; the set never loses an
element; no URL is admitted twice; and the external parsers are called at most once per
URL, only by a task that has been admitted with that URL, so a task whose URL is already
in the set returns as a skip without a parse. -/
theorem url_admitted_and_parsed_once (g : url → server) (feeds : List (url × String))
    (as : List (Nat × Outcome)) (s : Crawl) (hr : run g (init feeds) as = some s) :
    (∀ i t o, s.threads[i]? = some t → t.pc = .admission →
      ∃ s2, step g s (i, o) = some s2 ∧ s2.parsed = s.parsed ∧ s2.articleMap = s.articleMap ∧
        (t.task.url ∈ s.seenURLs →
          s2.seenURLs = s.seenURLs ∧ s2.admitted = s.admitted ∧
          ∃ t2, s2.threads[i]? = some t2 ∧ (t2.pc = .signal ∨ t2.pc = .returned)) ∧
        (t.task.url ∉ s.seenURLs →
          s2.seenURLs = setInsert t.task.url s.seenURLs ∧ t.task.url ∈ s2.seenURLs ∧
          s2.admitted = s.admitted ++ [t.task.url] ∧
          ∃ t2, s2.threads[i]? = some t2 ∧ t2.pc = .parse)) ∧
    (∀ as2 s2, run g s as2 = some s2 → ∀ u ∈ s.seenURLs, u ∈ s2.seenURLs) ∧
    s.admitted.Nodup ∧ (∀ u, u ∈ s.admitted ↔ u ∈ s.seenURLs) ∧
    s.parsed.Nodup ∧ (∀ u ∈ s.parsed, u ∈ s.seenURLs) ∧
    (∀ a s2, step g s a = some s2 → s2.parsed ≠ s.parsed →
      ∃ t, s.threads[a.1]? = some t ∧ t.pc = .parse ∧ t.task.url ∈ s.seenURLs ∧
        s2.parsed = s.parsed ++ [t.task.url]) := by
  have hinv := admittedOnce_of_run g feeds as s hr
  obtain ⟨hnd, hmem, hdue⟩ := hinv
  have hcount : ∀ u, s.parsed.count u ≤ s.admitted.count u := fun u => by
    have := hdue u
    omega
  refine ⟨fun i t o ht hpc => admission_step g s i t o ht hpc,
    fun as2 s2 h => seen_mono_run g as2 s s2 h, hnd, hmem, ?_, ?_, ?_⟩
  · rw [List.nodup_iff_count_le_one]
    intro u
    exact le_trans (hcount u) (List.nodup_iff_count_le_one.1 hnd u)
  · intro u hu
    have h1 : 0 < s.parsed.count u := List.count_pos_iff.2 hu
    have h2 := hcount u
    exact (hmem u).1 (List.count_pos_iff.1 (by omega))
  · intro a s2 hs hne
    obtain ⟨t, ht, hc⟩ := step_cases g s a s2 hs
    rcases hc with ⟨_, _, pc2, _, rfl⟩ | ⟨_, _, rfl⟩ | ⟨hpc, pc2, _, _, rfl⟩ |
      ⟨ts, article, feed, _, _, rfl⟩ | ⟨article, feed, ft, _, _, _, rfl⟩ |
      ⟨f, articles, _, _, rfl⟩ | ⟨f, c, _, _, _, rfl⟩
    · exact absurd rfl hne
    · exact absurd rfl hne
    · exact ⟨t, ht, hpc, url_seen_of_parse_pc s ⟨hnd, hmem, hdue⟩ a.1 t ht hpc, rfl⟩
    · exact absurd rfl hne
    · exact absurd rfl hne
    · exact absurd rfl hne
    · exact absurd rfl hne

theorem completed_value (articles : List Article) (hk : articles.length < 2 ^ 31) :
    (completed articles).value = 1 - (articles.length : Int) := by
  unfold completed int_of_size_t size_t_sub
  simp only
  split <;> omega

theorem signal_iterate_value (c : semaphore) (j : Nat) :
    (semaphore.signal^[j] c).value = c.value + j := by
  induction j with
  | zero => simp
  | succ n ih =>
    rw [Function.iterate_succ_apply', semaphore.signal, ih]
    push_cast
    omega

theorem thread_done_step (g : url → server) (s : Crawl) (a : Nat × Outcome) (s2 : Crawl)
    (h : step g s a = some s2) (i : Nat) (task : Task)
    (hi : ∃ t, s.threads[i]? = some t ∧ t.task = task ∧ (t.pc = .signal ∨ t.pc = .returned)) :
    ∃ t, s2.threads[i]? = some t ∧ t.task = task ∧ (t.pc = .signal ∨ t.pc = .returned) := by
  obtain ⟨ti, hti, htask, hpci⟩ := hi
  have hilen := lt_length_of_getElem hti
  obtain ⟨t, ht, hc⟩ := step_cases g s a s2 h
  have hne_of : t.pc ≠ .signal → t.pc ≠ .returned → a.1 ≠ i := by
    intro h1 h2 he
    rw [he, hti] at ht
    cases ht
    rcases hpci with h3 | h3
    · exact h1 h3
    · exact h2 h3
  rcases hc with ⟨hpc, _, pc2, _, rfl⟩ | ⟨hpc, _, rfl⟩ | ⟨hpc, pc2, _, _, rfl⟩ |
    ⟨ts, article, feed, _, hpc, rfl⟩ | ⟨article, feed, ft, _, hpc, hft, rfl⟩ |
    ⟨f, articles, _, hpc, rfl⟩ | ⟨f, c, _, hpc, _, rfl⟩
  · have hne := hne_of (by simp [hpc]) (by simp [hpc])
    exact ⟨ti, by simp [List.getElem?_set, hne, hti], htask, hpci⟩
  · have hne := hne_of (by simp [hpc]) (by simp [hpc])
    exact ⟨ti, by simp [List.getElem?_set, hne, hti], htask, hpci⟩
  · have hne := hne_of (by simp [hpc]) (by simp [hpc])
    exact ⟨ti, by simp [List.getElem?_set, hne, hti], htask, hpci⟩
  · have hne := hne_of (by simp [hpc]) (by simp [hpc])
    exact ⟨ti, by simp [List.getElem?_set, hne, hti], htask, hpci⟩
  · by_cases he : a.1 = i
    · refine ⟨{ t with pc := .returned }, ?_, ?_, Or.inr rfl⟩
      · simp [List.getElem?_set, he, hilen]
      · rw [he, hti] at ht
        cases ht
        exact htask
    · by_cases hf : feed = i
      · refine ⟨{ ft with completed := ft.completed.signal }, ?_, ?_, ?_⟩
        · simp [List.getElem?_set, he, hf, hilen]
        · rw [hf, hti] at hft
          cases hft
          exact htask
        · rw [hf, hti] at hft
          cases hft
          exact hpci
      · exact ⟨ti, by simp [List.getElem?_set, he, hf, hti], htask, hpci⟩
  · have hne := hne_of (by simp [hpc]) (by simp [hpc])
    refine ⟨ti, ?_, htask, hpci⟩
    rw [List.getElem?_append_left (by simpa using hilen)]
    simp [List.getElem?_set, hne, hti]
  · have hne := hne_of (by simp [hpc]) (by simp [hpc])
    exact ⟨ti, by simp [List.getElem?_set, hne, hti], htask, hpci⟩

/-- C10: when the document parse of an article task fails, the step leaves `articleMap` and
`seenURLs` as they were and the task leaves `runArticleThread` (only its
`completed.signal()` remains); in every later state the task is still out of
`runArticleThread`, so it never reaches `updateRawMap`, its URL is still in `seenURLs`, and
the admission check of any task with the same URL is a skip that changes neither the map
nor the parse log. Only a step at `updateRawMap` changes the map. -/
theorem parse_failure_drops_article (g : url → server) (feeds : List (url × String))
    (as : List (Nat × Outcome)) (s : Crawl) (hr : run g (init feeds) as = some s)
    (i : Nat) (t : Thread) (article : Article) (feed : Nat)
    (ht : s.threads[i]? = some t) (htask : t.task = .article article feed)
    (hpc : t.pc = .parse) :
    ∃ s2, step g s (i, .failure) = some s2 ∧
      s2.articleMap = s.articleMap ∧ s2.seenURLs = s.seenURLs ∧ article.url ∈ s2.seenURLs ∧
      s2.threads = s.threads.set i { t with pc := .signal } ∧
      (∀ a s4, step g s a = some s4 → s4.articleMap ≠ s.articleMap →
        ∃ t4 ts, s.threads[a.1]? = some t4 ∧ t4.pc = .update ts) ∧
      ∀ as2 s3, run g s2 as2 = some s3 →
        article.url ∈ s3.seenURLs ∧
        (∃ t3, s3.threads[i]? = some t3 ∧ t3.task = .article article feed ∧
          (t3.pc = .signal ∨ t3.pc = .returned)) ∧
        ∀ j t2 o, s3.threads[j]? = some t2 → t2.pc = .admission →
          t2.task.url = article.url →
          ∃ s4, step g s3 (j, o) = some s4 ∧ s4.parsed = s3.parsed ∧
            s4.articleMap = s3.articleMap ∧ s4.seenURLs = s3.seenURLs ∧
            ∃ t4, s4.threads[j]? = some t4 ∧ (t4.pc = .signal ∨ t4.pc = .returned) := by
  have hinv := admittedOnce_of_run g feeds as s hr
  have hseen : article.url ∈ s.seenURLs := by
    have := url_seen_of_parse_pc s hinv i t ht hpc
    simpa [htask, Task.url] using this
  have hlen := lt_length_of_getElem ht
  refine ⟨{ s with
      parsed := s.parsed ++ [article.url]
      threads := s.threads.set i { t with pc := .signal } }, ?_, rfl, rfl, hseen, rfl, ?_, ?_⟩
  · simp [step, ht, htask, runArticleThread, hpc]
  · intro a s4 hs hne
    obtain ⟨t4, ht4, hc⟩ := step_cases g s a s4 hs
    rcases hc with ⟨_, _, pc2, _, rfl⟩ | ⟨_, _, rfl⟩ | ⟨_, pc2, _, _, rfl⟩ |
      ⟨ts, article, feed, _, hpc4, rfl⟩ | ⟨article, feed, ft, _, _, _, rfl⟩ |
      ⟨f, articles, _, _, rfl⟩ | ⟨f, c, _, _, _, rfl⟩
    · exact absurd rfl hne
    · exact absurd rfl hne
    · exact absurd rfl hne
    · exact ⟨t4, ts, ht4, hpc4⟩
    · exact absurd rfl hne
    · exact absurd rfl hne
    · exact absurd rfl hne
  · intro as2 s3 hrun
    have hseen3 : article.url ∈ s3.seenURLs := seen_mono_run g as2 _ s3 hrun _ hseen
    have hdone := crawl_run_invariant g
      (fun x => ∃ t3, x.threads[i]? = some t3 ∧ t3.task = .article article feed ∧
        (t3.pc = .signal ∨ t3.pc = .returned))
      (fun x a x2 hx hs => thread_done_step g x a x2 hs i _ hx) as2 _ s3
      ⟨{ t with pc := .signal }, by simp [hlen], htask, Or.inl rfl⟩ hrun
    refine ⟨hseen3, hdone, ?_⟩
    intro j t2 o ht2 hpc2 hurl
    obtain ⟨s4, hs4, hp, hm, hskip, _⟩ := admission_step g s3 j t2 o ht2 hpc2
    obtain ⟨h1, _, h3⟩ := hskip (by rw [hurl]; exact hseen3)
    exact ⟨s4, hs4, hp, hm, h1, h3⟩

theorem url_admitted_and_parsed_once_witness :
    run (fun _ => "s") (init [("http://s/f1", "F1"), ("http://s/f2", "F2")]) sampleCrawl =
      some sampleCrawlState ∧
    sampleCrawlState.seenURLs = ["http://s/a", "http://s/f1", "http://s/f2"] ∧
    sampleCrawlState.admitted = ["http://s/f1", "http://s/f2", "http://s/a"] ∧
    sampleCrawlState.parsed = ["http://s/f1", "http://s/f2", "http://s/a"] ∧
    sampleCrawlState.threads.map (fun t => t.pc) =
      [.waitCompleted, .waitCompleted, .update ["x", "y"], .signal] ∧
    sampleCrawlState.parsed.Nodup :=
  ⟨by decide, by decide, by decide, by decide, by decide,
    (url_admitted_and_parsed_once (fun _ => "s")
      [("http://s/f1", "F1"), ("http://s/f2", "F2")] sampleCrawl sampleCrawlState
      (by decide)).2.2.2.2.1⟩

theorem parse_failure_drops_article_witness :
    run (fun _ => "s") (init [("http://s/f1", "F1")]) sampleFailure = some sampleFailureState ∧
    sampleFailureState.threads[1]? = some ⟨.article ⟨"http://s/a", "T"⟩ 0, .parse, ⟨0⟩⟩ ∧
    (step (fun _ => "s") sampleFailureState (1, .failure)).map
        (fun s => (s.articleMap, s.seenURLs, s.threads.map (fun t => t.pc))) =
      some ([], ["http://s/a", "http://s/f1"], [.waitCompleted, .signal, .admission]) ∧
    ∃ s2, step (fun _ => "s") sampleFailureState (1, .failure) = some s2 ∧
      s2.articleMap = sampleFailureState.articleMap ∧
      s2.seenURLs = sampleFailureState.seenURLs ∧ "http://s/a" ∈ s2.seenURLs :=
  ⟨by decide, by decide, rfl,
    (parse_failure_drops_article (fun _ => "s") [("http://s/f1", "F1")] sampleFailure
      sampleFailureState (by decide) 1 ⟨.article ⟨"http://s/a", "T"⟩ 0, .parse, ⟨0⟩⟩
      ⟨"http://s/a", "T"⟩ 0 (by decide) rfl rfl).imp
      (fun _ h => ⟨h.1, h.2.1, h.2.2.1, h.2.2.2.1⟩)⟩

/-- What a step of the crawl does to the task table, by the kind of the task that moves. -/
theorem step_threads (g : url → server) (s : Crawl) (a : Nat × Outcome) (s2 : Crawl)
    (h : step g s a = some s2) :
    ∃ t, s.threads[a.1]? = some t ∧
      ((∃ x fd pc2, t.task = .article x fd ∧ t.pc ≠ .returned ∧ pc2 ≠ .returned ∧
          (∀ l, pc2 ≠ .schedule l) ∧ pc2 ≠ .waitCompleted ∧
          s2.threads = s.threads.set a.1 { t with pc := pc2 }) ∨
       (∃ x fd ft, t.task = .article x fd ∧ t.pc = .signal ∧ s.threads[fd]? = some ft ∧
          s2.threads = (s.threads.set fd { ft with completed := ft.completed.signal }).set a.1
            { t with pc := .returned }) ∨
       (∃ f pc2, t.task = .feed f ∧ t.pc ≠ .waitCompleted ∧ t.pc ≠ .returned ∧
          (∀ l, t.pc ≠ .schedule l) ∧ pc2 ≠ .waitCompleted ∧
          s2.threads = s.threads.set a.1 { t with pc := pc2 }) ∨
       (∃ f articles, t.task = .feed f ∧ t.pc = .schedule articles ∧
          s2.threads = s.threads.set a.1
              { t with pc := .waitCompleted, completed := completed articles }
            ++ articles.map (fun x => ⟨.article x a.1, .admission, ⟨0⟩⟩)) ∨
       (∃ f c, t.task = .feed f ∧ t.pc = .waitCompleted ∧ t.completed.wait = some c ∧
          s2.threads = s.threads.set a.1 { t with pc := .returned, completed := c })) := by
  unfold step at h
  split at h
  · cases h
  · rename_i t ht
    refine ⟨t, ht, ?_⟩
    split at h
    · rename_i article feed htask
      unfold runArticleThread at h
      split at h
      · rename_i hpc
        split at h <;>
          (cases h
           exact Or.inl ⟨article, feed, _, htask, by simp [hpc], by simp, by simp, by simp, rfl⟩)
      · rename_i hpc
        split at h
        · cases h
          exact Or.inl ⟨article, feed, _, htask, by simp [hpc], by simp, by simp, by simp, rfl⟩
        · cases h
          exact Or.inl ⟨article, feed, _, htask, by simp [hpc], by simp, by simp, by simp, rfl⟩
        · cases h
      · rename_i ts hpc
        cases h
        exact Or.inl ⟨article, feed, _, htask, by simp [hpc], by simp, by simp, by simp, rfl⟩
      · rename_i hpc
        split at h
        · rename_i ft hft
          cases h
          exact Or.inr (Or.inl ⟨article, feed, ft, htask, hpc, hft, rfl⟩)
        · cases h
      · cases h
    · rename_i f htask
      unfold runFeedThread at h
      split at h
      · rename_i hpc
        split at h <;>
          (cases h
           exact Or.inr (Or.inr (Or.inl ⟨f, _, htask, by simp [hpc], by simp [hpc],
             by simp [hpc], by simp, rfl⟩)))
      · rename_i hpc
        split at h
        · cases h
          exact Or.inr (Or.inr (Or.inl ⟨f, _, htask, by simp [hpc], by simp [hpc],
            by simp [hpc], by simp, rfl⟩))
        · cases h
          exact Or.inr (Or.inr (Or.inl ⟨f, _, htask, by simp [hpc], by simp [hpc],
            by simp [hpc], by simp, rfl⟩))
        · cases h
      · rename_i articles hpc
        cases h
        exact Or.inr (Or.inr (Or.inr (Or.inl ⟨f, articles, htask, hpc, rfl⟩)))
      · rename_i hpc
        split at h
        · rename_i c hc
          cases h
          exact Or.inr (Or.inr (Or.inr (Or.inr ⟨f, c, htask, hpc, hc, rfl⟩)))
        · cases h
      · cases h

theorem getElem_set_cases (l : List Thread) (a j : Nat) (t2 u : Thread)
    (h : (l.set a t2)[j]? = some u) : (j = a ∧ u = t2) ∨ (j ≠ a ∧ l[j]? = some u) := by
  by_cases hja : j = a
  · subst hja
    left
    refine ⟨rfl, ?_⟩
    have hlt : j < (l.set j t2).length := lt_length_of_getElem h
    rw [List.getElem?_eq_getElem hlt] at h
    simp only [List.getElem_set_self, Option.some.injEq] at h
    exact h.symm
  · right
    refine ⟨hja, ?_⟩
    rwa [List.getElem?_set_ne (fun e => hja e.symm)] at h

theorem getElem_set_self_of (l : List Thread) (a : Nat) (t t2 : Thread)
    (h : l[a]? = some t) : (l.set a t2)[a]? = some t2 := by
  have hlt := lt_length_of_getElem h
  rw [List.getElem?_eq_getElem (by simpa using hlt)]
  simp

theorem scheduledBy_congr (i : Nat) (t t2 : Thread) (h : t2.task = t.task) :
    scheduledBy i t2 = scheduledBy i t := by
  unfold scheduledBy
  rw [h]

theorem signalledBy_le (i : Nat) (t : Thread) : signalledBy i t ≤ scheduledBy i t := by
  unfold signalledBy
  split <;> omega

theorem signals_le (s : Crawl) (i : Nat) : signals s i ≤ articleTasks s i := by
  unfold signals articleTasks
  generalize s.threads = l
  induction l with
  | nil => simp
  | cons x l ih =>
    have := signalledBy_le i x
    simp only [List.map_cons, List.sum_cons]
    omega

theorem scheduledBy_feed (i : Nat) (t : Thread) (f : url × String) (h : t.task = .feed f) :
    scheduledBy i t = 0 := by
  unfold scheduledBy
  rw [h]

theorem signalledBy_feed (i : Nat) (t : Thread) (f : url × String) (h : t.task = .feed f) :
    signalledBy i t = 0 := by
  have h1 := signalledBy_le i t
  have h2 := scheduledBy_feed i t f h
  omega

theorem sum_map_scheduled (i a : Nat) (articles : List Article) :
    ((articles.map (fun x => (⟨.article x a, .admission, ⟨0⟩⟩ : Thread))).map
      (scheduledBy i)).sum = if a = i then articles.length else 0 := by
  induction articles with
  | nil => simp
  | cons x l ih =>
    simp only [List.map_cons, List.sum_cons, ih, scheduledBy, List.length_cons]
    split <;> omega

theorem sum_map_signalled (i a : Nat) (articles : List Article) :
    ((articles.map (fun x => (⟨.article x a, .admission, ⟨0⟩⟩ : Thread))).map
      (signalledBy i)).sum = 0 := by
  induction articles with
  | nil => simp
  | cons x l ih =>
    simp only [List.map_cons, List.sum_cons, ih, signalledBy]
    simp

/-- A step that changes one entry of the task table, keeping its task and whether it has
signalled, keeps the invariant of the fan-in when the new entry satisfies it. -/
theorem fanIn_set (s s2 : Crawl) (a : Nat) (t t2 : Thread) (h : FanIn s)
    (ha : s.threads[a]? = some t) (hth : s2.threads = s.threads.set a t2)
    (htask : t2.task = t.task) (hsig : ∀ i, signalledBy i t2 = signalledBy i t)
    (hart : ∀ x fd, t.task = .article x fd → (∀ l, t2.pc ≠ .schedule l) ∧ t2.pc ≠ .waitCompleted)
    (hself : ∀ f, t.task = .feed f →
      (t2.pc = .waitCompleted → t.pc = .waitCompleted ∧ t2.completed = t.completed) ∧
      (t2.pc ≠ .waitCompleted → t2.pc ≠ .returned →
        t.pc ≠ .waitCompleted ∧ t.pc ≠ .returned)) :
    FanIn s2 := by
  have hcount : ∀ i, articleTasks s2 i = articleTasks s i := by
    intro i
    unfold articleTasks
    rw [hth]
    exact sum_map_set_same _ _ a t t2 ha (scheduledBy_congr i t t2 htask)
  have hsignal : ∀ i, signals s2 i = signals s i := by
    intro i
    unfold signals
    rw [hth]
    exact sum_map_set_same _ _ a t t2 ha (hsig i)
  have hfeed : ∀ (fd : Nat) (ft : Thread) (f : url × String), s.threads[fd]? = some ft →
      ft.task = .feed f → ∃ (ft2 : Thread) (f2 : url × String),
        s2.threads[fd]? = some ft2 ∧ ft2.task = .feed f2 := by
    intro fd ft f hft hf
    rw [hth]
    by_cases hfa : fd = a
    · subst hfa
      rw [ha] at hft
      cases hft
      exact ⟨t2, f, getElem_set_self_of _ _ _ _ ha, by rw [htask, hf]⟩
    · exact ⟨ft, f, by rw [List.getElem?_set_ne (fun e => hfa e.symm)]; exact hft, hf⟩
  intro j u hu
  rw [hth] at hu
  rcases getElem_set_cases _ _ _ _ _ hu with ⟨hja, hut⟩ | ⟨hja, hu2⟩
  · subst hja hut
    have hold := h j t ha
    unfold FanInAt at hold ⊢
    rw [htask]
    cases ht : t.task with
    | feed f =>
      rw [ht] at hold
      simp only at hold ⊢
      obtain ⟨h1, h2⟩ := hself f ht
      refine ⟨fun hpc => ?_, fun hp1 hp2 => ?_⟩
      · rw [hcount, hsignal, (h1 hpc).2]
        exact hold.1 (h1 hpc).1
      · rw [hcount]
        exact hold.2 (h2 hp1 hp2).1 (h2 hp1 hp2).2
    | article x fd =>
      rw [ht] at hold
      simp only at hold ⊢
      obtain ⟨⟨ft, f, hft, hf⟩, _⟩ := hold
      exact ⟨hfeed fd ft f hft hf, hart x fd ht⟩
  · have hold := h j u hu2
    unfold FanInAt at hold ⊢
    cases ht : u.task with
    | feed f =>
      rw [ht] at hold
      simp only at hold ⊢
      rw [hcount, hsignal]
      exact hold
    | article x fd =>
      rw [ht] at hold
      simp only at hold ⊢
      obtain ⟨⟨ft, f, hft, hf⟩, hp⟩ := hold
      exact ⟨hfeed fd ft f hft hf, hp⟩

/-- The step `completed.signal()` of an article task keeps the invariant of the fan-in. -/
theorem fanIn_signal (s s2 : Crawl) (a fd : Nat) (t ft : Thread) (x : Article) (h : FanIn s)
    (ha : s.threads[a]? = some t) (htask : t.task = .article x fd) (hpc : t.pc = .signal)
    (hft : s.threads[fd]? = some ft) (ft2 t2 : Thread)
    (hft2 : ft2 = { ft with completed := ft.completed.signal })
    (ht2 : t2 = { t with pc := .returned })
    (hth : s2.threads = (s.threads.set fd ft2).set a t2) :
    FanIn s2 ∧ (∀ i, articleTasks s2 i = articleTasks s i) ∧
      (∀ i, signals s2 i = signals s i + if fd = i then 1 else 0) := by
  have hfeedtask : ∃ f, ft.task = .feed f := by
    have := h a t ha
    unfold FanInAt at this
    rw [htask] at this
    obtain ⟨⟨ft0, f, h1, h2⟩, _⟩ := this
    rw [hft] at h1
    cases h1
    exact ⟨f, h2⟩
  obtain ⟨f, hf⟩ := hfeedtask
  have hne : a ≠ fd := by
    intro e
    subst e
    rw [ha] at hft
    cases hft
    rw [htask] at hf
    cases hf
  have hft2task : ft2.task = ft.task := by rw [hft2]
  have hft2pc : ft2.pc = ft.pc := by rw [hft2]
  have hft2v : ft2.completed.value = ft.completed.value + 1 := by rw [hft2]; rfl
  have ht2task : t2.task = t.task := by rw [ht2]
  have ht2pc : t2.pc = .returned := by rw [ht2]
  have hf2 : ft2.task = .feed f := by rw [hft2task, hf]
  have ha1 : (s.threads.set fd ft2)[a]? = some t := by
    rw [List.getElem?_set_ne (fun e => hne e.symm)]
    exact ha
  have hcount : ∀ i, articleTasks s2 i = articleTasks s i := by
    intro i
    have e1 := sum_map_set_same (scheduledBy i) (s.threads.set fd ft2) a t t2 ha1
      (scheduledBy_congr i t t2 ht2task)
    have e2 := sum_map_set_same (scheduledBy i) s.threads fd ft ft2 hft
      (scheduledBy_congr i ft ft2 hft2task)
    unfold articleTasks
    rw [hth, e1, e2]
  have hsignal : ∀ i, signals s2 i = signals s i + if fd = i then 1 else 0 := by
    intro i
    have h1 := sum_map_set (signalledBy i) (s.threads.set fd ft2) a t t2 ha1
    have h2 := sum_map_set_same (signalledBy i) s.threads fd ft ft2 hft
      (by rw [signalledBy_feed i ft2 f hf2, signalledBy_feed i ft f hf])
    have h3 : signalledBy i t = 0 := by
      unfold signalledBy
      rw [if_neg (by rw [hpc]; simp)]
    have h4 : signalledBy i t2 = if fd = i then 1 else 0 := by
      simp only [signalledBy, scheduledBy, ht2pc, ht2task, htask, if_true]
    unfold signals
    rw [hth]
    omega
  have hfeed : ∀ (k : Nat) (u : Thread) (f2 : url × String), s.threads[k]? = some u →
      u.task = .feed f2 → ∃ (u2 : Thread) (f3 : url × String),
        s2.threads[k]? = some u2 ∧ u2.task = .feed f3 := by
    intro k u f2 hu huf
    have hka : k ≠ a := by
      intro e
      subst e
      rw [ha] at hu
      cases hu
      rw [htask] at huf
      cases huf
    rw [hth, List.getElem?_set_ne (fun e => hka e.symm)]
    by_cases hkf : k = fd
    · subst hkf
      rw [hft] at hu
      cases hu
      exact ⟨ft2, f2, getElem_set_self_of _ _ _ _ hft, by rw [hft2task, huf]⟩
    · exact ⟨u, f2, by rw [List.getElem?_set_ne (fun e => hkf e.symm)]; exact hu, huf⟩
  refine ⟨?_, hcount, hsignal⟩
  intro j u hu
  rw [hth] at hu
  rcases getElem_set_cases _ _ _ _ _ hu with ⟨hja, hut⟩ | ⟨hja, hu1⟩
  · subst hja
    rw [hut]
    unfold FanInAt
    rw [ht2task, htask]
    simp only [ht2pc]
    exact ⟨hfeed fd ft f hft hf, by simp, by simp⟩
  · rcases getElem_set_cases _ _ _ _ _ hu1 with ⟨hjf, hut⟩ | ⟨hjf, hu2⟩
    · subst hjf
      rw [hut]
      have hold := h j ft hft
      unfold FanInAt at hold ⊢
      rw [hf2]
      rw [hf] at hold
      simp only at hold ⊢
      rw [hft2pc]
      refine ⟨fun hp => ?_, fun hp1 hp2 => ?_⟩
      · have := hold.1 hp
        rw [hcount, hsignal, hft2v]
        simp only [if_true]
        push_cast
        omega
      · rw [hcount]
        exact hold.2 hp1 hp2
    · have hold := h j u hu2
      unfold FanInAt at hold ⊢
      cases ht : u.task with
      | feed f2 =>
        rw [ht] at hold
        simp only at hold ⊢
        rw [hcount, hsignal, if_neg (fun e => hjf e.symm)]
        exact hold
      | article y fd2 =>
        rw [ht] at hold
        simp only at hold ⊢
        obtain ⟨⟨u3, f3, h1, h2⟩, hp⟩ := hold
        exact ⟨hfeed fd2 u3 f3 h1 h2, hp⟩

/-- The step of a feed task that builds `completed` and schedules the article tasks keeps
the invariant of the fan-in. -/
theorem fanIn_schedule (s s2 : Crawl) (a : Nat) (t : Thread) (f : url × String)
    (articles : List Article) (h : FanIn s)
    (ha : s.threads[a]? = some t) (htask : t.task = .feed f) (hpc : t.pc = .schedule articles)
    (t2 : Thread) (ht2 : t2 = { t with pc := .waitCompleted, completed := completed articles })
    (hth : s2.threads = s.threads.set a t2
      ++ articles.map (fun x => ⟨.article x a, .admission, ⟨0⟩⟩)) :
    FanIn s2 ∧ articleTasks s2 a = articles.length ∧ signals s2 a = 0 := by
  have hzero : articleTasks s a = 0 := by
    have := h a t ha
    unfold FanInAt at this
    simp only [htask] at this
    exact this.2 (by rw [hpc]; simp) (by rw [hpc]; simp)
  have ht2task : t2.task = t.task := by rw [ht2]
  have ht2pc : t2.pc = .waitCompleted := by rw [ht2]
  have ht2v : t2.completed.value = barrier articles.length := by rw [ht2]; rfl
  have hf2 : t2.task = .feed f := by rw [ht2task, htask]
  have hcount : ∀ i, articleTasks s2 i =
      articleTasks s i + if a = i then articles.length else 0 := by
    intro i
    have e1 := sum_map_set_same (scheduledBy i) s.threads a t t2 ha
      (scheduledBy_congr i t t2 ht2task)
    unfold articleTasks
    rw [hth, List.map_append, List.sum_append, sum_map_scheduled, e1]
  have hsignal : ∀ i, signals s2 i = signals s i := by
    intro i
    have e1 := sum_map_set_same (signalledBy i) s.threads a t t2 ha
      (by rw [signalledBy_feed i t2 f hf2, signalledBy_feed i t f htask])
    unfold signals
    rw [hth, List.map_append, List.sum_append, sum_map_signalled, e1]
    rfl
  have hlt : a < s.threads.length := lt_length_of_getElem ha
  have hself : s2.threads[a]? = some t2 := by
    rw [hth, List.getElem?_append_left (by simpa using hlt)]
    exact getElem_set_self_of _ _ _ _ ha
  have hfeed : ∀ (k : Nat) (u : Thread) (f2 : url × String), s.threads[k]? = some u →
      u.task = .feed f2 → ∃ (u2 : Thread) (f3 : url × String),
        s2.threads[k]? = some u2 ∧ u2.task = .feed f3 := by
    intro k u f2 hu huf
    by_cases hka : k = a
    · subst hka
      exact ⟨t2, f, hself, hf2⟩
    · refine ⟨u, f2, ?_, huf⟩
      rw [hth, List.getElem?_append_left (by simpa using lt_length_of_getElem hu),
        List.getElem?_set_ne (fun e => hka e.symm)]
      exact hu
  have hsz := signals_le s a
  refine ⟨?_, by rw [hcount, hzero]; simp, by rw [hsignal]; omega⟩
  intro j u hu
  rw [hth] at hu
  by_cases hj : j < (s.threads.set a t2).length
  · rw [List.getElem?_append_left hj] at hu
    rcases getElem_set_cases _ _ _ _ _ hu with ⟨hja, hut⟩ | ⟨hja, hu2⟩
    · subst hja
      rw [hut]
      unfold FanInAt
      rw [hf2]
      simp only
      refine ⟨fun _ => ?_, fun hp => absurd ht2pc hp⟩
      rw [hcount, hsignal, hzero, ht2v]
      simp only [if_true, Nat.zero_add]
      have : signals s j = 0 := by omega
      rw [this]
      simp
    · have hold := h j u hu2
      unfold FanInAt at hold ⊢
      cases ht : u.task with
      | feed f2 =>
        rw [ht] at hold
        simp only at hold ⊢
        rw [hcount, hsignal, if_neg (fun e => hja e.symm), Nat.add_zero]
        exact hold
      | article y fd2 =>
        rw [ht] at hold
        simp only at hold ⊢
        obtain ⟨⟨u3, f3, h1, h2⟩, hp⟩ := hold
        exact ⟨hfeed fd2 u3 f3 h1 h2, hp⟩
  · rw [List.getElem?_append_right (Nat.le_of_not_lt hj), List.getElem?_map] at hu
    cases hx : articles[j - (s.threads.set a t2).length]? with
    | none => rw [hx] at hu; cases hu
    | some y =>
      rw [hx] at hu
      simp only [Option.map_some', Option.some.injEq] at hu
      subst hu
      unfold FanInAt
      simp only
      exact ⟨⟨t2, f, hself, hf2⟩, by simp, by simp⟩

theorem fanIn_step (g : url → server) (s : Crawl) (a : Nat × Outcome) (s2 : Crawl)
    (h : FanIn s) (hs : step g s a = some s2) : FanIn s2 := by
  obtain ⟨t, ht, hcase⟩ := step_threads g s a s2 hs
  rcases hcase with ⟨x, fd, pc2, htask, hp1, hp2, hq1, hq2, hth⟩ |
    ⟨x, fd, ft, htask, hpc, hft, hth⟩ |
    ⟨f, pc2, htask, hp1, hp2, hp3, hp4, hth⟩ | ⟨f, articles, htask, hpc, hth⟩ |
    ⟨f, c, htask, hpc, hc, hth⟩
  · refine fanIn_set s s2 a.1 t _ h ht hth rfl (fun i => ?_) (fun _ _ _ => ⟨hq1, hq2⟩)
      (fun f hf => ?_)
    · simp only [signalledBy]
      rw [if_neg hp2, if_neg hp1]
    · rw [htask] at hf
      cases hf
  · exact (fanIn_signal s s2 a.1 fd t ft x h ht htask hpc hft _ _ rfl rfl hth).1
  · refine fanIn_set s s2 a.1 t _ h ht hth rfl (fun i => ?_)
      (fun x fd hx => by rw [htask] at hx; cases hx) (fun f2 _ => ?_)
    · rw [signalledBy_feed i { t with pc := pc2 } f htask, signalledBy_feed i t f htask]
    · exact ⟨fun hq => absurd hq hp4, fun _ _ => ⟨hp1, hp2⟩⟩
  · exact (fanIn_schedule s s2 a.1 t f articles h ht htask hpc _ rfl hth).1
  · refine fanIn_set s s2 a.1 t _ h ht hth rfl (fun i => ?_)
      (fun x fd hx => by rw [htask] at hx; cases hx) (fun f2 _ => ?_)
    · rw [signalledBy_feed i { t with pc := .returned, completed := c } f htask,
        signalledBy_feed i t f htask]
    · exact ⟨(fun hq => by cases hq), fun _ hq => absurd rfl hq⟩

theorem fanIn_init (feeds : List (url × String)) : FanIn (init feeds) := by
  intro i t ht
  simp only [init, List.getElem?_map] at ht
  cases hx : feeds[i]? with
  | none => rw [hx] at ht; cases ht
  | some f =>
    rw [hx] at ht
    simp only [Option.map_some', Option.some.injEq] at ht
    subst ht
    unfold FanInAt
    simp only
    refine ⟨(fun hp => by cases hp), fun _ _ => ?_⟩
    unfold articleTasks
    simp only [init, List.map_map]
    apply List.sum_eq_zero
    intro n hn
    simp only [List.mem_map, Function.comp] at hn
    obtain ⟨y, _, rfl⟩ := hn
    rfl

theorem fanIn_of_run (g : url → server) (feeds : List (url × String))
    (as : List (Nat × Outcome)) (s : Crawl) (hr : run g (init feeds) as = some s) :
    FanIn s :=
  crawl_run_invariant g FanIn (fun s a s2 h hs => fanIn_step g s a s2 h hs) as (init feeds) s
    (fanIn_init feeds) hr

theorem barrier_value (k : Nat) (hk : k < 2 ^ 31) : barrier k = 1 - (k : Int) := by
  unfold barrier int_of_size_t size_t_sub
  split <;> omega

/-- C6: for a feed with k articles, k < 2^31, `runFeedThread` builds its semaphore with the
value 1 - k and schedules exactly k article tasks, each of which signals that semaphore
once: in every state of a crawl the semaphore of a waiting feed task holds 1 - k plus the
number of its article tasks that have signalled and returned, an article task signals on
every path and cannot move after it, and nothing else changes the semaphore; so after j
signals the counter is 1 - k + j, and the feed task's `wait()` can pass exactly when all k
article tasks have signalled, at once when k = 0. -/
theorem fan_in_semaphore (g : url → server) (feeds : List (url × String))
    (as : List (Nat × Outcome)) (s : Crawl) (hr : run g (init feeds) as = some s)
    (i : Nat) (ft : Thread) (f : url × String)
    (hi : s.threads[i]? = some ft) (htask : ft.task = .feed f) :
    (∀ articles : List Article, articles.length < 2 ^ 31 →
      (completed articles).value = 1 - (articles.length : Int) ∧
      ∀ j : Nat,
        (semaphore.signal^[j] (completed articles)).value =
          1 - (articles.length : Int) + j ∧
        (0 < (semaphore.signal^[j] (completed articles)).value ↔ articles.length ≤ j) ∧
        ((semaphore.signal^[j] (completed articles)).wait.isSome ↔ articles.length ≤ j)) ∧
    (∀ articles o, ft.pc = .schedule articles →
      ∃ s2, step g s (i, o) = some s2 ∧
        s2.threads = s.threads.set i
            { ft with pc := .waitCompleted, completed := completed articles } ++
          articles.map (fun x => ⟨.article x i, .admission, ⟨0⟩⟩) ∧
        articleTasks s2 i = articles.length ∧ signals s2 i = 0) ∧
    (ft.pc = .waitCompleted → articleTasks s i < 2 ^ 31 →
      ft.completed.value = 1 - (articleTasks s i : Int) + signals s i ∧
      signals s i ≤ articleTasks s i ∧
      (0 < ft.completed.value ↔ signals s i = articleTasks s i) ∧
      (∀ o, (step g s (i, o)).isSome ↔ signals s i = articleTasks s i)) ∧
    (∀ j t x o, s.threads[j]? = some t → t.task = .article x i →
      (t.pc = .signal → ∃ s2, step g s (j, o) = some s2 ∧
        s2.threads[i]? = some { ft with completed := ft.completed.signal } ∧
        s2.threads[j]? = some { t with pc := .returned } ∧
        articleTasks s2 i = articleTasks s i ∧ signals s2 i = signals s i + 1) ∧
      (t.pc ≠ .signal → ∀ s2, step g s (j, o) = some s2 →
        s2.threads[i]? = some ft ∧ signals s2 i = signals s i ∧
        ∃ pc2, pc2 ≠ .returned ∧ s2.threads[j]? = some { t with pc := pc2 }) ∧
      (t.pc = .returned → step g s (j, o) = none) ∧
      (t.pc ≠ .returned → ∃ o2 s2, step g s (j, o2) = some s2)) ∧
    (∀ a s2, step g s a = some s2 → a.1 ≠ i →
      (∀ t x, s.threads[a.1]? = some t → t.task ≠ .article x i) →
      s2.threads[i]? = some ft) := by
  have hinv := fanIn_of_run g feeds as s hr
  refine ⟨?_, ?_, ?_, ?_, ?_⟩
  · intro articles hk
    have hv := completed_value articles hk
    refine ⟨hv, fun j => ?_⟩
    have hj := signal_iterate_value (completed articles) j
    rw [hv] at hj
    refine ⟨hj, ?_, ?_⟩
    · rw [hj]; omega
    · unfold semaphore.wait
      rw [hj]
      split
      · simp; omega
      · simp; omega
  · intro articles o hpc
    obtain ⟨s2, hs2⟩ : ∃ s2 : Crawl, s2 = { s with
        threads := s.threads.set i
            { ft with pc := .waitCompleted, completed := completed articles } ++
          articles.map (fun x => ⟨.article x i, .admission, ⟨0⟩⟩) } := ⟨_, rfl⟩
    have hstep : step g s (i, o) = some s2 := by
      rw [hs2]
      simp [step, hi, htask, runFeedThread, hpc]
    have hth : s2.threads = s.threads.set i
        { ft with pc := .waitCompleted, completed := completed articles } ++
          articles.map (fun x => ⟨.article x i, .admission, ⟨0⟩⟩) := by rw [hs2]
    obtain ⟨_, h2, h3⟩ := fanIn_schedule s s2 i ft f articles hinv hi htask hpc _ rfl hth
    exact ⟨s2, hstep, hth, h2, h3⟩
  · intro hpc hk
    have hat := hinv i ft hi
    unfold FanInAt at hat
    rw [htask] at hat
    simp only at hat
    have hv := hat.1 hpc
    rw [barrier_value _ hk] at hv
    have hle := signals_le s i
    have hpos : 0 < ft.completed.value ↔ signals s i = articleTasks s i := by
      rw [hv]; omega
    refine ⟨hv, hle, hpos, fun o => ?_⟩
    rw [← hpos]
    simp only [step, hi, htask, runFeedThread, hpc]
    unfold semaphore.wait
    split <;> simp_all
  · intro j t x o hj hjt
    have hne : j ≠ i := by
      intro e
      subst e
      rw [hi] at hj
      cases hj
      rw [htask] at hjt
      cases hjt
    have hat := hinv j t hj
    unfold FanInAt at hat
    rw [hjt] at hat
    simp only at hat
    obtain ⟨_, hq1, hq2⟩ := hat
    refine ⟨?_, ?_, ?_, ?_⟩
    · intro hpc
      obtain ⟨s2, hs2⟩ : ∃ s2 : Crawl, s2 = { s with
          threads := (s.threads.set i { ft with completed := ft.completed.signal }).set j
            { t with pc := .returned } } := ⟨_, rfl⟩
      have hstep : step g s (j, o) = some s2 := by
        rw [hs2]
        simp [step, hj, hjt, runArticleThread, hpc, hi]
      have hth : s2.threads =
          (s.threads.set i { ft with completed := ft.completed.signal }).set j
            { t with pc := .returned } := by rw [hs2]
      obtain ⟨_, h2, h3⟩ := fanIn_signal s s2 j i t ft x hinv hj hjt hpc hi _ _ rfl rfl hth
      refine ⟨s2, hstep, ?_, ?_, h2 i, ?_⟩
      · rw [hth, List.getElem?_set_ne hne]
        exact getElem_set_self_of _ _ _ _ hi
      · rw [hth]
        exact getElem_set_self_of _ _ _ _
          (by rw [List.getElem?_set_ne (fun e => hne e.symm)]; exact hj)
      · have := h3 i
        simpa using this
    · intro hpc s2 hs
      obtain ⟨t0, ht0, hcase⟩ := step_threads g s (j, o) s2 hs
      simp only at ht0
      rw [hj] at ht0
      cases ht0
      rcases hcase with ⟨x2, fd, pc2, _, hp1, hp2, _, _, hth⟩ | ⟨x2, fd, ft2, _, hpc2, _, _⟩ |
        ⟨f2, pc2, hf2, _⟩ | ⟨f2, articles, hf2, _⟩ | ⟨f2, c, hf2, _⟩
      · simp only at hth
        refine ⟨?_, ?_, pc2, hp2, ?_⟩
        · rw [hth, List.getElem?_set_ne hne]
          exact hi
        · unfold signals
          rw [hth]
          exact sum_map_set_same _ _ j t _ hj (by
            simp only [signalledBy]
            rw [if_neg hp2, if_neg hp1])
        · rw [hth]
          exact getElem_set_self_of _ _ _ _ hj
      · exact absurd hpc2 hpc
      · rw [hjt] at hf2; cases hf2
      · rw [hjt] at hf2; cases hf2
      · rw [hjt] at hf2; cases hf2
    · intro hpc
      simp [step, hj, hjt, runArticleThread, hpc]
    · intro hpc
      cases hp : t.pc with
      | admission =>
        refine ⟨.failure, ?_⟩
        simp only [step, hj, hjt, runArticleThread, hp]
        split <;> exact ⟨_, rfl⟩
      | parse =>
        refine ⟨.failure, ?_⟩
        simp only [step, hj, hjt, runArticleThread, hp]
        exact ⟨_, rfl⟩
      | update ts =>
        refine ⟨.failure, ?_⟩
        simp only [step, hj, hjt, runArticleThread, hp]
        exact ⟨_, rfl⟩
      | signal =>
        refine ⟨.failure, ?_⟩
        simp only [step, hj, hjt, runArticleThread, hp, hi]
        exact ⟨_, rfl⟩
      | returned => exact absurd hp hpc
      | schedule l => exact absurd hp (hq1 l)
      | waitCompleted => exact absurd hp hq2
  · intro a s2 hs hai hnot
    obtain ⟨t0, ht0, hcase⟩ := step_threads g s a s2 hs
    rcases hcase with ⟨x2, fd, pc2, _, _, _, _, _, hth⟩ | ⟨x2, fd, ft2, hx, _, hft2, hth⟩ |
      ⟨f2, pc2, _, _, _, _, _, hth⟩ | ⟨f2, articles, _, _, hth⟩ | ⟨f2, c, _, _, _, hth⟩
    · rw [hth, List.getElem?_set_ne hai]
      exact hi
    · have hfd : fd ≠ i := by
        intro e
        subst e
        exact hnot t0 x2 ht0 hx
      rw [hth, List.getElem?_set_ne hai, List.getElem?_set_ne hfd]
      exact hi
    · rw [hth, List.getElem?_set_ne hai]
      exact hi
    · rw [hth, List.getElem?_append_left (by simpa using lt_length_of_getElem hi),
        List.getElem?_set_ne hai]
      exact hi
    · rw [hth, List.getElem?_set_ne hai]
      exact hi

theorem fan_in_semaphore_witness :
    run (fun _ => "s") (init [("http://s/f1", "F1")]) sampleFanIn = some sampleFanInState ∧
    (sampleFanInState.threads.map (fun t => (t.pc, t.completed.value))) =
      [(.waitCompleted, 0), (.returned, 0), (.returned, 0), (.signal, 0)] ∧
    (articleTasks sampleFanInState 0, signals sampleFanInState 0) = (3, 2) ∧
    (∀ o, (step (fun _ => "s") sampleFanInState (0, o)).isSome ↔
      signals sampleFanInState 0 = articleTasks sampleFanInState 0) ∧
    (∃ s2, step (fun _ => "s") sampleFanInState (3, .failure) = some s2 ∧
      signals s2 0 = signals sampleFanInState 0 + 1) :=
  have h := fan_in_semaphore (fun _ => "s") [("http://s/f1", "F1")] sampleFanIn
    sampleFanInState rfl 0 ⟨.feed ("http://s/f1", "F1"), .waitCompleted, ⟨0⟩⟩
    ("http://s/f1", "F1") rfl rfl
  ⟨rfl, by decide, by decide, (h.2.2.1 rfl (by decide)).2.2.2,
    have h4 := (h.2.2.2.1 3 ⟨.article ⟨"http://s/a", "T"⟩ 0, .signal, ⟨0⟩⟩ ⟨"http://s/a", "T"⟩
      .failure rfl rfl).1 rfl
    let ⟨s2, hs, _, _, _, hsig⟩ := h4
    ⟨s2, hs, hsig⟩⟩

end NewsAggregator

namespace ThreadPool

/-! ## Theorems: the thread pool -/

theorem run_invariant (P : Pool → Prop)
    (hstep : ∀ s a s2, P s → step s a = some s2 → P s2) :
    ∀ (as : List Action) (s0 s : Pool), P s0 → run s0 as = some s → P s := by
  intro as
  induction as with
  | nil =>
    intro s0 s h0 hrun
    simp only [run, Option.some.injEq] at hrun
    exact hrun ▸ h0
  | cons a as ih =>
    intro s0 s h0 hrun
    simp only [run] at hrun
    cases hs : step s0 a with
    | none => rw [hs] at hrun; simp at hrun
    | some s1 =>
      rw [hs] at hrun
      exact ih s1 s (hstep s0 a s1 h0 hs) hrun

theorem reachable_invariant (N : Nat) (P : Pool → Prop) (h0 : P (init N))
    (hstep : ∀ s a s2, P s → step s a = some s2 → P s2) :
    ∀ s, Reachable N s → P s := by
  intro s hr
  obtain ⟨as, hrun⟩ := hr
  exact run_invariant P hstep as (init N) s h0 hrun

theorem fifo_step (s : Pool) (a : Action) (s2 : Pool)
    (h : s.scheduleLog = s.dispatchLog ++ inHand s ++ s.scheduled)
    (hs : step s a = some s2) :
    s2.scheduleLog = s2.dispatchLog ++ inHand s2 ++ s2.scheduled := by
  cases a with
  | schedulePush t =>
    simp only [step, schedulePush] at hs
    split at hs
    · cases hs
      simp only [inHand] at h ⊢
      rw [h]; simp
    · cases hs
  | scheduleSignal =>
    simp only [step, scheduleSignal] at hs
    split at hs
    · cases hs; exact h
    · cases hs
  | wait b =>
    simp only [step, wait, Option.some.injEq] at hs
    subst hs
    exact h
  | dispatcher =>
    simp only [step] at hs
    unfold dispatcher at hs
    split at hs <;> rename_i hpc <;> simp only [inHand, hpc, reduceCtorEq, if_false, if_true, List.append_nil] at h
    all_goals (try split at hs)
    all_goals (try split at hs)
    all_goals (try (simp only [Option.map_eq_some'] at hs; obtain ⟨q, _, hs⟩ := hs))
    all_goals (try (cases hs))
    all_goals (try (simp only [inHand, reduceCtorEq, if_false, if_true, List.append_nil]))
    all_goals (try (exact h))
    all_goals simp_all
  | worker i =>
    simp only [step] at hs
    unfold worker at hs
    split at hs
    · split at hs
      all_goals (try split at hs)
      all_goals (try (simp only [Option.map_eq_some'] at hs; obtain ⟨q, _, hs⟩ := hs))
      all_goals (try (cases hs))
      all_goals (try (exact h))
    · cases hs
  | destructor b =>
    simp only [step] at hs
    unfold destructor at hs
    split at hs
    all_goals (try split at hs)
    all_goals (try (cases hs))
    all_goals (try (exact h))

theorem filter_update_gain {α : Type} (p : α → Bool) (l : List Nat) (f : Nat → α) (i : Nat)
    (v : α) (hnd : l.Nodup) (hi : i ∈ l) (h0 : p (f i) = false) (hv : p v = true) :
    (l.filter (fun j => p (Function.update f i v j))).length =
      (l.filter (fun j => p (f j))).length + 1 := by
  induction l with
  | nil => cases hi
  | cons j l ih =>
    rw [List.nodup_cons] at hnd
    obtain ⟨hjl, hnd2⟩ := hnd
    by_cases hji : j = i
    · subst hji
      have htail : l.filter (fun k => p (Function.update f j v k)) =
          l.filter (fun k => p (f k)) := by
        apply List.filter_congr
        intro k hk
        have hkj : k ≠ j := fun e => hjl (e ▸ hk)
        rw [Function.update_noteq hkj]
      rw [List.filter_cons, List.filter_cons, Function.update_same, hv, h0, htail]
      simp
    · have hil : i ∈ l := by
        rcases List.mem_cons.1 hi with h | h
        · exact absurd h.symm hji
        · exact h
      have := ih hnd2 hil
      rw [List.filter_cons, List.filter_cons, Function.update_noteq hji]
      split
      · simp only [List.length_cons]; omega
      · exact this

theorem filter_update_same {α : Type} (p : α → Bool) (l : List Nat) (f : Nat → α) (i : Nat)
    (v : α) (h : p v = p (f i)) :
    (l.filter (fun j => p (Function.update f i v j))).length =
      (l.filter (fun j => p (f j))).length := by
  congr 1
  apply List.filter_congr
  intro j _
  by_cases hji : j = i
  · subst hji; rw [Function.update_same, h]
  · rw [Function.update_noteq hji]

theorem startedWorkers_update_start (s : Pool) (i : Nat) (v : WorkerPc)
    (hi : i < s.numThreads) (h0 : s.wts i = .start) (hv : v ≠ .start) :
    startedWorkers { s with wts := Function.update s.wts i v } = startedWorkers s + 1 :=
  filter_update_gain (fun pc : WorkerPc => decide (pc ≠ WorkerPc.start)) (List.range s.numThreads) s.wts i v
    (List.nodup_range _) (List.mem_range.2 hi) (by simp [h0]) (by simp [hv])

theorem startedWorkers_update_other (s : Pool) (i : Nat) (v : WorkerPc)
    (h0 : s.wts i ≠ .start) (hv : v ≠ .start) :
    startedWorkers { s with wts := Function.update s.wts i v } = startedWorkers s :=
  filter_update_same (fun pc : WorkerPc => decide (pc ≠ WorkerPc.start)) (List.range s.numThreads) s.wts i v
    (by simp [h0, hv])

theorem startedWorkers_le (s : Pool) : startedWorkers s ≤ s.numThreads := by
  unfold startedWorkers
  calc _ ≤ (List.range s.numThreads).length := List.length_filter_le _ _
    _ = s.numThreads := List.length_range _

theorem countsStarted_step (N : Nat) (hN : N < 2 ^ 64) (s : Pool) (a : Action) (s2 : Pool)
    (h : CountsStarted N s) (hs : step s a = some s2) : CountsStarted N s2 := by
  obtain ⟨hn, hc⟩ := h
  cases a with
  | schedulePush t =>
    simp only [step, schedulePush] at hs
    split at hs
    · cases hs; exact ⟨hn, hc⟩
    · cases hs
  | scheduleSignal =>
    simp only [step, scheduleSignal] at hs
    split at hs
    · cases hs; exact ⟨hn, hc⟩
    · cases hs
  | wait b =>
    simp only [step, wait, Option.some.injEq] at hs
    subst hs
    exact ⟨hn, hc⟩
  | dispatcher =>
    simp only [step] at hs
    unfold dispatcher at hs
    split at hs
    all_goals (try split at hs)
    all_goals (try split at hs)
    all_goals (try (simp only [Option.map_eq_some'] at hs; obtain ⟨q, _, hs⟩ := hs))
    all_goals (try (cases hs))
    all_goals (try (exact ⟨hn, hc⟩))
  | destructor b =>
    simp only [step] at hs
    unfold destructor at hs
    split at hs
    all_goals (try split at hs)
    all_goals (try (cases hs))
    all_goals (try (exact ⟨hn, hc⟩))
  | worker i =>
    simp only [step] at hs
    unfold worker at hs
    split at hs
    · rename_i hi
      split at hs <;> rename_i hpc
      all_goals (try split at hs)
      all_goals (try (simp only [Option.map_eq_some'] at hs; obtain ⟨q, _, hs⟩ := hs))
      all_goals (try (cases hs))
      all_goals refine ⟨hn, ?_⟩
      · -- the statement is `num_workers++`
        have hcount := startedWorkers_update_start s i .incAvailableFirst hi hpc (by simp)
        have hle := startedWorkers_le s
        show size_t_inc s.num_workers = startedWorkers { s with wts := _ }
        rw [hcount, hc]
        have hlt : startedWorkers s + 1 ≤ s.numThreads := by
          rw [← hcount]
          exact startedWorkers_le { s with wts := Function.update s.wts i .incAvailableFirst }
        unfold size_t_inc
        apply Nat.mod_eq_of_lt
        omega
      all_goals
        (show s.num_workers = startedWorkers { s with wts := _ }
         rw [startedWorkers_update_other s i _ (by simp [hpc]) (by simp)]
         exact hc)
    · cases hs

theorem sumTo_congr (n : Nat) (f g : Nat → Int) (h : ∀ j, j < n → f j = g j) :
    sumTo n f = sumTo n g := by
  induction n with
  | zero => rfl
  | succ n ih =>
    simp only [sumTo]
    rw [ih (fun j hj => h j (Nat.lt_succ_of_lt hj)), h n (Nat.lt_succ_self n)]

theorem sumTo_change (n : Nat) (f g : Nat → Int) (i : Nat) (hi : i < n)
    (h : ∀ j, j < n → j ≠ i → g j = f j) : sumTo n g = sumTo n f + (g i - f i) := by
  induction n with
  | zero => omega
  | succ n ih =>
    simp only [sumTo]
    by_cases hin : i = n
    · subst hin
      rw [sumTo_congr i g f (fun j hj => h j (Nat.lt_succ_of_lt hj) (Nat.ne_of_lt hj))]
      omega
    · have hlt : i < n := by omega
      rw [ih hlt (fun j hj hne => h j (Nat.lt_succ_of_lt hj) hne),
        h n (Nat.lt_succ_self n) (fun e => hin e.symm)]
      omega

theorem sumTo_le (n : Nat) (f g : Nat → Int) (h : ∀ j, j < n → f j ≤ g j) :
    sumTo n f ≤ sumTo n g := by
  induction n with
  | zero => exact le_refl _
  | succ n ih =>
    simp only [sumTo]
    have := ih (fun j hj => h j (Nat.lt_succ_of_lt hj))
    have := h n (Nat.lt_succ_self n)
    omega

theorem sumTo_eq_of_le (n : Nat) (f g : Nat → Int) (h : ∀ j, j < n → f j ≤ g j)
    (he : sumTo n g ≤ sumTo n f) : ∀ j, j < n → f j = g j := by
  induction n with
  | zero => intro j hj; omega
  | succ n ih =>
    simp only [sumTo] at he
    have h1 := sumTo_le n f g (fun j hj => h j (Nat.lt_succ_of_lt hj))
    have h2 := h n (Nat.lt_succ_self n)
    intro j hj
    by_cases hjn : j = n
    · subst hjn; omega
    · exact ih (fun j hj => h j (Nat.lt_succ_of_lt hj)) (by omega) j (by omega)

theorem exists_pos_of_sumTo_pos (n : Nat) (f : Nat → Int) (h : 0 < sumTo n f) :
    ∃ i, i < n ∧ 0 < f i := by
  induction n with
  | zero => simp [sumTo] at h
  | succ n ih =>
    simp only [sumTo] at h
    by_cases hn : 0 < f n
    · exact ⟨n, Nat.lt_succ_self n, hn⟩
    · obtain ⟨i, hi, hpos⟩ := ih (by omega)
      exact ⟨i, Nat.lt_succ_of_lt hi, hpos⟩

theorem sumTo_le_card (n : Nat) (f : Nat → Int) (h : ∀ j, j < n → f j ≤ 1) :
    sumTo n f ≤ n := by
  induction n with
  | zero => simp [sumTo]
  | succ n ih =>
    simp only [sumTo]
    have := ih (fun j hj => h j (Nat.lt_succ_of_lt hj))
    have := h n (Nat.lt_succ_self n)
    push_cast
    omega

theorem sumTo_eq_card (n : Nat) (f : Nat → Int) (h : ∀ j, j < n → f j = 1) :
    sumTo n f = n := by
  induction n with
  | zero => simp [sumTo]
  | succ n ih =>
    simp only [sumTo]
    rw [ih (fun j hj => h j (Nat.lt_succ_of_lt hj)), h n (Nat.lt_succ_self n)]
    push_cast
    rfl

theorem startedWorkers_eq_sumTo (s : Pool) :
    (startedWorkers s : Int) = sumTo s.numThreads (fun j => started (s.wts j)) := by
  unfold startedWorkers
  generalize s.numThreads = n
  induction n with
  | zero => simp [sumTo]
  | succ n ih =>
    simp only [sumTo, List.range_succ, List.filter_append, List.length_append]
    push_cast
    rw [ih]
    congr 1
    cases h : s.wts n <;> simp [started, h]

theorem pastStart_le_started (pc : WorkerPc) : pastStart pc ≤ started pc := by
  cases pc <;> simp [pastStart, started]

theorem busy_nonneg (pc : WorkerPc) : 0 ≤ busy pc := by
  cases pc <;> simp [busy]

theorem idle_le (pc : WorkerPc) : idle pc ≤ pastStart pc - busy pc := by
  cases pc <;> simp [idle, pastStart, busy]

theorem pastStart_le_one (pc : WorkerPc) : pastStart pc ≤ 1 := by
  cases pc <;> simp [pastStart]

theorem sumTo_eq_zero (n : Nat) (f : Nat → Int) (h : ∀ j, j < n → f j = 0) :
    sumTo n f = 0 := by
  induction n with
  | zero => rfl
  | succ n ih =>
    simp only [sumTo]
    rw [ih (fun j hj => h j (Nat.lt_succ_of_lt hj)), h n (Nat.lt_succ_self n)]
    rfl

theorem poolInv_init (N : Nat) : PoolInv N (init N) := by
  refine ⟨⟨rfl, fun _ => rfl, fun _ => le_refl _, le_refl _, le_refl _⟩,
    ⟨rfl, by simp [init, startedWorkers]⟩, fun _ => ?_, fun h => by simp [init] at h⟩
  have hz : ∀ f : Nat → Int, (∀ j, f j = 0) → sumTo N f = 0 :=
    fun f hf => sumTo_eq_zero N f (fun j _ => hf j)
  refine ⟨rfl, by simp [init], by simp [init, queueHeld], ?_, ?_, ?_, ?_, ?_, ?_, ?_⟩
  · show sumTo N _ = _
    rw [hz _ (fun j => by simp [debit, init, pastStart, busy])]
    simp [init, decremented]
  · show sumTo N _ = _
    rw [hz _ (fun j => by simp [credit, init, idle])]
    simp [init, handing]
  · intro j _ h
    simp [init] at h
  · intro k h
    simp [init] at h
  · intro k h
    simp [init] at h
  · intro h
    simp [init] at h
  · intro h
    simp [init] at h

theorem poolInv_schedulePush (N : Nat) (s s2 : Pool) (t : thunk_t) (h : PoolInv N s)
    (hs : step s (.schedulePush t) = some s2) : PoolInv N s2 := by
  simp only [step, schedulePush] at hs
  split at hs
  · cases hs
    refine ⟨⟨h.basic.1, h.basic.2, h.basic.3, h.basic.4, h.basic.5⟩, h.workers,
      fun hl => ?_, fun hn => ?_⟩
    swap
    · have hsh := h.shutdown hn
      exact ⟨hsh.dispatcher_pc, hsh.counter, hsh.chosen, hsh.popped⟩
    have hlive := h.live hl
    refine ⟨hlive.done_false, hlive.not_exited, ?_, hlive.counter, hlive.tokens, hlive.flag,
      hlive.found, hlive.marked, hlive.chosen, hlive.popped⟩
    have := hlive.queue
    simp only [List.length_append, List.length_singleton, queueHeld] at this ⊢
    push_cast
    omega
  · cases hs

theorem poolInv_scheduleSignal (N : Nat) (s s2 : Pool) (h : PoolInv N s)
    (hs : step s .scheduleSignal = some s2) : PoolInv N s2 := by
  simp only [step, scheduleSignal] at hs
  split at hs
  · rename_i hdue
    cases hs
    have hq : 0 ≤ s.queue_not_empty.signal.value := by
      have := h.basic.queue_nonneg
      simp only [NewsAggregator.semaphore.signal]
      omega
    refine ⟨⟨h.basic.1, h.basic.2, h.basic.3, h.basic.4, hq⟩, h.workers,
      fun hl => ?_, fun hn => ?_⟩
    · have hlive := h.live hl
      refine ⟨hlive.done_false, hlive.not_exited, ?_, hlive.counter, hlive.tokens,
        hlive.flag, hlive.found, hlive.marked, hlive.chosen, hlive.popped⟩
      have := hlive.queue
      have hcast : ((s.signalsDue - 1 : Nat) : Int) = (s.signalsDue : Int) - 1 := by
        rw [Nat.cast_sub hdue]; rfl
      show (s.scheduled.length : Int) =
        s.queue_not_empty.signal.value + ((s.signalsDue - 1 : Nat) : Int) + queueHeld s
      simp only [NewsAggregator.semaphore.signal]
      rw [hcast]
      omega
    · have hsh := h.shutdown hn
      exact ⟨hsh.dispatcher_pc, hsh.counter, hsh.chosen, hsh.popped⟩
  · cases hs

theorem poolInv_wait (N : Nat) (s s2 : Pool) (b : Bool) (h : PoolInv N s)
    (hs : step s (.wait b) = some s2) : PoolInv N s2 := by
  simp only [step, wait, Option.some.injEq] at hs
  subst hs
  exact ⟨⟨h.basic.1, h.basic.2, h.basic.3, h.basic.4, h.basic.5⟩, h.workers,
    fun hl => (fun L : Live s => ⟨L.done_false, L.not_exited, L.queue, L.counter, L.tokens,
      L.flag, L.found, L.marked, L.chosen, L.popped⟩) (h.live hl),
    fun hn => (fun S : Shutdown s => ⟨S.dispatcher_pc, S.counter, S.chosen, S.popped⟩)
      (h.shutdown hn)⟩

theorem wait_eq_some {c q : NewsAggregator.semaphore} (h : c.wait = some q) :
    0 < c.value ∧ q.value = c.value - 1 := by
  unfold NewsAggregator.semaphore.wait at h
  split at h
  · rename_i hpos
    cases h
    exact ⟨hpos, rfl⟩
  · cases h

theorem idle_eq_one {pc : WorkerPc} (h : 0 < idle pc) : pc = .waitJob := by
  cases pc <;> simp [idle] at h ⊢

theorem idle_le_one (pc : WorkerPc) : idle pc ≤ 1 := by
  cases pc <;> simp [idle]

theorem debit_le_one (s : Pool) (hb : ∀ j, 0 ≤ (s.workers j).job_waiting.value) (j : Nat) :
    debit s j ≤ 1 := by
  have h1 := pastStart_le_one (s.wts j)
  have h2 := busy_nonneg (s.wts j)
  have h3 := hb j
  unfold debit
  omega

theorem credit_le_debit (s : Pool) (j : Nat) : credit s j ≤ debit s j := by
  have := idle_le (s.wts j)
  unfold credit debit
  omega

/-- While `done` is false, a worker that waits for a job with an empty handoff
exists whenever the dispatcher holds a token of `available_workers`. -/
theorem exists_waiting_of_tokens (N : Nat) (s : Pool) (hb : Basic N s) (L : Live s)
    (hh : handing s = 1) :
    ∃ i, i < s.numThreads ∧ s.wts i = .waitJob ∧ (s.workers i).job_waiting.value = 0 := by
  have ht := L.tokens
  have hav := hb.available_nonneg
  obtain ⟨i, hi, hpos⟩ := exists_pos_of_sumTo_pos s.numThreads (credit s) (by omega)
  have h1 := idle_le_one (s.wts i)
  have h2 := hb.job_waiting_nonneg i
  unfold credit at hpos
  exact ⟨i, hi, idle_eq_one (by omega), by omega⟩

/-- While `done` is false, `num_available_workers` is positive whenever the
dispatcher has chosen a worker and not yet signalled its handoff. -/
theorem counter_lower_bound (s : Pool) (L : Live s) :
    s.available_workers.value + handing s ≤ s.num_available_workers + decremented s := by
  have h1 := sumTo_le s.numThreads (credit s) (debit s) (fun j _ => credit_le_debit s j)
  have h2 := L.tokens
  have h3 := L.counter
  omega

theorem counter_upper_bound (N : Nat) (s : Pool) (hb : Basic N s) (L : Live s) :
    (s.num_available_workers : Int) + decremented s ≤ N := by
  have h1 := sumTo_le_card s.numThreads (debit s)
    (fun j _ => debit_le_one s hb.job_waiting_nonneg j)
  have h3 := L.counter
  rw [← hb.numThreads_eq]
  omega

theorem poolInv_dispatcher_live (N : Nat) (hN : N < 2 ^ 64) (s s2 : Pool) (h : PoolInv N s)
    (hl : s.done = false) (hs : dispatcher s = some s2) : PoolInv N s2 := by
  have hb := h.basic
  have L := h.live hl
  unfold dispatcher at hs
  split at hs <;> rename_i hpc
  · -- `queue_not_empty.wait()`
    simp only [Option.map_eq_some'] at hs
    obtain ⟨q, hq, rfl⟩ := hs
    obtain ⟨hpos, hqv⟩ := wait_eq_some hq
    refine ⟨⟨hb.1, hb.2, hb.3, hb.4, by show 0 ≤ q.value; omega⟩, h.workers,
      fun _ => ?_, fun hn => absurd (hl.symm.trans hn) (by simp)⟩
    have e1 : queueHeld s = 0 := by simp [queueHeld, hpc]
    have e2 : decremented s = 0 := by simp [decremented, hpc]
    have e3 : handing s = 0 := by simp [handing, hpc]
    refine ⟨L.done_false, by simp, ?_, ?_, ?_, ?_, ?_, ?_, ?_, ?_⟩
    · have := L.queue
      show (s.scheduled.length : Int) = q.value + s.signalsDue + 1
      omega
    · have := L.counter
      show sumTo s.numThreads (debit s) = (s.num_available_workers : Int) + 0
      omega
    · have := L.tokens
      show sumTo s.numThreads (credit s) = s.available_workers.value + 0
      omega
    · intro j hj hw hjw _
      exact L.flag j hj hw hjw (by simp [midDispatch, hpc])
    · intro k hk; cases hk
    · intro k hk; cases hk
    · intro hk; simp at hk
    · intro hk; cases hk
  · -- `available_workers.wait()`
    simp only [Option.map_eq_some'] at hs
    obtain ⟨q, hq, rfl⟩ := hs
    obtain ⟨hpos, hqv⟩ := wait_eq_some hq
    refine ⟨⟨hb.1, hb.2, hb.3, by show 0 ≤ q.value; omega, hb.5⟩, h.workers,
      fun _ => ?_, fun hn => absurd (hl.symm.trans hn) (by simp)⟩
    have e1 : queueHeld s = 1 := by simp [queueHeld, hpc]
    have e2 : decremented s = 0 := by simp [decremented, hpc]
    have e3 : handing s = 0 := by simp [handing, hpc]
    refine ⟨L.done_false, by simp, ?_, ?_, ?_, ?_, ?_, ?_, ?_, ?_⟩
    · have := L.queue
      show (s.scheduled.length : Int) = s.queue_not_empty.value + s.signalsDue + 1
      omega
    · have := L.counter
      show sumTo s.numThreads (debit s) = (s.num_available_workers : Int) + 0
      omega
    · have := L.tokens
      show sumTo s.numThreads (credit s) = q.value + 1
      omega
    · intro j hj hw hjw _
      exact L.flag j hj hw hjw (by simp [midDispatch, hpc])
    · intro k hk; cases hk
    · intro k hk; cases hk
    · intro hk; simp at hk
    · intro hk; cases hk
  · -- `if (done)`
    have e1 : queueHeld s = 1 := by simp [queueHeld, hpc]
    have e2 : decremented s = 0 := by simp [decremented, hpc]
    have e3 : handing s = 1 := by simp [handing, hpc]
    split at hs
    · rename_i hd
      rw [L.done_false] at hd
      cases hd
    · cases hs
      refine ⟨⟨hb.1, hb.2, hb.3, hb.4, hb.5⟩, h.workers, fun _ => ?_, fun hn => absurd (hl.symm.trans hn) (by simp)⟩
      refine ⟨L.done_false, by simp, ?_, ?_, ?_, ?_, ?_, ?_, ?_, ?_⟩
      · have := L.queue
        show (s.scheduled.length : Int) = s.queue_not_empty.value + s.signalsDue + 1
        omega
      · have := L.counter
        show sumTo s.numThreads (debit s) = (s.num_available_workers : Int) + 0
        omega
      · have := L.tokens
        show sumTo s.numThreads (credit s) = s.available_workers.value + 1
        omega
      · intro j hj hw hjw _
        exact L.flag j hj hw hjw (by simp [midDispatch, hpc])
      · intro k hk
        simp only [DispatcherPc.search.injEq] at hk
        obtain ⟨i, hi, hw, hjw⟩ := exists_waiting_of_tokens N s hb L e3
        exact ⟨i, by omega, hi, hw, hjw⟩
      · intro k hk; cases hk
      · intro hk; simp at hk
      · intro hk; cases hk
  · -- the search loop at `workers[i]`
    rename_i i
    have e1 : queueHeld s = 1 := by simp [queueHeld, hpc]
    have e2 : decremented s = 0 := by simp [decremented, hpc]
    have e3 : handing s = 1 := by simp [handing, hpc]
    obtain ⟨i0, hle, hi0, hw0, hjw0⟩ := L.found i hpc
    have hflag0 : (s.workers i0).available = true :=
      L.flag i0 hi0 (Or.inr hw0) hjw0 (by simp [midDispatch, hpc])
    split at hs
    · rename_i hi
      split at hs
      · rename_i hav
        cases hs
        refine ⟨⟨hb.1, hb.2, hb.3, hb.4, hb.5⟩, h.workers, fun _ => ?_,
          fun hn => absurd (hl.symm.trans hn) (by simp)⟩
        refine ⟨L.done_false, by simp, ?_, ?_, ?_, ?_, ?_, ?_, ?_, ?_⟩
        · have := L.queue
          show (s.scheduled.length : Int) = s.queue_not_empty.value + s.signalsDue + 1
          omega
        · have := L.counter
          show sumTo s.numThreads (debit s) = (s.num_available_workers : Int) + 0
          omega
        · have := L.tokens
          show sumTo s.numThreads (credit s) = s.available_workers.value + 1
          omega
        · intro j hj hw hjw _
          exact L.flag j hj hw hjw (by simp [midDispatch, hpc])
        · intro k hk; cases hk
        · intro k hk
          simp only [DispatcherPc.markBusy.injEq] at hk
          subst hk
          exact ⟨hi, by simp [hb.id_eq]⟩
        · intro hk; simp at hk
        · intro hk; cases hk
      · rename_i hav
        cases hs
        refine ⟨⟨hb.1, hb.2, hb.3, hb.4, hb.5⟩, h.workers, fun _ => ?_,
          fun hn => absurd (hl.symm.trans hn) (by simp)⟩
        refine ⟨L.done_false, by simp, ?_, ?_, ?_, ?_, ?_, ?_, ?_, ?_⟩
        · have := L.queue
          show (s.scheduled.length : Int) = s.queue_not_empty.value + s.signalsDue + 1
          omega
        · have := L.counter
          show sumTo s.numThreads (debit s) = (s.num_available_workers : Int) + 0
          omega
        · have := L.tokens
          show sumTo s.numThreads (credit s) = s.available_workers.value + 1
          omega
        · intro j hj hw hjw _
          exact L.flag j hj hw hjw (by simp [midDispatch, hpc])
        · intro k hk
          simp only [DispatcherPc.search.injEq] at hk
          subst hk
          have hne : i0 ≠ i := by
            intro e
            rw [e] at hflag0
            exact hav hflag0
          exact ⟨i0, by omega, hi0, hw0, hjw0⟩
        · intro k hk; cases hk
        · intro hk; simp at hk
        · intro hk; cases hk
    · omega
  · -- `w.available = false`
    rename_i k
    cases hs
    obtain ⟨hk, hwid⟩ := L.marked k hpc
    have e1 : queueHeld s = 1 := by simp [queueHeld, hpc]
    have e2 : decremented s = 0 := by simp [decremented, hpc]
    have e3 : handing s = 1 := by simp [handing, hpc]
    have hsame : ∀ j, (Function.update s.workers k
        { s.workers k with available := false } j).job_waiting = (s.workers j).job_waiting := by
      intro j
      by_cases hj : j = k
      · subst hj; simp
      · simp [Function.update_noteq hj]
    refine ⟨⟨hb.1, ?_, ?_, hb.4, hb.5⟩, h.workers, fun _ => ?_, fun hn => absurd (hl.symm.trans hn) (by simp)⟩
    · intro j
      by_cases hj : j = k
      · subst hj; simp [hb.id_eq]
      · simp [Function.update_noteq hj, hb.id_eq]
    · intro j
      show 0 ≤ (Function.update s.workers k _ j).job_waiting.value
      rw [hsame j]
      exact hb.job_waiting_nonneg j
    refine ⟨L.done_false, by simp, ?_, ?_, ?_, ?_, ?_, ?_, ?_, ?_⟩
    · have := L.queue
      show (s.scheduled.length : Int) = s.queue_not_empty.value + s.signalsDue + 1
      omega
    · have := L.counter
      show sumTo s.numThreads _ = (s.num_available_workers : Int) + 0
      rw [sumTo_congr _ _ (debit s) (fun j _ => by simp only [debit]; rw [hsame j])]
      omega
    · have := L.tokens
      show sumTo s.numThreads _ = s.available_workers.value + 1
      rw [sumTo_congr _ _ (credit s) (fun j _ => by simp only [credit]; rw [hsame j])]
      omega
    · intro j hj hw hjw hmid
      have hjk : j ≠ k := by
        intro e
        simp [midDispatch, hwid, e] at hmid
      simp only [Function.update_noteq hjk] at hjw ⊢
      exact L.flag j hj hw hjw (by simp [midDispatch, hpc])
    · intro k2 hk2; cases hk2
    · intro k2 hk2; cases hk2
    · intro _; exact ⟨k, hk, hwid⟩
    · intro hk2; cases hk2
  · -- `num_available_workers--`
    cases hs
    have e1 : queueHeld s = 1 := by simp [queueHeld, hpc]
    have e2 : decremented s = 0 := by simp [decremented, hpc]
    have e3 : handing s = 1 := by simp [handing, hpc]
    have hlow := counter_lower_bound s L
    have hup := counter_upper_bound N s hb L
    have hav := hb.available_nonneg
    have hdec : ((size_t_dec s.num_available_workers : Nat) : Int) =
        (s.num_available_workers : Int) - 1 := by
      unfold size_t_dec
      have h1 : 1 ≤ s.num_available_workers := by omega
      have h2 : s.num_available_workers < 2 ^ 64 := by omega
      omega
    refine ⟨⟨hb.1, hb.2, hb.3, hb.4, hb.5⟩, h.workers, fun _ => ?_, fun hn => absurd (hl.symm.trans hn) (by simp)⟩
    refine ⟨L.done_false, by simp, ?_, ?_, ?_, ?_, ?_, ?_, ?_, ?_⟩
    · have := L.queue
      show (s.scheduled.length : Int) = s.queue_not_empty.value + s.signalsDue + 1
      omega
    · have := L.counter
      show sumTo s.numThreads (debit s) =
        ((size_t_dec s.num_available_workers : Nat) : Int) + 1
      omega
    · have := L.tokens
      show sumTo s.numThreads (credit s) = s.available_workers.value + 1
      omega
    · intro j hj hw hjw hmid
      exact L.flag j hj hw hjw (by simpa [midDispatch, hpc] using hmid)
    · intro k2 hk2; cases hk2
    · intro k2 hk2; cases hk2
    · intro _; exact L.chosen (Or.inl hpc)
    · intro hk2; cases hk2
  · -- `worker_t& worker = workers[worker_id]`
    have e1 : queueHeld s = 1 := by simp [queueHeld, hpc]
    have e2 : decremented s = 1 := by simp [decremented, hpc]
    have e3 : handing s = 1 := by simp [handing, hpc]
    split at hs
    · rename_i w hw
      split at hs
      · cases hs
        refine ⟨⟨hb.1, hb.2, hb.3, hb.4, hb.5⟩, h.workers, fun _ => ?_,
          fun hn => absurd (hl.symm.trans hn) (by simp)⟩
        refine ⟨L.done_false, by simp, ?_, ?_, ?_, ?_, ?_, ?_, ?_, ?_⟩
        · have := L.queue
          show (s.scheduled.length : Int) = s.queue_not_empty.value + s.signalsDue + 1
          omega
        · have := L.counter
          show sumTo s.numThreads (debit s) = (s.num_available_workers : Int) + 1
          omega
        · have := L.tokens
          show sumTo s.numThreads (credit s) = s.available_workers.value + 1
          omega
        · intro j hj hw hjw hmid
          exact L.flag j hj hw hjw (by simpa [midDispatch, hpc] using hmid)
        · intro k2 hk2; cases hk2
        · intro k2 hk2; cases hk2
        · intro _; exact L.chosen (Or.inr (Or.inl hpc))
        · intro hk2; cases hk2
      · cases hs
    · cases hs
  · -- `scheduled.front()` and `scheduled.pop()`
    have e1 : queueHeld s = 1 := by simp [queueHeld, hpc]
    have e2 : decremented s = 1 := by simp [decremented, hpc]
    have e3 : handing s = 1 := by simp [handing, hpc]
    split at hs
    · rename_i t rest hsched
      cases hs
      refine ⟨⟨hb.1, hb.2, hb.3, hb.4, hb.5⟩, h.workers, fun _ => ?_,
        fun hn => absurd (hl.symm.trans hn) (by simp)⟩
      refine ⟨L.done_false, by simp, ?_, ?_, ?_, ?_, ?_, ?_, ?_, ?_⟩
      · have := L.queue
        rw [hsched] at this
        simp only [List.length_cons] at this
        push_cast at this
        show (rest.length : Int) = s.queue_not_empty.value + s.signalsDue + 0
        omega
      · have := L.counter
        show sumTo s.numThreads (debit s) = (s.num_available_workers : Int) + 1
        omega
      · have := L.tokens
        show sumTo s.numThreads (credit s) = s.available_workers.value + 1
        omega
      · intro j hj hw hjw hmid
        exact L.flag j hj hw hjw (by simpa [midDispatch, hpc] using hmid)
      · intro k2 hk2; cases hk2
      · intro k2 hk2; cases hk2
      · intro _; exact L.chosen (Or.inr (Or.inr (Or.inl hpc)))
      · intro _; simp
    · cases hs
  · -- `worker.job = thunk`
    have e1 : queueHeld s = 0 := by simp [queueHeld, hpc]
    have e2 : decremented s = 1 := by simp [decremented, hpc]
    have e3 : handing s = 1 := by simp [handing, hpc]
    split at hs
    · rename_i w t hwid hth
      cases hs
      have hsame : ∀ j, (Function.update s.workers w
          { s.workers w with job := some t } j).job_waiting = (s.workers j).job_waiting := by
        intro j
        by_cases hj : j = w
        · subst hj; simp
        · simp [Function.update_noteq hj]
      refine ⟨⟨hb.1, ?_, ?_, hb.4, hb.5⟩, h.workers, fun _ => ?_, fun hn => absurd (hl.symm.trans hn) (by simp)⟩
      · intro j
        by_cases hj : j = w
        · subst hj; simp [hb.id_eq]
        · simp [Function.update_noteq hj, hb.id_eq]
      · intro j
        show 0 ≤ (Function.update s.workers w _ j).job_waiting.value
        rw [hsame j]
        exact hb.job_waiting_nonneg j
      refine ⟨L.done_false, by simp, ?_, ?_, ?_, ?_, ?_, ?_, ?_, ?_⟩
      · have := L.queue
        show (s.scheduled.length : Int) = s.queue_not_empty.value + s.signalsDue + 0
        omega
      · have := L.counter
        show sumTo s.numThreads _ = (s.num_available_workers : Int) + 1
        rw [sumTo_congr _ _ (debit s) (fun j _ => by simp only [debit]; rw [hsame j])]
        omega
      · have := L.tokens
        show sumTo s.numThreads _ = s.available_workers.value + 1
        rw [sumTo_congr _ _ (credit s) (fun j _ => by simp only [credit]; rw [hsame j])]
        omega
      · intro j hj hw hjw hmid
        have hjw2 : j ≠ w := by
          intro e
          simp [midDispatch, hwid, e] at hmid
        simp only [Function.update_noteq hjw2] at hjw ⊢
        exact L.flag j hj hw hjw (by simpa [midDispatch, hpc] using hmid)
      · intro k2 hk2; cases hk2
      · intro k2 hk2; cases hk2
      · intro _; exact L.chosen (Or.inr (Or.inr (Or.inr (Or.inl hpc))))
      · intro hk2; cases hk2
    · cases hs
  · -- `worker.job_waiting.signal()`
    have e1 : queueHeld s = 0 := by simp [queueHeld, hpc]
    have e2 : decremented s = 1 := by simp [decremented, hpc]
    have e3 : handing s = 1 := by simp [handing, hpc]
    split at hs
    · rename_i w hwid
      cases hs
      obtain ⟨w2, hw2, hwid2⟩ := L.chosen (Or.inr (Or.inr (Or.inr (Or.inr hpc))))
      rw [hwid] at hwid2
      cases hwid2
      have hjwnew : ∀ j, (Function.update s.workers w
          { s.workers w with job_waiting := (s.workers w).job_waiting.signal } j).job_waiting.value
            = (s.workers j).job_waiting.value + (if j = w then 1 else 0) := by
        intro j
        by_cases hj : j = w
        · subst hj; simp [NewsAggregator.semaphore.signal]
        · simp [Function.update_noteq hj, hj]
      refine ⟨⟨hb.1, ?_, ?_, hb.4, hb.5⟩, h.workers, fun _ => ?_, fun hn => absurd (hl.symm.trans hn) (by simp)⟩
      · intro j
        by_cases hj : j = w
        · subst hj; simp [hb.id_eq]
        · simp [Function.update_noteq hj, hb.id_eq]
      · intro j
        show 0 ≤ (Function.update s.workers w _ j).job_waiting.value
        rw [hjwnew j]
        have := hb.job_waiting_nonneg j
        split <;> omega
      refine ⟨L.done_false, by simp, ?_, ?_, ?_, ?_, ?_, ?_, ?_, ?_⟩
      · have := L.queue
        show (s.scheduled.length : Int) = s.queue_not_empty.value + s.signalsDue + 0
        omega
      · have := L.counter
        show sumTo s.numThreads _ = (s.num_available_workers : Int) + 0
        rw [sumTo_change s.numThreads (debit s) _ w hw2
          (fun j _ hj => by simp only [debit]; rw [hjwnew j]; simp [hj])]
        simp only [debit]
        rw [hjwnew w]
        simp only [if_true]
        omega
      · have := L.tokens
        show sumTo s.numThreads _ = s.available_workers.value + 0
        rw [sumTo_change s.numThreads (credit s) _ w hw2
          (fun j _ hj => by simp only [credit]; rw [hjwnew j]; simp [hj])]
        simp only [credit]
        rw [hjwnew w]
        simp only [if_true]
        omega
      · intro j hj hw hjw _
        have hjw1 : (s.workers j).job_waiting.value + (if j = w then 1 else 0) = 0 := by
          rw [← hjwnew j]; exact hjw
        by_cases hjw2 : j = w
        · subst hjw2
          have := hb.job_waiting_nonneg j
          simp only [if_true] at hjw1
          omega
        · simp only [Function.update_noteq hjw2] at hjw ⊢
          exact L.flag j hj hw hjw (by
            simp only [midDispatch, hpc, hwid, Option.some.injEq]
            rw [if_neg (fun e => hjw2 e.symm)])
      · intro k2 hk2; cases hk2
      · intro k2 hk2; cases hk2
      · intro hk2; simp at hk2
      · intro hk2; cases hk2
    · cases hs
  · cases hs

theorem basic_dispatcher (N : Nat) (s s2 : Pool) (hb : Basic N s)
    (hs : dispatcher s = some s2) : Basic N s2 := by
  unfold dispatcher at hs
  split at hs <;> rename_i hpc
  · simp only [Option.map_eq_some'] at hs
    obtain ⟨q, hq, rfl⟩ := hs
    obtain ⟨hpos, hqv⟩ := wait_eq_some hq
    exact ⟨hb.1, hb.2, hb.3, hb.4, by show 0 ≤ q.value; omega⟩
  · simp only [Option.map_eq_some'] at hs
    obtain ⟨q, hq, rfl⟩ := hs
    obtain ⟨hpos, hqv⟩ := wait_eq_some hq
    exact ⟨hb.1, hb.2, hb.3, by show 0 ≤ q.value; omega, hb.5⟩
  · split at hs <;> (cases hs; exact ⟨hb.1, hb.2, hb.3, hb.4, hb.5⟩)
  · split at hs
    · split at hs <;> (cases hs; exact ⟨hb.1, hb.2, hb.3, hb.4, hb.5⟩)
    · cases hs; exact ⟨hb.1, hb.2, hb.3, hb.4, hb.5⟩
  · rename_i k
    cases hs
    refine ⟨hb.1, ?_, ?_, hb.4, hb.5⟩
    · intro j
      by_cases hj : j = k
      · subst hj; simp [hb.id_eq]
      · simp [Function.update_noteq hj, hb.id_eq]
    · intro j
      by_cases hj : j = k
      · subst hj; simpa using hb.job_waiting_nonneg j
      · simpa [Function.update_noteq hj] using hb.job_waiting_nonneg j
  · cases hs; exact ⟨hb.1, hb.2, hb.3, hb.4, hb.5⟩
  · split at hs
    · split at hs
      · cases hs; exact ⟨hb.1, hb.2, hb.3, hb.4, hb.5⟩
      · cases hs
    · cases hs
  · split at hs
    · cases hs; exact ⟨hb.1, hb.2, hb.3, hb.4, hb.5⟩
    · cases hs
  · split at hs
    · rename_i w t hwid hth
      cases hs
      refine ⟨hb.1, ?_, ?_, hb.4, hb.5⟩
      · intro j
        by_cases hj : j = w
        · subst hj; simp [hb.id_eq]
        · simp [Function.update_noteq hj, hb.id_eq]
      · intro j
        by_cases hj : j = w
        · subst hj; simpa using hb.job_waiting_nonneg j
        · simpa [Function.update_noteq hj] using hb.job_waiting_nonneg j
    · cases hs
  · split at hs
    · rename_i w hwid
      cases hs
      refine ⟨hb.1, ?_, ?_, hb.4, hb.5⟩
      · intro j
        by_cases hj : j = w
        · subst hj; simp [hb.id_eq]
        · simp [Function.update_noteq hj, hb.id_eq]
      · intro j
        have := hb.job_waiting_nonneg j
        by_cases hj : j = w
        · subst hj
          simp only [Function.update_same, NewsAggregator.semaphore.signal]
          omega
        · simpa [Function.update_noteq hj] using this
    · cases hs
  · cases hs

theorem poolInv_dispatcher_shutdown (N : Nat) (s s2 : Pool) (h : PoolInv N s)
    (hl : s.done = true) (hs : dispatcher s = some s2) : PoolInv N s2 := by
  have hb2 := basic_dispatcher N s s2 h.basic hs
  have S := h.shutdown hl
  have hpcs := S.dispatcher_pc
  unfold dispatcher at hs
  split at hs <;> rename_i hpc
  · simp only [Option.map_eq_some'] at hs
    obtain ⟨q, hq, rfl⟩ := hs
    exact ⟨hb2, h.workers, fun hd => absurd (hd.symm.trans hl) (by simp), fun _ =>
      ⟨Or.inr (Or.inl rfl), S.counter, fun hk => by simp at hk, fun hk => by cases hk⟩⟩
  · simp only [Option.map_eq_some'] at hs
    obtain ⟨q, hq, rfl⟩ := hs
    exact ⟨hb2, h.workers, fun hd => absurd (hd.symm.trans hl) (by simp), fun _ =>
      ⟨Or.inr (Or.inr (Or.inl rfl)), S.counter, fun hk => by simp at hk,
        fun hk => by cases hk⟩⟩
  · rw [if_pos hl] at hs
    cases hs
    exact ⟨hb2, h.workers, fun hd => absurd (hd.symm.trans hl) (by simp), fun _ =>
      ⟨Or.inr (Or.inr (Or.inr (Or.inr (Or.inr rfl)))), S.counter, fun hk => by simp at hk,
        fun hk => by cases hk⟩⟩
  · rw [hpc] at hpcs; simp at hpcs
  · rw [hpc] at hpcs; simp at hpcs
  · rw [hpc] at hpcs; simp at hpcs
  · rw [hpc] at hpcs; simp at hpcs
  · rw [hpc] at hpcs; simp at hpcs
  · split at hs
    · rename_i w t hwid hth
      cases hs
      exact ⟨hb2, h.workers, fun hd => absurd (hd.symm.trans hl) (by simp), fun _ =>
        ⟨Or.inr (Or.inr (Or.inr (Or.inr (Or.inl rfl)))), S.counter,
          fun _ => S.chosen (Or.inl hpc), fun hk => by cases hk⟩⟩
    · cases hs
  · split at hs
    · rename_i w hwid
      cases hs
      exact ⟨hb2, h.workers, fun hd => absurd (hd.symm.trans hl) (by simp), fun _ =>
        ⟨Or.inl rfl, S.counter, fun hk => by simp at hk, fun hk => by cases hk⟩⟩
    · cases hs
  · cases hs

theorem poolInv_dispatcher (N : Nat) (hN : N < 2 ^ 64) (s s2 : Pool) (h : PoolInv N s)
    (hs : step s .dispatcher = some s2) : PoolInv N s2 := by
  simp only [step] at hs
  cases hl : s.done with
  | false => exact poolInv_dispatcher_live N hN s s2 h hl hs
  | true => exact poolInv_dispatcher_shutdown N s s2 h hl hs

/-- A statement of worker thread `i` that changes the balances of worker `i` by what it
adds to the two counters keeps the invariant `Live`. -/
theorem live_of_worker_step (s s2 : Pool) (i : Nat) (pc2 : WorkerPc) (L : Live s)
    (hi : i < s.numThreads)
    (hwts : s2.wts = Function.update s.wts i pc2)
    (hworkers : ∀ j, j ≠ i → s2.workers j = s.workers j)
    (hdt : s2.dt = s.dt) (hwid : s2.worker_id = s.worker_id) (hthunk : s2.thunk = s.thunk)
    (hdone : s2.done = s.done) (hsched : s2.scheduled = s.scheduled)
    (hq : s2.queue_not_empty = s.queue_not_empty) (hsd : s2.signalsDue = s.signalsDue)
    (hn : s2.numThreads = s.numThreads)
    (hcounter : debit s2 i - debit s i =
      (s2.num_available_workers : Int) - s.num_available_workers)
    (htokens : credit s2 i - credit s i =
      s2.available_workers.value - s.available_workers.value)
    (hflag : (pc2 = .signalAvailable ∨ pc2 = .waitJob) →
      (s2.workers i).job_waiting.value = 0 → midDispatch s i = 0 →
      (s2.workers i).available = true)
    (hfound : s.wts i = .waitJob → 0 < (s.workers i).job_waiting.value) :
    Live s2 := by
  have hqh : queueHeld s2 = queueHeld s := by unfold queueHeld; rw [hdt]
  have hde : decremented s2 = decremented s := by unfold decremented; rw [hdt]
  have hha : handing s2 = handing s := by unfold handing; rw [hdt]
  have hmid : ∀ j, midDispatch s2 j = midDispatch s j := by
    intro j; unfold midDispatch; rw [hdt, hwid]
  have hwj : ∀ j, j ≠ i → s2.wts j = s.wts j := by
    intro j hj; rw [hwts, Function.update_noteq hj]
  have hwi : s2.wts i = pc2 := by rw [hwts, Function.update_same]
  have hdebit : ∀ j, j < s.numThreads → j ≠ i → debit s2 j = debit s j := by
    intro j _ hj
    unfold debit
    rw [hworkers j hj, hwj j hj]
  have hcredit : ∀ j, j < s.numThreads → j ≠ i → credit s2 j = credit s j := by
    intro j _ hj
    unfold credit
    rw [hworkers j hj, hwj j hj]
  refine ⟨by rw [hdone]; exact L.done_false, by rw [hdt]; exact L.not_exited, ?_, ?_, ?_,
    ?_, ?_, ?_, ?_, ?_⟩
  · rw [hsched, hq, hsd, hqh]; exact L.queue
  · have := L.counter
    rw [hn, hde, sumTo_change _ (debit s) (debit s2) i hi hdebit]
    omega
  · have := L.tokens
    rw [hn, hha, sumTo_change _ (credit s) (credit s2) i hi hcredit]
    omega
  · intro j hj hw hjw hm
    rw [hn] at hj
    rw [hmid j] at hm
    by_cases hji : j = i
    · subst hji
      rw [hwi] at hw
      exact hflag hw hjw hm
    · rw [hwj j hji] at hw
      rw [hworkers j hji] at hjw ⊢
      exact L.flag j hj hw hjw hm
  · intro k hk
    rw [hdt] at hk
    obtain ⟨i0, hle, hi0, hw0, hjw0⟩ := L.found k hk
    have hne : i0 ≠ i := by
      intro e
      subst e
      have := hfound hw0
      omega
    exact ⟨i0, hle, by rw [hn]; exact hi0, by rw [hwj i0 hne]; exact hw0,
      by rw [hworkers i0 hne]; exact hjw0⟩
  · intro k hk
    rw [hdt] at hk
    rw [hn, hwid]
    exact L.marked k hk
  · intro hk
    rw [hdt] at hk
    rw [hn, hwid]
    exact L.chosen hk
  · intro hk
    rw [hdt] at hk
    rw [hthunk]
    exact L.popped hk

/-- Room for one more increment of `num_available_workers` when some worker has a balance
of at most zero. -/
theorem counter_room (N : Nat) (s : Pool) (hb : Basic N s) (L : Live s) (i : Nat)
    (hi : i < s.numThreads) (hle : debit s i ≤ 0) :
    (s.num_available_workers : Int) + decremented s + 1 ≤ N := by
  have h1 := sumTo_change s.numThreads (debit s)
    (fun j => if j = i then debit s i + 1 else debit s j) i hi
    (fun j _ hj => by simp [hj])
  have h2 := sumTo_le_card s.numThreads
    (fun j => if j = i then debit s i + 1 else debit s j)
    (fun j _ => by
      show (if j = i then debit s i + 1 else debit s j) ≤ 1
      split
      · omega
      · exact debit_le_one s hb.job_waiting_nonneg j)
  have h3 := L.counter
  simp only [if_true] at h1
  rw [← hb.numThreads_eq]
  omega

theorem size_t_inc_cast (n : Nat) (h : n + 1 < 2 ^ 64) :
    ((size_t_inc n : Nat) : Int) = (n : Int) + 1 := by
  unfold size_t_inc
  rw [Nat.mod_eq_of_lt h]
  push_cast
  rfl

theorem poolInv_worker_live (N : Nat) (hN : N < 2 ^ 64) (s s2 : Pool) (i : Nat)
    (h : PoolInv N s) (hl : s.done = false) (hs : worker s i = some s2) : PoolInv N s2 := by
  have hc : CountsStarted N s2 :=
    countsStarted_step N hN s (.worker i) s2 h.workers (by simpa [step] using hs)
  have hb := h.basic
  have L := h.live hl
  unfold worker at hs
  split at hs
  · rename_i hi
    split at hs <;> rename_i hpc
    · -- `num_workers++`
      cases hs
      refine ⟨⟨hb.1, hb.2, hb.3, hb.4, hb.5⟩, hc, fun _ => ?_, fun hn => absurd (hl.symm.trans hn) (by simp)⟩
      refine live_of_worker_step s _ i .incAvailableFirst L hi rfl (fun j _ => rfl)
        rfl rfl rfl rfl rfl rfl rfl rfl ?_ ?_ ?_ ?_
      · simp only [debit, Function.update_same, hpc, pastStart, busy]; omega
      · simp only [credit, Function.update_same, hpc, idle]; omega
      · intro hw; simp at hw
      · intro hw; rw [hpc] at hw; cases hw
    · -- the first `num_available_workers++`
      cases hs
      have hroom := counter_room N s hb L i hi (by
        have := hb.job_waiting_nonneg i
        simp only [debit, hpc, pastStart, busy]; omega)
      have hdec : 0 ≤ decremented s := by
        unfold decremented; split <;> omega
      have hinc := size_t_inc_cast s.num_available_workers (by omega)
      refine ⟨⟨hb.1, hb.2, hb.3, hb.4, hb.5⟩, hc, fun _ => ?_, fun hn => absurd (hl.symm.trans hn) (by simp)⟩
      refine live_of_worker_step s _ i .setAvailable L hi rfl (fun j _ => rfl)
        rfl rfl rfl rfl rfl rfl rfl rfl ?_ ?_ ?_ ?_
      · show debit _ i - debit s i = ((size_t_inc s.num_available_workers : Nat) : Int) - _
        rw [hinc]
        simp only [debit, Function.update_same, hpc, pastStart, busy]; omega
      · simp only [credit, Function.update_same, hpc, idle]; omega
      · intro hw; simp at hw
      · intro hw; rw [hpc] at hw; cases hw
    · -- `worker.available = true`
      cases hs
      have hsame : ∀ j, (Function.update s.workers i
          { s.workers i with available := true } j).job_waiting = (s.workers j).job_waiting := by
        intro j
        by_cases hj : j = i
        · subst hj; simp
        · simp [Function.update_noteq hj]
      refine ⟨⟨hb.1, ?_, ?_, hb.4, hb.5⟩, hc, fun _ => ?_, fun hn => absurd (hl.symm.trans hn) (by simp)⟩
      · intro j
        by_cases hj : j = i
        · subst hj; simp [hb.id_eq]
        · simp [Function.update_noteq hj, hb.id_eq]
      · intro j
        show 0 ≤ (Function.update s.workers i _ j).job_waiting.value
        rw [hsame j]
        exact hb.job_waiting_nonneg j
      refine live_of_worker_step s _ i .signalAvailable L hi rfl
        (fun j hj => Function.update_noteq hj _ _) rfl rfl rfl rfl rfl rfl rfl rfl ?_ ?_ ?_ ?_
      · show debit _ i - debit s i = _
        simp only [debit, Function.update_same, hpc, pastStart, busy]; omega
      · show credit _ i - credit s i = _
        simp only [credit, Function.update_same, hpc, idle]; omega
      · intro _ _ _
        simp
      · intro hw; rw [hpc] at hw; cases hw
    · -- `available_workers.signal()`
      cases hs
      refine ⟨⟨hb.1, hb.2, hb.3, ?_, hb.5⟩, hc, fun _ => ?_, fun hn => absurd (hl.symm.trans hn) (by simp)⟩
      · have := hb.available_nonneg
        show 0 ≤ s.available_workers.signal.value
        simp only [NewsAggregator.semaphore.signal]
        omega
      refine live_of_worker_step s _ i .waitJob L hi rfl (fun j _ => rfl)
        rfl rfl rfl rfl rfl rfl rfl rfl ?_ ?_ ?_ ?_
      · simp only [debit, Function.update_same, hpc, pastStart, busy]; omega
      · show credit _ i - credit s i = s.available_workers.signal.value - _
        simp only [credit, Function.update_same, hpc, idle, NewsAggregator.semaphore.signal]
        omega
      · intro _ hjw hm
        exact L.flag i hi (Or.inl hpc) hjw hm
      · intro hw; rw [hpc] at hw; cases hw
    · -- `worker.job_waiting.wait()`
      simp only [Option.map_eq_some'] at hs
      obtain ⟨q, hq, rfl⟩ := hs
      obtain ⟨hpos, hqv⟩ := wait_eq_some hq
      have hjwnew : ∀ j, (Function.update s.workers i
          { s.workers i with job_waiting := q } j).job_waiting.value
            = (s.workers j).job_waiting.value - (if j = i then 1 else 0) := by
        intro j
        by_cases hj : j = i
        · subst hj; simp [hqv]
        · simp [Function.update_noteq hj, hj]
      refine ⟨⟨hb.1, ?_, ?_, hb.4, hb.5⟩, hc, fun _ => ?_, fun hn => absurd (hl.symm.trans hn) (by simp)⟩
      · intro j
        by_cases hj : j = i
        · subst hj; simp [hb.id_eq]
        · simp [Function.update_noteq hj, hb.id_eq]
      · intro j
        show 0 ≤ (Function.update s.workers i _ j).job_waiting.value
        rw [hjwnew j]
        have := hb.job_waiting_nonneg j
        split
        · rename_i hj; subst hj; omega
        · omega
      refine live_of_worker_step s _ i .checkDone L hi rfl
        (fun j hj => Function.update_noteq hj _ _) rfl rfl rfl rfl rfl rfl rfl rfl ?_ ?_ ?_ ?_
      · show debit _ i - debit s i = _
        simp only [debit, Function.update_same, hpc, pastStart, busy, hqv]; omega
      · show credit _ i - credit s i = _
        simp only [credit, Function.update_same, hpc, idle, hqv]; omega
      · intro hw; simp at hw
      · intro _; exact hpos
    · -- `if (done)`
      split at hs
      · rename_i hd
        rw [L.done_false] at hd
        cases hd
      · cases hs
        refine ⟨⟨hb.1, hb.2, hb.3, hb.4, hb.5⟩, hc, fun _ => ?_, fun hn => absurd (hl.symm.trans hn) (by simp)⟩
        refine live_of_worker_step s _ i .callJob L hi rfl (fun j _ => rfl)
          rfl rfl rfl rfl rfl rfl rfl rfl ?_ ?_ ?_ ?_
        · simp only [debit, Function.update_same, hpc, pastStart, busy]; omega
        · simp only [credit, Function.update_same, hpc, idle]; omega
        · intro hw; simp at hw
        · intro hw; rw [hpc] at hw; cases hw
    · -- the call `worker.job()`
      split at hs
      · rename_i t ht
        cases hs
        refine ⟨⟨hb.1, hb.2, hb.3, hb.4, hb.5⟩, hc, fun _ => ?_, fun hn => absurd (hl.symm.trans hn) (by simp)⟩
        refine live_of_worker_step s _ i (.running t) L hi rfl (fun j _ => rfl)
          rfl rfl rfl rfl rfl rfl rfl rfl ?_ ?_ ?_ ?_
        · simp only [debit, Function.update_same, hpc, pastStart, busy]; omega
        · simp only [credit, Function.update_same, hpc, idle]; omega
        · intro hw; simp at hw
        · intro hw; rw [hpc] at hw; cases hw
      · cases hs
    · -- the thunk returns
      rename_i t
      cases hs
      refine ⟨⟨hb.1, hb.2, hb.3, hb.4, hb.5⟩, hc, fun _ => ?_, fun hn => absurd (hl.symm.trans hn) (by simp)⟩
      refine live_of_worker_step s _ i .incAvailable L hi rfl (fun j _ => rfl)
        rfl rfl rfl rfl rfl rfl rfl rfl ?_ ?_ ?_ ?_
      · simp only [debit, Function.update_same, hpc, pastStart, busy]; omega
      · simp only [credit, Function.update_same, hpc, idle]; omega
      · intro hw; simp at hw
      · intro hw; rw [hpc] at hw; cases hw
    · -- `num_available_workers++` after the job
      cases hs
      have hroom := counter_room N s hb L i hi (by
        have := hb.job_waiting_nonneg i
        simp only [debit, hpc, pastStart, busy]; omega)
      have hdec : 0 ≤ decremented s := by
        unfold decremented; split <;> omega
      have hinc := size_t_inc_cast s.num_available_workers (by omega)
      refine ⟨⟨hb.1, hb.2, hb.3, hb.4, hb.5⟩, hc, fun _ => ?_, fun hn => absurd (hl.symm.trans hn) (by simp)⟩
      refine live_of_worker_step s _ i .checkAll L hi rfl (fun j _ => rfl)
        rfl rfl rfl rfl rfl rfl rfl rfl ?_ ?_ ?_ ?_
      · show debit _ i - debit s i = ((size_t_inc s.num_available_workers : Nat) : Int) - _
        rw [hinc]
        simp only [debit, Function.update_same, hpc, pastStart, busy]; omega
      · simp only [credit, Function.update_same, hpc, idle]; omega
      · intro hw; simp at hw
      · intro hw; rw [hpc] at hw; cases hw
    · -- `if (num_available_workers == num_workers)`
      cases hs
      refine ⟨⟨hb.1, hb.2, hb.3, hb.4, hb.5⟩, hc, fun _ => ?_, fun hn => absurd (hl.symm.trans hn) (by simp)⟩
      refine live_of_worker_step s _ i .setAvailable L hi rfl (fun j _ => rfl)
        rfl rfl rfl rfl rfl rfl rfl rfl ?_ ?_ ?_ ?_
      · simp only [debit, Function.update_same, hpc, pastStart, busy]; omega
      · simp only [credit, Function.update_same, hpc, idle]; omega
      · intro hw; simp at hw
      · intro hw; rw [hpc] at hw; cases hw
    · cases hs
  · cases hs

theorem basic_worker (N : Nat) (s s2 : Pool) (i : Nat) (hb : Basic N s)
    (hs : worker s i = some s2) : Basic N s2 := by
  unfold worker at hs
  split at hs
  · split at hs <;> rename_i hpc
    · cases hs; exact ⟨hb.1, hb.2, hb.3, hb.4, hb.5⟩
    · cases hs; exact ⟨hb.1, hb.2, hb.3, hb.4, hb.5⟩
    · cases hs
      refine ⟨hb.1, ?_, ?_, hb.4, hb.5⟩
      · intro j
        by_cases hj : j = i
        · subst hj; simp [hb.id_eq]
        · simp [Function.update_noteq hj, hb.id_eq]
      · intro j
        by_cases hj : j = i
        · subst hj; simpa using hb.job_waiting_nonneg j
        · simpa [Function.update_noteq hj] using hb.job_waiting_nonneg j
    · cases hs
      refine ⟨hb.1, hb.2, hb.3, ?_, hb.5⟩
      have := hb.available_nonneg
      show 0 ≤ s.available_workers.signal.value
      simp only [NewsAggregator.semaphore.signal]
      omega
    · simp only [Option.map_eq_some'] at hs
      obtain ⟨q, hq, rfl⟩ := hs
      obtain ⟨hpos, hqv⟩ := wait_eq_some hq
      refine ⟨hb.1, ?_, ?_, hb.4, hb.5⟩
      · intro j
        by_cases hj : j = i
        · subst hj; simp [hb.id_eq]
        · simp [Function.update_noteq hj, hb.id_eq]
      · intro j
        by_cases hj : j = i
        · subst hj
          simp only [Function.update_same]
          omega
        · simpa [Function.update_noteq hj] using hb.job_waiting_nonneg j
    · split at hs <;> (cases hs; exact ⟨hb.1, hb.2, hb.3, hb.4, hb.5⟩)
    · split at hs
      · cases hs; exact ⟨hb.1, hb.2, hb.3, hb.4, hb.5⟩
      · cases hs
    · cases hs; exact ⟨hb.1, hb.2, hb.3, hb.4, hb.5⟩
    · cases hs; exact ⟨hb.1, hb.2, hb.3, hb.4, hb.5⟩
    · cases hs; exact ⟨hb.1, hb.2, hb.3, hb.4, hb.5⟩
    · cases hs
  · cases hs

/-- A statement of worker thread `i` keeps the invariant `Shutdown` when it keeps the
balance of `num_available_workers` against the control point of the thread. -/
theorem shutdown_of_worker_step (s s2 : Pool) (i : Nat) (pc2 : WorkerPc) (S : Shutdown s)
    (hi : i < s.numThreads)
    (hwts : s2.wts = Function.update s.wts i pc2)
    (hdt : s2.dt = s.dt) (hwid : s2.worker_id = s.worker_id) (hth : s2.thunk = s.thunk)
    (hn : s2.numThreads = s.numThreads)
    (hcount : (s2.num_available_workers : Int) - (pastStart pc2 - working pc2) ≤
      s.num_available_workers - (pastStart (s.wts i) - working (s.wts i))) :
    Shutdown s2 := by
  have hwj : ∀ j, j ≠ i → s2.wts j = s.wts j := by
    intro j hj; rw [hwts, Function.update_noteq hj]
  have hwi : s2.wts i = pc2 := by rw [hwts, Function.update_same]
  refine ⟨by rw [hdt]; exact S.dispatcher_pc, ?_, by rw [hdt, hwid, hn]; exact S.chosen,
    by rw [hdt, hth]; exact S.popped⟩
  have h1 := S.counter
  have h2 := sumTo_change s.numThreads (fun j => pastStart (s.wts j) - working (s.wts j))
    (fun j => pastStart (s2.wts j) - working (s2.wts j)) i hi
    (fun j _ hj => by
      show pastStart (s2.wts j) - working (s2.wts j) = pastStart (s.wts j) - working (s.wts j)
      rw [hwj j hj])
  rw [hn, h2]
  show (s2.num_available_workers : Int) ≤ _ +
    (pastStart (s2.wts i) - working (s2.wts i) - (pastStart (s.wts i) - working (s.wts i)))
  rw [hwi]
  omega

theorem settled_le_one (pc : WorkerPc) : pastStart pc - working pc ≤ 1 := by
  cases pc <;> simp [pastStart, working]

/-- Room for one more increment of `num_available_workers` once `done` is set, when the
next statement of some worker is an increment. -/
theorem shutdown_room (N : Nat) (s : Pool) (hb : Basic N s) (S : Shutdown s) (i : Nat)
    (hi : i < s.numThreads) (hle : pastStart (s.wts i) - working (s.wts i) ≤ 0) :
    (s.num_available_workers : Int) + 1 ≤ N := by
  have h1 := sumTo_change s.numThreads (fun j => pastStart (s.wts j) - working (s.wts j))
    (fun j => if j = i then pastStart (s.wts i) - working (s.wts i) + 1
      else pastStart (s.wts j) - working (s.wts j)) i hi
    (fun j _ hj => by simp [hj])
  have h2 := sumTo_le_card s.numThreads
    (fun j => if j = i then pastStart (s.wts i) - working (s.wts i) + 1
      else pastStart (s.wts j) - working (s.wts j))
    (fun j _ => by
      show (if j = i then pastStart (s.wts i) - working (s.wts i) + 1
        else pastStart (s.wts j) - working (s.wts j)) ≤ 1
      split
      · omega
      · exact settled_le_one _)
  have h3 := S.counter
  simp only [if_true] at h1
  rw [← hb.numThreads_eq]
  omega

theorem poolInv_worker_shutdown (N : Nat) (hN : N < 2 ^ 64) (s s2 : Pool) (i : Nat)
    (h : PoolInv N s) (hl : s.done = true) (hs : worker s i = some s2) : PoolInv N s2 := by
  have hc : CountsStarted N s2 :=
    countsStarted_step N hN s (.worker i) s2 h.workers (by simpa [step] using hs)
  have hb2 := basic_worker N s s2 i h.basic hs
  have hb := h.basic
  have S := h.shutdown hl
  unfold worker at hs
  split at hs
  · rename_i hi
    split at hs <;> rename_i hpc
    · cases hs
      refine ⟨hb2, hc, fun hd => absurd (hd.symm.trans hl) (by simp), fun _ => ?_⟩
      refine shutdown_of_worker_step s _ i .incAvailableFirst S hi rfl rfl rfl rfl rfl ?_
      simp only [hpc, pastStart, working]; omega
    · cases hs
      have hroom := shutdown_room N s hb S i hi (by simp only [hpc, pastStart, working]; omega)
      have hinc := size_t_inc_cast s.num_available_workers (by omega)
      refine ⟨hb2, hc, fun hd => absurd (hd.symm.trans hl) (by simp), fun _ => ?_⟩
      refine shutdown_of_worker_step s _ i .setAvailable S hi rfl rfl rfl rfl rfl ?_
      show ((size_t_inc s.num_available_workers : Nat) : Int) - _ ≤ _
      rw [hinc]
      simp only [hpc, pastStart, working]; omega
    · cases hs
      refine ⟨hb2, hc, fun hd => absurd (hd.symm.trans hl) (by simp), fun _ => ?_⟩
      refine shutdown_of_worker_step s _ i .signalAvailable S hi rfl rfl rfl rfl rfl ?_
      show (s.num_available_workers : Int) - _ ≤ _
      simp only [hpc, pastStart, working]; omega
    · cases hs
      refine ⟨hb2, hc, fun hd => absurd (hd.symm.trans hl) (by simp), fun _ => ?_⟩
      refine shutdown_of_worker_step s _ i .waitJob S hi rfl rfl rfl rfl rfl ?_
      show (s.num_available_workers : Int) - _ ≤ _
      simp only [hpc, pastStart, working]; omega
    · simp only [Option.map_eq_some'] at hs
      obtain ⟨q, hq, rfl⟩ := hs
      refine ⟨hb2, hc, fun hd => absurd (hd.symm.trans hl) (by simp), fun _ => ?_⟩
      refine shutdown_of_worker_step s _ i .checkDone S hi rfl rfl rfl rfl rfl ?_
      show (s.num_available_workers : Int) - _ ≤ _
      simp only [hpc, pastStart, working]; omega
    · try rw [if_pos hl] at hs
      cases hs
      refine ⟨hb2, hc, fun hd => absurd (hd.symm.trans hl) (by simp), fun _ => ?_⟩
      refine shutdown_of_worker_step s _ i .exited S hi rfl rfl rfl rfl rfl ?_
      show (s.num_available_workers : Int) - _ ≤ _
      simp only [hpc, pastStart, working]; omega
    · split at hs
      · rename_i t ht
        cases hs
        refine ⟨hb2, hc, fun hd => absurd (hd.symm.trans hl) (by simp), fun _ => ?_⟩
        refine shutdown_of_worker_step s _ i (.running t) S hi rfl rfl rfl rfl rfl ?_
        show (s.num_available_workers : Int) - _ ≤ _
        simp only [hpc, pastStart, working]; omega
      · cases hs
    · cases hs
      refine ⟨hb2, hc, fun hd => absurd (hd.symm.trans hl) (by simp), fun _ => ?_⟩
      refine shutdown_of_worker_step s _ i .incAvailable S hi rfl rfl rfl rfl rfl ?_
      show (s.num_available_workers : Int) - _ ≤ _
      simp only [hpc, pastStart, working]; omega
    · cases hs
      have hroom := shutdown_room N s hb S i hi (by simp only [hpc, pastStart, working]; omega)
      have hinc := size_t_inc_cast s.num_available_workers (by omega)
      refine ⟨hb2, hc, fun hd => absurd (hd.symm.trans hl) (by simp), fun _ => ?_⟩
      refine shutdown_of_worker_step s _ i .checkAll S hi rfl rfl rfl rfl rfl ?_
      show ((size_t_inc s.num_available_workers : Nat) : Int) - _ ≤ _
      rw [hinc]
      simp only [hpc, pastStart, working]; omega
    · cases hs
      refine ⟨hb2, hc, fun hd => absurd (hd.symm.trans hl) (by simp), fun _ => ?_⟩
      refine shutdown_of_worker_step s _ i .setAvailable S hi rfl rfl rfl rfl rfl ?_
      show (s.num_available_workers : Int) - _ ≤ _
      simp only [hpc, pastStart, working]; omega
    · cases hs
  · cases hs

theorem poolInv_worker (N : Nat) (hN : N < 2 ^ 64) (s s2 : Pool) (i : Nat) (h : PoolInv N s)
    (hs : step s (.worker i) = some s2) : PoolInv N s2 := by
  simp only [step] at hs
  cases hl : s.done with
  | false => exact poolInv_worker_live N hN s s2 i h hl hs
  | true => exact poolInv_worker_shutdown N hN s s2 i h hl hs

/-- A step of a thread other than the destructor changes neither `done` nor the control
point of the destructor, and puts nothing in the queue once the destructor is called. -/
theorem frame_of_step (s : Pool) (a : Action) (s2 : Pool) (ha : ∀ b, a ≠ .destructor b)
    (hs : step s a = some s2) :
    s2.dtor = s.dtor ∧ s2.done = s.done ∧
    (s.dtor ≠ .live → s.scheduled = [] → s2.scheduled = []) := by
  cases a with
  | schedulePush t =>
    simp only [step, schedulePush] at hs
    split at hs
    · rename_i hl
      cases hs
      exact ⟨rfl, rfl, fun hn => absurd hl hn⟩
    · cases hs
  | scheduleSignal =>
    simp only [step, scheduleSignal] at hs
    split at hs
    · cases hs; exact ⟨rfl, rfl, fun _ h => h⟩
    · cases hs
  | wait b =>
    simp only [step, wait, Option.some.injEq] at hs
    subst hs
    exact ⟨rfl, rfl, fun _ h => h⟩
  | dispatcher =>
    simp only [step] at hs
    unfold dispatcher at hs
    split at hs
    all_goals (try split at hs)
    all_goals (try split at hs)
    all_goals (try (simp only [Option.map_eq_some'] at hs; obtain ⟨q, _, hs⟩ := hs))
    all_goals (try (cases hs))
    all_goals (try (exact ⟨rfl, rfl, fun _ h => h⟩))
    all_goals
      (refine ⟨rfl, rfl, fun _ h => ?_⟩
       simp_all)
  | worker i =>
    simp only [step] at hs
    unfold worker at hs
    split at hs
    · split at hs
      all_goals (try split at hs)
      all_goals (try (simp only [Option.map_eq_some'] at hs; obtain ⟨q, _, hs⟩ := hs))
      all_goals (try (cases hs))
      all_goals (try (exact ⟨rfl, rfl, fun _ h => h⟩))
    · cases hs
  | destructor b => exact absurd rfl (ha b)

theorem evaluate_returned (s : Pool) (b : Bool) (pc : WaitPc)
    (h : evaluate s b pc = .returned) : pc = .size ∧ s.scheduled = [] := by
  cases pc with
  | idle => simp [evaluate] at h
  | returned => simp [evaluate] at h
  | compare first v =>
    exfalso
    simp only [evaluate] at h
    by_cases hv : v = (if first then s.num_workers else s.num_available_workers)
    · rw [if_pos hv] at h; cases h
    · rw [if_neg hv] at h; cases h
  | size =>
    simp only [evaluate] at h
    split at h
    · rename_i hl
      exact ⟨rfl, List.length_eq_zero.1 hl⟩
    · cases h

theorem phase_step (s : Pool) (a : Action) (s2 : Pool) (h : Phase s)
    (hs : step s a = some s2) : Phase s2 := by
  by_cases ha : ∀ b, a ≠ .destructor b
  · obtain ⟨h1, h2, h3⟩ := frame_of_step s a s2 ha hs
    refine ⟨by rw [h1, h2]; exact h.done_iff, ?_⟩
    intro hw
    rw [h1] at hw
    have hnl : s.dtor ≠ .live := by
      intro e
      rw [e] at hw
      cases hw
    exact h3 hnl (h.drained hw)
  · simp only [ne_eq, not_forall, not_not] at ha
    obtain ⟨b, rfl⟩ := ha
    simp only [step] at hs
    unfold destructor at hs
    split at hs <;> rename_i hpc
    · -- the call of `wait()` and its first read
      cases hs
      have hd : s.done = false := by
        cases hd : s.done with
        | false => rfl
        | true => exact absurd hpc (h.done_iff.1 hd).1
      refine ⟨?_, ?_⟩
      · show s.done = true ↔ _
        rw [hd]
        simp
      · intro hw
        simp [evaluate, waited] at hw
    · -- `done = true`
      cases hs
      have hq := h.drained (by rw [hpc]; rfl)
      refine ⟨?_, fun _ => hq⟩
      simp only [true_iff]
      constructor
      · split <;> simp
      · intro pc
        split <;> simp
    · -- a read of `wait()`
      rename_i pc hne
      cases hs
      have hd : s.done = false := by
        cases hd : s.done with
        | false => rfl
        | true => exact absurd hpc ((h.done_iff.1 hd).2 pc)
      refine ⟨?_, ?_⟩
      · show s.done = true ↔ _
        rw [hd]
        simp
      · intro hw
        show s.scheduled = []
        cases he : evaluate s b pc with
        | returned => exact (evaluate_returned s b pc he).2
        | idle => simp [he, waited] at hw
        | size => simp [he, waited] at hw
        | compare f v => simp [he, waited] at hw
    all_goals
      (have hd : s.done = true := h.done_iff.2 (by rw [hpc]; simp)
       have hq := h.drained (by rw [hpc]; rfl))
    · cases hs
      exact ⟨by simp [hd], fun _ => hq⟩
    · split at hs
      · cases hs
        refine ⟨?_, fun _ => hq⟩
        simp only [hd, true_iff]
        constructor
        · split <;> simp
        · intro pc
          split <;> simp
      · cases hs
    · cases hs
      exact ⟨by simp [hd], fun _ => hq⟩
    · cases hs
      exact ⟨by simp [hd], fun _ => hq⟩
    · split at hs
      · cases hs
        exact ⟨by simp [hd], fun _ => hq⟩
      · cases hs
    · cases hs

theorem busy_le_one (pc : WorkerPc) : busy pc ≤ 1 := by
  cases pc <;> simp [busy]

theorem queueHeld_nonneg (s : Pool) : 0 ≤ queueHeld s := by
  unfold queueHeld; split <;> omega

theorem decremented_nonneg (s : Pool) : 0 ≤ decremented s := by
  unfold decremented; split <;> omega

theorem working_le_busy (pc : WorkerPc) : working pc ≤ busy pc := by
  cases pc <;> simp [working, busy]

theorem working_nonneg (pc : WorkerPc) : 0 ≤ working pc := by
  cases pc <;> simp [working]

theorem basic_destructor (N : Nat) (s s2 : Pool) (b : Bool) (hb : Basic N s)
    (hs : destructor s b = some s2) : Basic N s2 := by
  unfold destructor at hs
  split at hs <;> rename_i hpc
  · cases hs; exact ⟨hb.1, hb.2, hb.3, hb.4, hb.5⟩
  · cases hs; exact ⟨hb.1, hb.2, hb.3, hb.4, hb.5⟩
  · cases hs; exact ⟨hb.1, hb.2, hb.3, hb.4, hb.5⟩
  · rename_i i
    cases hs
    refine ⟨hb.1, ?_, ?_, hb.4, hb.5⟩
    · intro j
      by_cases hj : j = i
      · subst hj; simp [hb.id_eq]
      · simp [Function.update_noteq hj, hb.id_eq]
    · intro j
      have := hb.job_waiting_nonneg j
      by_cases hj : j = i
      · subst hj
        simp only [Function.update_same, NewsAggregator.semaphore.signal]
        omega
      · simpa [Function.update_noteq hj] using this
  · split at hs
    · cases hs; exact ⟨hb.1, hb.2, hb.3, hb.4, hb.5⟩
    · cases hs
  · cases hs
    refine ⟨hb.1, hb.2, hb.3, hb.4, ?_⟩
    have := hb.queue_nonneg
    show 0 ≤ s.queue_not_empty.signal.value
    simp only [NewsAggregator.semaphore.signal]
    omega
  · cases hs
    refine ⟨hb.1, hb.2, hb.3, ?_, hb.5⟩
    have := hb.available_nonneg
    show 0 ≤ s.available_workers.signal.value
    simp only [NewsAggregator.semaphore.signal]
    omega
  · split at hs
    · cases hs; exact ⟨hb.1, hb.2, hb.3, hb.4, hb.5⟩
    · cases hs
  · cases hs

/-- When the destructor sets `done` the dispatcher is not between `queue_not_empty.wait()`
and the pop, and `num_available_workers` is bounded by the workers that are neither
starting nor at work. -/
theorem shutdown_of_live (N : Nat) (s : Pool) (hb : Basic N s) (L : Live s)
    (hq : s.scheduled = []) : Shutdown s := by
  have hqueue := L.queue
  have h1 := hb.queue_nonneg
  have h2 := queueHeld_nonneg s
  rw [hq] at hqueue
  simp only [List.length_nil, Nat.cast_zero] at hqueue
  have hqh : queueHeld s = 0 := by omega
  refine ⟨?_, ?_, fun hk => L.chosen (by
      rcases hk with hk | hk
      · exact Or.inr (Or.inr (Or.inr (Or.inl hk)))
      · exact Or.inr (Or.inr (Or.inr (Or.inr hk)))), L.popped⟩
  · cases hdt : s.dt <;> simp [queueHeld, hdt] at hqh ⊢
  · have hc := L.counter
    have hd := decremented_nonneg s
    have hle := sumTo_le s.numThreads (debit s)
      (fun j => pastStart (s.wts j) - working (s.wts j)) (fun j _ => by
        have := hb.job_waiting_nonneg j
        have := working_le_busy (s.wts j)
        show debit s j ≤ pastStart (s.wts j) - working (s.wts j)
        unfold debit
        omega)
    omega

theorem poolInv_destructor (N : Nat) (hN : N < 2 ^ 64) (s s2 : Pool) (b : Bool)
    (h : PoolInv N s) (hp : Phase s) (hs : step s (.destructor b) = some s2) :
    PoolInv N s2 := by
  have hc : CountsStarted N s2 := countsStarted_step N hN s (.destructor b) s2 h.workers hs
  simp only [step] at hs
  have hb2 := basic_destructor N s s2 b h.basic hs
  have hp2 : Phase s2 := phase_step s (.destructor b) s2 hp (by simpa [step] using hs)
  have hlive : ∀ s3 : Pool, s3.done = s.done → s3.dt = s.dt → s3.scheduled = s.scheduled →
      s3.queue_not_empty = s.queue_not_empty → s3.signalsDue = s.signalsDue →
      s3.numThreads = s.numThreads → s3.wts = s.wts → s3.workers = s.workers →
      s3.num_available_workers = s.num_available_workers →
      s3.available_workers = s.available_workers → s3.worker_id = s.worker_id →
      s3.thunk = s.thunk → Basic N s3 → CountsStarted N s3 → PoolInv N s3 := by
    intro s3 e1 e2 e3 e4 e5 e6 e7 e8 e9 e10 e11 e12 hb3 hc3
    have hdebit : debit s3 = debit s := by
      funext j; simp only [debit, e7, e8]
    have hcredit : credit s3 = credit s := by
      funext j; simp only [credit, e7, e8]
    have hmid : ∀ j, midDispatch s3 j = midDispatch s j := by
      intro j; simp only [midDispatch, e2, e11]
    refine ⟨hb3, hc3, fun hd => ?_, fun hd => ?_⟩
    · rw [e1] at hd
      have L := h.live hd
      refine ⟨by rw [e1]; exact hd, by rw [e2]; exact L.not_exited, ?_, ?_, ?_, ?_, ?_, ?_, ?_,
        ?_⟩
      · have := L.queue
        simp only [queueHeld, e2, e3, e4, e5] at this ⊢
        exact this
      · have := L.counter
        simp only [decremented, e2, e6, e9, hdebit] at this ⊢
        exact this
      · have := L.tokens
        simp only [handing, e2, e6, e10, hcredit] at this ⊢
        exact this
      · intro j hj hw hjw hm
        rw [e8]
        rw [e6] at hj
        rw [e7] at hw
        rw [e8] at hjw
        rw [hmid j] at hm
        exact L.flag j hj hw hjw hm
      · intro k hk
        rw [e2] at hk
        rw [e6, e7, e8]
        exact L.found k hk
      · intro k hk
        rw [e2] at hk
        rw [e6, e11]
        exact L.marked k hk
      · intro hk
        rw [e2] at hk
        rw [e6, e11]
        exact L.chosen hk
      · intro hk
        rw [e2] at hk
        rw [e12]
        exact L.popped hk
    · rw [e1] at hd
      have S := h.shutdown hd
      refine ⟨by rw [e2]; exact S.dispatcher_pc, by rw [e6, e7, e9]; exact S.counter,
        by rw [e2, e6, e11]; exact S.chosen, by rw [e2, e12]; exact S.popped⟩
  unfold destructor at hs
  split at hs <;> rename_i hpc
  · cases hs
    exact hlive _ rfl rfl rfl rfl rfl rfl rfl rfl rfl rfl rfl rfl hb2 hc
  · -- `done = true`
    cases hs
    have hd : s.done = false := by
      cases hd : s.done with
      | false => rfl
      | true => exact absurd hpc ((hp.done_iff.1 hd).2 _)
    have S := shutdown_of_live N s h.basic (h.live hd) (hp.drained (by rw [hpc]; rfl))
    exact ⟨hb2, hc, (fun hd2 => by cases hd2),
      fun _ => ⟨S.dispatcher_pc, S.counter, S.chosen, S.popped⟩⟩
  · cases hs
    exact hlive _ rfl rfl rfl rfl rfl rfl rfl rfl rfl rfl rfl rfl hb2 hc
  · -- `workers[i].job_waiting.signal()`
    rename_i i
    cases hs
    have hd : s.done = true := hp.done_iff.2 (by rw [hpc]; simp)
    have S := h.shutdown hd
    exact ⟨hb2, hc, fun hd2 => absurd (hd2.symm.trans hd) (by simp),
      fun _ => ⟨S.dispatcher_pc, S.counter, S.chosen, S.popped⟩⟩
  · split at hs
    · cases hs
      exact hlive _ rfl rfl rfl rfl rfl rfl rfl rfl rfl rfl rfl rfl hb2 hc
    · cases hs
  · cases hs
    have hd : s.done = true := hp.done_iff.2 (by rw [hpc]; simp)
    have S := h.shutdown hd
    exact ⟨hb2, hc, fun hd2 => absurd (hd2.symm.trans hd) (by simp),
      fun _ => ⟨S.dispatcher_pc, S.counter, S.chosen, S.popped⟩⟩
  · cases hs
    have hd : s.done = true := hp.done_iff.2 (by rw [hpc]; simp)
    have S := h.shutdown hd
    exact ⟨hb2, hc, fun hd2 => absurd (hd2.symm.trans hd) (by simp),
      fun _ => ⟨S.dispatcher_pc, S.counter, S.chosen, S.popped⟩⟩
  · split at hs
    · cases hs
      exact hlive _ rfl rfl rfl rfl rfl rfl rfl rfl rfl rfl rfl rfl hb2 hc
    · cases hs
  · cases hs

/-- Room for an increment of `num_available_workers` when the next statement of worker
thread `i` is one. -/
theorem increment_room (N : Nat) (hN : N < 2 ^ 64) (s : Pool) (i : Nat) (h : PoolInv N s)
    (hi : i < s.numThreads)
    (hpc : s.wts i = .incAvailableFirst ∨ s.wts i = .incAvailable) :
    s.num_available_workers + 1 < 2 ^ 64 := by
  have hb := h.basic
  have hjw := hb.job_waiting_nonneg i
  cases hd : s.done with
  | false =>
    have L := h.live hd
    have hroom := counter_room N s hb L i hi (by
      rcases hpc with e | e <;> (simp only [debit, e, pastStart, busy]; omega))
    have := decremented_nonneg s
    omega
  | true =>
    have S := h.shutdown hd
    have hroom := shutdown_room N s hb S i hi (by
      rcases hpc with e | e <;> (simp only [e, pastStart, working]; omega))
    omega

theorem size_t_dec_cast (n : Nat) (h0 : 0 < n) (h : n < 2 ^ 64) :
    ((size_t_dec n : Nat) : Int) = (n : Int) - 1 := by
  unfold size_t_dec
  have : (n + 2 ^ 64 - 1) % 2 ^ 64 = n - 1 := by omega
  rw [this]
  omega

/-- The dispatcher decrements `num_available_workers` only when it is positive and below
`2 ^ 64`. -/
theorem decrement_room (N : Nat) (hN : N < 2 ^ 64) (s : Pool) (h : PoolInv N s)
    (hpc : s.dt = .decAvailable) :
    0 < s.num_available_workers ∧ s.num_available_workers < 2 ^ 64 ∧ s.done = false := by
  have hb := h.basic
  cases hd : s.done with
  | true =>
    have := (h.shutdown hd).dispatcher_pc
    rw [hpc] at this
    simp at this
  | false =>
    have L := h.live hd
    have h1 := counter_lower_bound s L
    have h2 : handing s = 1 := by simp [handing, hpc]
    have h3 : decremented s = 0 := by simp [decremented, hpc]
    have h4 := hb.available_nonneg
    have h5 := counter_upper_bound N s hb L
    refine ⟨by omega, by omega, rfl⟩

/-- A statement of worker thread `i` keeps the ledger `History` when it keeps the balance
of the thread against `num_available_workers` and the log of returned thunks. -/
theorem history_of_worker_step (s s2 : Pool) (i : Nat) (pc2 : WorkerPc) (hh : History s)
    (hi : i < s.numThreads)
    (hwts : s2.wts = Function.update s.wts i pc2)
    (hn : s2.numThreads = s.numThreads) (hdt : s2.dt = s.dt)
    (hdl : s2.dispatchLog = s.dispatchLog)
    (hbal : (s2.num_available_workers : Int) + returning pc2 - pastStart pc2 -
        s2.finishLog.length =
      s.num_available_workers + returning (s.wts i) - pastStart (s.wts i) -
        s.finishLog.length) :
    History s2 := by
  have hwj : ∀ j, j ≠ i → s2.wts j = s.wts j := by
    intro j hj; rw [hwts, Function.update_noteq hj]
  have hwi : s2.wts i = pc2 := by rw [hwts, Function.update_same]
  have h1 := sumTo_change s.numThreads (fun j => returning (s.wts j))
    (fun j => returning (s2.wts j)) i hi
    (fun j _ hj => by show returning (s2.wts j) = returning (s.wts j); rw [hwj j hj])
  have h2 := sumTo_change s.numThreads (fun j => pastStart (s.wts j))
    (fun j => pastStart (s2.wts j)) i hi
    (fun j _ hj => by show pastStart (s2.wts j) = pastStart (s.wts j); rw [hwj j hj])
  have h3 : returning (s2.wts i) = returning pc2 := by rw [hwi]
  have h4 : pastStart (s2.wts i) = pastStart pc2 := by rw [hwi]
  have hu : unlogged s2 = unlogged s := by simp only [unlogged, hdt]
  unfold History at hh ⊢
  rw [hn, h1, h2, hu, hdl]
  simp only [h3, h4]
  omega

theorem history_worker (N : Nat) (hN : N < 2 ^ 64) (s s2 : Pool) (i : Nat)
    (h : PoolInv N s) (hh : History s) (hs : worker s i = some s2) : History s2 := by
  unfold worker at hs
  split at hs
  · rename_i hi
    split at hs <;> rename_i hpc
    · cases hs
      refine history_of_worker_step s _ i .incAvailableFirst hh hi rfl rfl rfl rfl ?_
      show (s.num_available_workers : Int) + _ - _ - (s.finishLog.length : Int) = _
      simp only [hpc, pastStart, returning]
    · cases hs
      have hinc := size_t_inc_cast s.num_available_workers
        (increment_room N hN s i h hi (Or.inl hpc))
      refine history_of_worker_step s _ i .setAvailable hh hi rfl rfl rfl rfl ?_
      show ((size_t_inc s.num_available_workers : Nat) : Int) + _ - _ -
        (s.finishLog.length : Int) = _
      rw [hinc]
      simp only [hpc, pastStart, returning]
      omega
    · cases hs
      refine history_of_worker_step s _ i .signalAvailable hh hi rfl rfl rfl rfl ?_
      show (s.num_available_workers : Int) + _ - _ - (s.finishLog.length : Int) = _
      simp only [hpc, pastStart, returning]
    · cases hs
      refine history_of_worker_step s _ i .waitJob hh hi rfl rfl rfl rfl ?_
      show (s.num_available_workers : Int) + _ - _ - (s.finishLog.length : Int) = _
      simp only [hpc, pastStart, returning]
    · simp only [Option.map_eq_some'] at hs
      obtain ⟨q, hq, rfl⟩ := hs
      refine history_of_worker_step s _ i .checkDone hh hi rfl rfl rfl rfl ?_
      show (s.num_available_workers : Int) + _ - _ - (s.finishLog.length : Int) = _
      simp only [hpc, pastStart, returning]
    · split at hs
      · cases hs
        refine history_of_worker_step s _ i .exited hh hi rfl rfl rfl rfl ?_
        show (s.num_available_workers : Int) + _ - _ - (s.finishLog.length : Int) = _
        simp only [hpc, pastStart, returning]
      · cases hs
        refine history_of_worker_step s _ i .callJob hh hi rfl rfl rfl rfl ?_
        show (s.num_available_workers : Int) + _ - _ - (s.finishLog.length : Int) = _
        simp only [hpc, pastStart, returning]
    · split at hs
      · rename_i t ht
        cases hs
        refine history_of_worker_step s _ i (.running t) hh hi rfl rfl rfl rfl ?_
        show (s.num_available_workers : Int) + _ - _ - (s.finishLog.length : Int) = _
        simp only [hpc, pastStart, returning]
      · cases hs
    · rename_i t
      cases hs
      refine history_of_worker_step s _ i .incAvailable hh hi rfl rfl rfl rfl ?_
      show (s.num_available_workers : Int) + _ - _ -
        ((s.finishLog ++ [t]).length : Int) = _
      simp only [hpc, pastStart, returning, List.length_append, List.length_singleton]
      push_cast
      omega
    · cases hs
      have hinc := size_t_inc_cast s.num_available_workers
        (increment_room N hN s i h hi (Or.inr hpc))
      refine history_of_worker_step s _ i .checkAll hh hi rfl rfl rfl rfl ?_
      show ((size_t_inc s.num_available_workers : Nat) : Int) + _ - _ -
        (s.finishLog.length : Int) = _
      rw [hinc]
      simp only [hpc, pastStart, returning]
      omega
    · cases hs
      refine history_of_worker_step s _ i .setAvailable hh hi rfl rfl rfl rfl ?_
      show (s.num_available_workers : Int) + _ - _ - (s.finishLog.length : Int) = _
      simp only [hpc, pastStart, returning]
    · cases hs
  · cases hs

theorem history_dispatcher (N : Nat) (hN : N < 2 ^ 64) (s s2 : Pool)
    (h : PoolInv N s) (hh : History s) (hs : dispatcher s = some s2) : History s2 := by
  unfold History at hh ⊢
  unfold dispatcher at hs
  split at hs <;> rename_i hpc
  · simp only [Option.map_eq_some'] at hs
    obtain ⟨q, hq, rfl⟩ := hs
    simp only [unlogged, hpc] at hh ⊢
    exact hh
  · simp only [Option.map_eq_some'] at hs
    obtain ⟨q, hq, rfl⟩ := hs
    simp only [unlogged, hpc] at hh ⊢
    exact hh
  · split at hs <;>
      (cases hs
       simp only [unlogged, hpc] at hh ⊢
       exact hh)
  · split at hs
    · split at hs <;>
        (cases hs
         simp only [unlogged, hpc] at hh ⊢
         exact hh)
    · cases hs
      exfalso
      rename_i k hk
      have hd : s.done = false := by
        cases hd : s.done with
        | false => rfl
        | true =>
          have := (h.shutdown hd).dispatcher_pc
          rw [hpc] at this
          simp at this
      obtain ⟨i, hle, hi, _⟩ := (h.live hd).found k hpc
      omega
  · cases hs
    simp only [unlogged, hpc] at hh ⊢
    exact hh
  · cases hs
    obtain ⟨h0, h1, _⟩ := decrement_room N hN s h hpc
    have hdec := size_t_dec_cast s.num_available_workers h0 h1
    simp only [unlogged, hpc] at hh ⊢
    rw [hdec]
    omega
  · split at hs
    · split at hs
      · cases hs
        simp only [unlogged, hpc] at hh ⊢
        exact hh
      · cases hs
    · cases hs
  · split at hs
    · cases hs
      simp only [unlogged, hpc] at hh ⊢
      exact hh
    · cases hs
  · split at hs
    · cases hs
      simp only [unlogged, hpc, List.length_append, List.length_singleton] at hh ⊢
      push_cast
      omega
    · cases hs
  · split at hs
    · cases hs
      simp only [unlogged, hpc] at hh ⊢
      exact hh
    · cases hs
  · cases hs

theorem history_step (N : Nat) (hN : N < 2 ^ 64) (s : Pool) (a : Action) (s2 : Pool)
    (h : PoolInv N s) (hh : History s) (hs : step s a = some s2) : History s2 := by
  cases a with
  | schedulePush t =>
    simp only [step, schedulePush] at hs
    split at hs
    · cases hs; exact hh
    · cases hs
  | scheduleSignal =>
    simp only [step, scheduleSignal] at hs
    split at hs
    · cases hs; exact hh
    · cases hs
  | wait b =>
    simp only [step, wait, Option.some.injEq] at hs
    subst hs
    exact hh
  | dispatcher => exact history_dispatcher N hN s s2 h hh (by simpa [step] using hs)
  | worker i => exact history_worker N hN s s2 i h hh (by simpa [step] using hs)
  | destructor b =>
    simp only [step] at hs
    unfold destructor at hs
    split at hs
    all_goals (try split at hs)
    all_goals (try (cases hs))
    all_goals (try (exact hh))

theorem handoff_step (s : Pool) (a : Action) (s2 : Pool) (h : Handoff s)
    (hs : step s a = some s2) : Handoff s2 := by
  unfold Handoff at h ⊢
  cases a with
  | schedulePush t =>
    simp only [step, schedulePush] at hs
    split at hs
    · cases hs; exact h
    · cases hs
  | scheduleSignal =>
    simp only [step, scheduleSignal] at hs
    split at hs
    · cases hs; exact h
    · cases hs
  | wait b =>
    simp only [step, wait, Option.some.injEq] at hs
    subst hs
    exact h
  | dispatcher =>
    simp only [step] at hs
    unfold dispatcher at hs
    split at hs <;> rename_i hpc
    · simp only [Option.map_eq_some'] at hs
      obtain ⟨q, hq, rfl⟩ := hs
      intro hk; cases hk
    · simp only [Option.map_eq_some'] at hs
      obtain ⟨q, hq, rfl⟩ := hs
      intro hk; cases hk
    · split at hs <;> (cases hs; intro hk; cases hk)
    · split at hs
      · split at hs <;> (cases hs; intro hk; cases hk)
      · cases hs; intro hk; cases hk
    · cases hs; intro hk; cases hk
    · cases hs; intro hk; cases hk
    · split at hs
      · split at hs
        · cases hs; intro hk; cases hk
        · cases hs
      · cases hs
    · split at hs
      · cases hs; intro hk; cases hk
      · cases hs
    · split at hs
      · rename_i w t hwid hth
        cases hs
        intro _
        exact ⟨w, t, hwid, by simp, by simp⟩
      · cases hs
    · split at hs
      · cases hs; intro hk; cases hk
      · cases hs
    · cases hs
  | worker i =>
    simp only [step] at hs
    unfold worker at hs
    split at hs
    · split at hs <;> rename_i hpc
      · cases hs; exact h
      · cases hs; exact h
      · cases hs
        intro hk
        obtain ⟨w, t, h1, h2, h3⟩ := h hk
        refine ⟨w, t, h1, ?_, h3⟩
        by_cases hw : w = i
        · subst hw; simpa using h2
        · simpa [Function.update_noteq hw] using h2
      · cases hs; exact h
      · simp only [Option.map_eq_some'] at hs
        obtain ⟨q, hq, rfl⟩ := hs
        intro hk
        obtain ⟨w, t, h1, h2, h3⟩ := h hk
        refine ⟨w, t, h1, ?_, h3⟩
        by_cases hw : w = i
        · subst hw; simpa using h2
        · simpa [Function.update_noteq hw] using h2
      · split at hs <;> (cases hs; exact h)
      · split at hs
        · cases hs; exact h
        · cases hs
      · cases hs; exact h
      · cases hs; exact h
      · cases hs; exact h
      · cases hs
    · cases hs
  | destructor b =>
    simp only [step] at hs
    unfold destructor at hs
    split at hs <;> rename_i hpc
    · cases hs; exact h
    · cases hs; exact h
    · cases hs; exact h
    · rename_i i
      cases hs
      intro hk
      obtain ⟨w, t, h1, h2, h3⟩ := h hk
      refine ⟨w, t, h1, ?_, h3⟩
      by_cases hw : w = i
      · subst hw; simpa using h2
      · simpa [Function.update_noteq hw] using h2
    · split at hs
      · cases hs; exact h
      · cases hs
    · cases hs; exact h
    · cases hs; exact h
    · split at hs
      · cases hs; exact h
      · cases hs
    · cases hs

theorem invariant_init (N : Nat) : Invariant N (init N) := by
  refine ⟨poolInv_init N, ⟨by simp [init], fun h => by simp [init, waited] at h⟩, ?_, ?_⟩
  · unfold History
    have e1 : sumTo (init N).numThreads (fun j => returning ((init N).wts j)) = 0 :=
      sumTo_eq_zero _ _ (fun j _ => rfl)
    have e2 : sumTo (init N).numThreads (fun j => pastStart ((init N).wts j)) = 0 :=
      sumTo_eq_zero _ _ (fun j _ => rfl)
    rw [e1, e2]
    simp [init, unlogged]
  · intro h
    simp [init] at h

theorem invariant_step (N : Nat) (hN : N < 2 ^ 64) (s : Pool) (a : Action) (s2 : Pool)
    (h : Invariant N s) (hs : step s a = some s2) : Invariant N s2 := by
  obtain ⟨h1, h2, h3, h4⟩ := h
  refine ⟨?_, phase_step s a s2 h2 hs, history_step N hN s a s2 h1 h3 hs,
    handoff_step s a s2 h4 hs⟩
  cases a with
  | schedulePush t => exact poolInv_schedulePush N s s2 t h1 hs
  | scheduleSignal => exact poolInv_scheduleSignal N s s2 h1 hs
  | wait b => exact poolInv_wait N s s2 b h1 hs
  | dispatcher => exact poolInv_dispatcher N hN s s2 h1 hs
  | worker i => exact poolInv_worker N hN s s2 i h1 hs
  | destructor b => exact poolInv_destructor N hN s s2 b h1 h2 hs

theorem invariant_of_reachable (N : Nat) (hN : N < 2 ^ 64) (s : Pool) (hr : Reachable N s) :
    Invariant N s :=
  reachable_invariant N (Invariant N) (invariant_init N)
    (fun s a s2 h hs => invariant_step N hN s a s2 h hs) s hr

theorem available_le_workers (N : Nat) (s : Pool) (h : PoolInv N s) :
    s.num_available_workers ≤ s.num_workers := by
  have hb := h.basic
  have hsum := sumTo_le s.numThreads (fun j => pastStart (s.wts j))
    (fun j => started (s.wts j)) (fun j _ => pastStart_le_started (s.wts j))
  have hstart := startedWorkers_eq_sumTo s
  have hnw : (s.num_workers : Int) = startedWorkers s := by rw [h.workers.2]
  cases hd : s.done with
  | false =>
    have L := h.live hd
    have hle1 := sumTo_le s.numThreads (debit s) (fun j => pastStart (s.wts j))
      (fun j _ => by
        have := hb.job_waiting_nonneg j
        have := busy_nonneg (s.wts j)
        show debit s j ≤ pastStart (s.wts j)
        unfold debit
        omega)
    have hcount := L.counter
    have hdn := decremented_nonneg s
    omega
  | true =>
    have S := h.shutdown hd
    have hle1 := sumTo_le s.numThreads (fun j => pastStart (s.wts j) - working (s.wts j))
      (fun j => pastStart (s.wts j)) (fun j _ => by
        have := working_nonneg (s.wts j)
        show pastStart (s.wts j) - working (s.wts j) ≤ pastStart (s.wts j)
        omega)
    have hcount := S.counter
    omega

theorem pastStart_eq_one {pc : WorkerPc} (h1 : pc ≠ .start) (h2 : pc ≠ .incAvailableFirst) :
    pastStart pc = 1 := by
  cases pc <;> simp [pastStart] at h1 h2 ⊢

theorem run_append (l1 l2 : List Action) : ∀ s : Pool,
    run s (l1 ++ l2) = (run s l1).bind (fun s1 => run s1 l2) := by
  induction l1 with
  | nil => intro s; rfl
  | cons a l ih =>
    intro s
    show (step s a).bind _ = ((step s a).bind _).bind _
    cases step s a with
    | none => rfl
    | some s1 => exact ih s1

theorem search_run (k : Nat) : ∀ (d a : Nat) (s : Pool), a + d = k → s.dt = .search a →
    k < s.numThreads → (s.workers k).available = true →
    (∀ j, a ≤ j → j < k → (s.workers j).available = false) →
    run s (List.replicate (d + 1) .dispatcher) =
      some { s with worker_id := some (s.workers k).id, dt := .markBusy k } := by
  intro d
  induction d with
  | zero =>
    intro a s ha hpc hk hf _
    have : a = k := by omega
    subst this
    show (step s .dispatcher).bind _ = _
    simp only [step]
    unfold dispatcher
    rw [hpc]
    simp only [hk, hf, if_true]
    rfl
  | succ d ih =>
    intro a s ha hpc hk hf hlow
    have hak : a < k := by omega
    have ha2 : a < s.numThreads := by omega
    have hfa := hlow a (Nat.le_refl a) hak
    show (step s .dispatcher).bind _ = _
    have h1 : step s .dispatcher = some { s with dt := .search (a + 1) } := by
      simp only [step]
      unfold dispatcher
      rw [hpc]
      simp [ha2, hfa]
    rw [h1]
    show run { s with dt := .search (a + 1) } (List.replicate (d + 1) .dispatcher) = _
    rw [ih (a + 1) { s with dt := .search (a + 1) } (by omega) rfl hk hf
      (fun j hj hjk => hlow j (by omega) hjk)]

theorem handoff_run (s : Pool) (k : Nat) (t : thunk_t) (rest : List thunk_t)
    (hpc : s.dt = .markBusy k) (hw : s.worker_id = some k) (hk : k < s.numThreads)
    (hq : s.scheduled = t :: rest) :
    ∃ s2, run s (List.replicate 6 .dispatcher) = some s2 ∧
      s2.dt = .waitQueue ∧ s2.worker_id = some k ∧ s2.scheduled = rest ∧
      s2.workers = Function.update s.workers k
        { id := (s.workers k).id, available := false,
          job_waiting := (s.workers k).job_waiting.signal, job := some t } := by
  cases s
  simp only at hpc hw hk hq
  subst hpc hw hq
  simp [List.replicate, run, step, dispatcher, hk]

/-- A step that changes the `job` of `workers[j]` is the dispatcher's `worker.job = thunk`
for the worker it chose. -/
theorem job_written_by_dispatcher (s : Pool) (a : Action) (s2 : Pool) (j : Nat)
    (hs : step s a = some s2) (hne : (s2.workers j).job ≠ (s.workers j).job) :
    a = .dispatcher ∧ s.dt = .setJob ∧ s.worker_id = some j := by
  have hupd : ∀ (i : Nat) (w : worker_t), w.job = (s.workers i).job →
      (Function.update s.workers i w j).job = (s.workers j).job := by
    intro i w hw
    by_cases hji : j = i
    · subst hji; simpa using hw
    · simp [Function.update_noteq hji]
  cases a with
  | schedulePush t =>
    simp only [step, schedulePush] at hs
    split at hs
    · cases hs; exact absurd rfl hne
    · cases hs
  | scheduleSignal =>
    simp only [step, scheduleSignal] at hs
    split at hs
    · cases hs; exact absurd rfl hne
    · cases hs
  | wait b =>
    simp only [step, wait, Option.some.injEq] at hs
    subst hs
    exact absurd rfl hne
  | dispatcher =>
    simp only [step] at hs
    unfold dispatcher at hs
    split at hs <;> rename_i hpc
    · simp only [Option.map_eq_some'] at hs
      obtain ⟨q, hq, rfl⟩ := hs
      exact absurd rfl hne
    · simp only [Option.map_eq_some'] at hs
      obtain ⟨q, hq, rfl⟩ := hs
      exact absurd rfl hne
    · split at hs <;> (cases hs; exact absurd rfl hne)
    · split at hs
      · split at hs <;> (cases hs; exact absurd rfl hne)
      · cases hs; exact absurd rfl hne
    · cases hs
      exact (hne (hupd _ _ rfl)).elim
    · cases hs; exact absurd rfl hne
    · split at hs
      · split at hs
        · cases hs; exact absurd rfl hne
        · cases hs
      · cases hs
    · split at hs
      · cases hs; exact absurd rfl hne
      · cases hs
    · split at hs
      · rename_i w t hwid hth
        cases hs
        refine ⟨rfl, hpc, ?_⟩
        by_cases hjw : j = w
        · rw [hwid, hjw]
        · exact absurd (by simp [Function.update_noteq hjw]) hne
      · cases hs
    · split at hs
      · cases hs
        exact (hne (hupd _ _ rfl)).elim
      · cases hs
    · cases hs
  | worker i =>
    simp only [step] at hs
    unfold worker at hs
    split at hs
    · split at hs <;> rename_i hpc
      · cases hs; exact absurd rfl hne
      · cases hs; exact absurd rfl hne
      · cases hs; exact (hne (hupd _ _ rfl)).elim
      · cases hs; exact absurd rfl hne
      · simp only [Option.map_eq_some'] at hs
        obtain ⟨q, hq, rfl⟩ := hs
        exact (hne (hupd _ _ rfl)).elim
      · split at hs <;> (cases hs; exact absurd rfl hne)
      · split at hs
        · cases hs; exact absurd rfl hne
        · cases hs
      · cases hs; exact absurd rfl hne
      · cases hs; exact absurd rfl hne
      · cases hs; exact absurd rfl hne
      · cases hs
    · cases hs
  | destructor b =>
    simp only [step] at hs
    unfold destructor at hs
    split at hs <;> rename_i hpc
    · cases hs; exact absurd rfl hne
    · cases hs; exact absurd rfl hne
    · cases hs; exact absurd rfl hne
    · cases hs; exact (hne (hupd _ _ rfl)).elim
    · split at hs
      · cases hs; exact absurd rfl hne
      · cases hs
    · cases hs; exact absurd rfl hne
    · cases hs; exact absurd rfl hne
    · split at hs
      · cases hs; exact absurd rfl hne
      · cases hs
    · cases hs

/-- In every state the dispatcher reaches at `worker.job = thunk` or at
`worker.job_waiting.signal()` it has chosen a worker, and at the store it holds a thunk. -/
theorem chosen_of_invariant (N : Nat) (s : Pool) (h : PoolInv N s)
    (hpc : s.dt = .setJob ∨ s.dt = .signalJob) :
    (∃ w, w < N ∧ s.worker_id = some w) ∧ (s.dt = .setJob → s.thunk ≠ none) := by
  have hn := h.basic.numThreads_eq
  cases hd : s.done with
  | false =>
    have L := h.live hd
    obtain ⟨w, hw, hwid⟩ := L.chosen (by
      rcases hpc with e | e
      · exact Or.inr (Or.inr (Or.inr (Or.inl e)))
      · exact Or.inr (Or.inr (Or.inr (Or.inr e))))
    exact ⟨⟨w, by omega, hwid⟩, L.popped⟩
  | true =>
    have S := h.shutdown hd
    obtain ⟨w, hw, hwid⟩ := S.chosen hpc
    exact ⟨⟨w, by omega, hwid⟩, S.popped⟩

/-- C9: the dispatcher hands thunks to workers in schedule order. In every reachable state
the thunks pushed by `schedule`, in push order, are the thunks already stored in a
`worker.job`, in that order, then the thunk the dispatcher holds, then the queue; so the
i-th dispatched thunk is the i-th scheduled thunk. `schedule` appends at the back of the
queue and a dispatch removes the front; the store `worker.job = thunk` puts the next thunk
in schedule order in the job of the chosen worker and is the only statement that changes
a job or adds to the dispatched thunks, and `worker.job_waiting.signal()` then signals the
handoff of that worker, whose job is the thunk dispatched last. -/
theorem dispatch_in_schedule_order (N : Nat) (s : Pool) (hr : Reachable N s) :
    s.scheduleLog = s.dispatchLog ++ inHand s ++ s.scheduled ∧
    (∀ i, i < s.dispatchLog.length → s.dispatchLog[i]? = s.scheduleLog[i]?) ∧
    (∀ t s2, step s (.schedulePush t) = some s2 →
      s2.scheduled = s.scheduled ++ [t] ∧ s2.scheduleLog = s.scheduleLog ++ [t]) ∧
    (∀ s2, s.dt = .pop → step s .dispatcher = some s2 →
      ∃ t, s.scheduled = t :: s2.scheduled ∧ s2.thunk = some t ∧ s2.dt = .setJob) ∧
    (∀ s2, s.dt = .setJob → step s .dispatcher = some s2 →
      ∃ w t, s.worker_id = some w ∧ s.thunk = some t ∧
        s.scheduleLog[s.dispatchLog.length]? = some t ∧ s2.dt = .signalJob ∧
        s2.workers = Function.update s.workers w { s.workers w with job := some t } ∧
        s2.dispatchLog = s.dispatchLog ++ [t]) ∧
    (∀ a s2, step s a = some s2 →
      ((∃ j, (s2.workers j).job ≠ (s.workers j).job) ∨ s2.dispatchLog ≠ s.dispatchLog) →
      a = .dispatcher ∧ s.dt = .setJob) ∧
    (N < 2 ^ 64 →
      (s.dt = .setJob → ∃ s2, step s .dispatcher = some s2) ∧
      (s.dt = .signalJob → ∃ w t s2, w < N ∧ s.worker_id = some w ∧
        (s.workers w).job = some t ∧ s.dispatchLog.getLast? = some t ∧
        step s .dispatcher = some s2 ∧ s2.dt = .waitQueue ∧
        s2.workers = Function.update s.workers w
          { s.workers w with job_waiting := (s.workers w).job_waiting.signal })) := by
  have hinv : s.scheduleLog = s.dispatchLog ++ inHand s ++ s.scheduled :=
    reachable_invariant N (fun s => s.scheduleLog = s.dispatchLog ++ inHand s ++ s.scheduled)
      (by simp [init, inHand]) (fun s a s2 h hs => fifo_step s a s2 h hs) s hr
  refine ⟨hinv, ?_, ?_, ?_, ?_, ?_, ?_⟩
  · intro i hi
    rw [hinv, List.append_assoc, List.getElem?_append_left hi]
  · intro t s2 hs
    simp only [step, schedulePush] at hs
    split at hs
    · cases hs; exact ⟨rfl, rfl⟩
    · cases hs
  · intro s2 hpc hs
    simp only [step] at hs
    unfold dispatcher at hs
    rw [hpc] at hs
    simp only at hs
    split at hs
    · cases hs
      rename_i t rest heq
      exact ⟨t, heq, rfl, rfl⟩
    · cases hs
  · intro s2 hpc hs
    simp only [step] at hs
    unfold dispatcher at hs
    rw [hpc] at hs
    simp only at hs
    split at hs
    · cases hs
      rename_i w t hw ht
      refine ⟨w, t, hw, ht, ?_, rfl, rfl, rfl⟩
      rw [hinv, List.append_assoc, List.getElem?_append_right (le_refl _)]
      simp [inHand, hpc, ht]
    · cases hs
  · intro a s2 hs hch
    rcases hch with ⟨j, hj⟩ | hdl
    · exact ⟨(job_written_by_dispatcher s a s2 j hs hj).1,
        (job_written_by_dispatcher s a s2 j hs hj).2.1⟩
    · cases a with
      | schedulePush t =>
        simp only [step, schedulePush] at hs
        split at hs
        · cases hs; exact absurd rfl hdl
        · cases hs
      | scheduleSignal =>
        simp only [step, scheduleSignal] at hs
        split at hs
        · cases hs; exact absurd rfl hdl
        · cases hs
      | wait b =>
        simp only [step, wait, Option.some.injEq] at hs
        subst hs
        exact absurd rfl hdl
      | dispatcher =>
        refine ⟨rfl, ?_⟩
        simp only [step] at hs
        unfold dispatcher at hs
        split at hs <;> rename_i hpc
        all_goals (try exact hpc)
        all_goals (try split at hs)
        all_goals (try split at hs)
        all_goals (try (simp only [Option.map_eq_some'] at hs; obtain ⟨q, _, hs⟩ := hs))
        all_goals (try (cases hs))
        all_goals (try (exact absurd rfl hdl))
      | worker i =>
        simp only [step] at hs
        unfold worker at hs
        split at hs
        · split at hs
          all_goals (try split at hs)
          all_goals (try (simp only [Option.map_eq_some'] at hs; obtain ⟨q, _, hs⟩ := hs))
          all_goals (try (cases hs))
          all_goals (try (exact absurd rfl hdl))
        · cases hs
      | destructor b =>
        simp only [step] at hs
        unfold destructor at hs
        split at hs
        all_goals (try split at hs)
        all_goals (try (cases hs))
        all_goals (try (exact absurd rfl hdl))
  · intro hN
    obtain ⟨h1, h2, h3, h4⟩ := invariant_of_reachable N hN s hr
    refine ⟨?_, ?_⟩
    · intro hpc
      obtain ⟨⟨w, hw, hwid⟩, hth⟩ := chosen_of_invariant N s h1 (Or.inl hpc)
      cases ht : s.thunk with
      | none => exact absurd ht (hth hpc)
      | some t =>
        refine ⟨{ s with
          workers := Function.update s.workers w { s.workers w with job := some t }
          dispatchLog := s.dispatchLog ++ [t]
          dt := .signalJob }, ?_⟩
        simp only [step]
        unfold dispatcher
        rw [hpc]
        simp only [hwid, ht]
    · intro hpc
      obtain ⟨w, t, hwid, hjob, hlast⟩ := h4 hpc
      obtain ⟨⟨w2, hw2, hwid2⟩, _⟩ := chosen_of_invariant N s h1 (Or.inr hpc)
      rw [hwid] at hwid2
      cases hwid2
      refine ⟨w, t, { s with
        workers := Function.update s.workers w
          { s.workers w with job_waiting := (s.workers w).job_waiting.signal }
        dt := .waitQueue }, hw2, hwid, hjob, hlast, ?_, rfl, rfl⟩
      simp only [step]
      unfold dispatcher
      rw [hpc]
      simp only [hwid]

theorem dispatch_in_schedule_order_witness :
    (2 : Nat) < 2 ^ 64 ∧ Reachable 2 handoffState ∧
    (handoffState.dt, handoffState.worker_id, handoffState.thunk, handoffState.scheduleLog,
      handoffState.dispatchLog, handoffState.scheduled) =
      (.setJob, some 0, some 7, [7, 8, 9], [], [8, 9]) ∧
    handoffState.scheduleLog =
      handoffState.dispatchLog ++ inHand handoffState ++ handoffState.scheduled ∧
    (∃ s2, step handoffState .dispatcher = some s2) ∧
    (run (init 2) (handoffTrace ++ [.dispatcher])).map
      (fun s => (s.dt, (s.workers 0).job, (s.workers 1).job, s.dispatchLog)) =
      some (.signalJob, some 7, none, [7]) :=
  have h := dispatch_in_schedule_order 2 handoffState ⟨handoffTrace, rfl⟩
  ⟨by decide, ⟨handoffTrace, rfl⟩, rfl, h.1, (h.2.2.2.2.2.2 (by decide)).1 rfl, rfl⟩

/-- C7, the code at the failing input: for a pool of two workers there is an interleaving
of `schedule(1); schedule(2); wait()` after which `wait()` returns (its predicate holds,
the queue is empty, both workers idle) although thunk 1 was never called: thunk 2 ran
twice in its place, and thunk 1 is in no queue, no `worker.job` and no running worker. -/
theorem wait_returns_with_thunk_never_run :
    (run (init 2) lostThunkTrace).map (fun s =>
        (s.waiter, waitPredicate s, s.num_available_workers, s.num_workers, s.scheduled,
          s.scheduleLog, s.dispatchLog, s.startLog, s.finishLog,
          (s.workers 0).job, (s.workers 1).job, s.wts 0, s.wts 1)) =
      some (.returned, true, 2, 2, [], [1, 2], [1, 2], [2, 2], [2, 2], some 2, none,
        .setAvailable, .waitJob) ∧
    (run (init 2) (lostThunkTrace.take 46)).map (fun s => (s.waiter, waitPredicate s)) =
      some (.idle, true) ∧
    ∃ s, Reachable 2 s ∧ s.waiter = .returned ∧ waitPredicate s = true ∧ s.scheduled = [] ∧
      1 ∈ s.scheduleLog ∧ 1 ∉ s.startLog ∧ 1 ∉ s.finishLog ∧
      (∀ i, i < 2 → (s.workers i).job ≠ some 1 ∧ s.wts i ≠ .running 1) :=
  ⟨rfl, rfl, (run (init 2) lostThunkTrace).getD (init 2), ⟨lostThunkTrace, rfl⟩, rfl, rfl, rfl,
    by decide, by decide, by decide, by decide⟩

/-- C11 as stated fails: in a pool of one worker whose thread has run `num_workers++` and
not yet `num_available_workers++`, the queue is empty and nothing is dispatched, the one
worker has started, and `num_available_workers` is 0 while `num_workers` is 1. -/
theorem available_behind_workers_at_startup :
    (run (init 1) [.worker 0]).map (fun s =>
        (s.num_available_workers, s.num_workers, s.scheduled, s.dt, s.wts 0,
          (s.workers 0).job_waiting.value)) =
      some (0, 1, [], .waitQueue, .incAvailableFirst, 0) ∧
    ¬ (∀ (N : Nat) (s : Pool), Reachable N s → s.scheduled = [] → NoneInFlight s →
        (∀ j, j < N → s.wts j ≠ .start) →
        s.num_available_workers = s.num_workers ∧ s.num_workers = N) := by
  refine ⟨rfl, ?_⟩
  intro h
  have h1 := h 1 ((run (init 1) [.worker 0]).getD (init 1)) ⟨[.worker 0], rfl⟩ rfl
    ⟨by decide, by decide, fun j hj => by
      have : j = 0 := by
        have : j < 1 := hj
        omega
      subst this
      decide⟩
    (fun j hj => by
      have : j = 0 := by omega
      subst this
      decide)
  exact absurd h1.1 (by decide)

/-- The destructor can set `done` with a dispatch in flight: along `droppedJobTrace` the
worker exits with thunk 5 dispatched and never called, `num_available_workers` at 0 and
`num_workers` at 1; the state is not one with no task dispatched and unfinished. -/
theorem job_dropped_at_shutdown :
    (run (init 1) droppedJobTrace).map (fun s =>
        (s.done, s.dtor, s.wts 0, s.num_available_workers, s.num_workers, s.dispatchLog,
          s.startLog, s.finishLog, (s.workers 0).job_waiting.value, s.scheduled)) =
      some (true, .signalWorker 0, .exited, 0, 1, [5], [], [], 0, []) ∧
    ¬ NoneInFlight ((run (init 1) droppedJobTrace).getD (init 1)) :=
  ⟨rfl, fun h => absurd h.2.1 (by decide)⟩

/-- C11 amended: in every reachable state `num_available_workers <= num_workers <= N`; the
dispatcher decrements `num_available_workers` only when it is positive, and the decrement
takes one off; and in a state with empty queue and no task dispatched and unfinished (the
dispatcher holds no thunk, every thunk stored in a `worker.job` has returned and the
increment after it has run), once all N worker threads have run both start-up increments,
`num_available_workers == num_workers == N`. -/
theorem counters_bounded (N : Nat) (hN : N < 2 ^ 64) (s : Pool) (hr : Reachable N s) :
    s.num_available_workers ≤ s.num_workers ∧ s.num_workers ≤ N ∧
    (s.dt = .decAvailable → 0 < s.num_available_workers) ∧
    (∀ s2, s.dt = .decAvailable → step s .dispatcher = some s2 →
      s2.num_available_workers + 1 = s.num_available_workers) ∧
    (s.scheduled = [] → NoneInFlight s →
      (∀ j, j < N → s.wts j ≠ .start ∧ s.wts j ≠ .incAvailableFirst) →
      s.num_available_workers = N ∧ s.num_workers = N) := by
  obtain ⟨h, hp, hh, _⟩ := invariant_of_reachable N hN s hr
  have hb := h.basic
  have hle := available_le_workers N s h
  have hwn : s.num_workers ≤ N := by
    rw [h.workers.2, ← h.workers.1]
    exact startedWorkers_le s
  refine ⟨hle, hwn, fun hpc => (decrement_room N hN s h hpc).1, ?_, ?_⟩
  · intro s2 hpc hs
    obtain ⟨h0, h1, _⟩ := decrement_room N hN s h hpc
    simp only [step] at hs
    unfold dispatcher at hs
    rw [hpc] at hs
    simp only [Option.some.injEq] at hs
    subst hs
    show size_t_dec s.num_available_workers + 1 = s.num_available_workers
    unfold size_t_dec
    omega
  · intro hempty hq hall
    obtain ⟨hhand, hq2, hq3⟩ := hq
    have hq1 : unlogged s = 0 := by
      have hheld : s.dt = .bindWorker ∨ s.dt = .pop → False := by
        intro hpc
        cases hd : s.done with
        | true =>
          have hdp := (h.shutdown hd).dispatcher_pc
          rcases hpc with e | e <;> (rw [e] at hdp; simp at hdp)
        | false =>
          have hqueue := (h.live hd).queue
          have h1 := hb.queue_nonneg
          have h2 : queueHeld s = 1 := by
            rcases hpc with e | e <;> simp [queueHeld, e]
          rw [hempty] at hqueue
          simp only [List.length_nil, Nat.cast_zero] at hqueue
          omega
      cases hdt : s.dt with
      | bindWorker => exact (hheld (Or.inl hdt)).elim
      | pop => exact (hheld (Or.inr hdt)).elim
      | setJob =>
        exfalso
        have hth := (chosen_of_invariant N s h (Or.inl hdt)).2 hdt
        cases ht : s.thunk with
        | none => exact hth ht
        | some t => simp [inHand, hdt, ht] at hhand
      | _ => simp [unlogged, hdt]
    have hpast : sumTo s.numThreads (fun j => pastStart (s.wts j)) = s.numThreads :=
      sumTo_eq_card _ _ (fun j hj => by
        rw [hb.numThreads_eq] at hj
        exact pastStart_eq_one (hall j hj).1 (hall j hj).2)
    have hret : sumTo s.numThreads (fun j => returning (s.wts j)) = 0 :=
      sumTo_eq_zero _ _ (fun j hj => by
        have := hq3 j hj
        show returning (s.wts j) = 0
        cases hw : s.wts j <;> simp [returning, hw] at this ⊢)
    unfold History at hh
    have hn := hb.numThreads_eq
    have hav : s.num_available_workers = N := by omega
    exact ⟨hav, by omega⟩

theorem counters_bounded_witness :
    (1 : Nat) < 2 ^ 64 ∧ Reachable 1 quiescentState ∧ quiescentState.scheduled = [] ∧
    NoneInFlight quiescentState ∧
    (∀ j, j < 1 → quiescentState.wts j ≠ .start ∧ quiescentState.wts j ≠ .incAvailableFirst) ∧
    quiescentState.num_available_workers ≤ quiescentState.num_workers ∧
    quiescentState.num_workers ≤ 1 ∧
    quiescentState.num_available_workers = 1 ∧ quiescentState.num_workers = 1 :=
  have hq : NoneInFlight quiescentState := ⟨by decide, by decide, fun j hj => by
    have hj1 : j < 1 := hj
    have hj0 : j = 0 := by omega
    subst hj0
    decide⟩
  have hall : ∀ j, j < 1 →
      quiescentState.wts j ≠ .start ∧ quiescentState.wts j ≠ .incAvailableFirst :=
    fun j hj => by
      have hj0 : j = 0 := by omega
      subst hj0
      decide
  have h := counters_bounded 1 (by decide) quiescentState ⟨quiescentTrace, rfl⟩
  ⟨by decide, ⟨quiescentTrace, rfl⟩, rfl, hq, hall, h.1, h.2.1, h.2.2.2.2 rfl hq hall⟩

/-- C12 as stated fails: in a pool of two workers the search loop reads
`workers[0].available` while thread 0 runs a thunk, thread 0 then finishes and sets its
flag, and the loop chooses `workers[1]`; the chosen `worker_id` is 1 while `workers[0]`
is available. -/
theorem dispatch_not_least_available :
    (run (init 2) scanRaceTrace).map (fun s =>
        (s.dt, s.worker_id, (s.workers 0).available, (s.workers 1).available, s.wts 0)) =
      some (.markBusy 1, some 1, true, true, .signalAvailable) ∧
    ¬ (∀ (N : Nat) (s : Pool) (k w : Nat), Reachable N s → s.dt = .markBusy k →
        s.worker_id = some w → ∀ j, j < w → (s.workers j).available = false) := by
  refine ⟨rfl, ?_⟩
  intro h
  have := h 2 ((run (init 2) scanRaceTrace).getD (init 2)) 1 1 ⟨scanRaceTrace, rfl⟩ rfl rfl 0
    (by decide)
  exact absurd this (by decide)

/-- C12 amended: at each dispatch the search loop examines `workers[0]`, `workers[1]`, ...
in order and chooses the first one whose flag it finds set, every lower index having had
its flag clear when examined; the chosen `worker_id` is the least index i such that
`workers[i]` is available when no worker thread runs during the search. That worker alone
is marked unavailable, exactly one thunk is dequeued and stored as that worker's job, and
that worker's private handoff semaphore is signalled exactly once; the dispatcher leaves
the availability flags, jobs and handoffs of all other workers unchanged. -/
theorem dispatch_picks_first_flag_found (N : Nat) (hN : N < 2 ^ 64) (s : Pool)
    (hr : Reachable N s) :
    (∀ i s2, s.dt = .search i → step s .dispatcher = some s2 →
      i < N ∧ s2.workers = s.workers ∧
      ((s.workers i).available = true → s2.dt = .markBusy i ∧ s2.worker_id = some i) ∧
      ((s.workers i).available = false →
        s2.dt = .search (i + 1) ∧ s2.worker_id = s.worker_id)) ∧
    (∀ k t rest, s.dt = .search 0 → k < N → (s.workers k).available = true →
      (∀ j, j < k → (s.workers j).available = false) → s.scheduled = t :: rest →
      ∃ s2, run s (List.replicate (k + 7) .dispatcher) = some s2 ∧
        s2.dt = .waitQueue ∧ s2.worker_id = some k ∧ s2.scheduled = rest ∧
        s2.workers = Function.update s.workers k
          { id := k, available := false,
            job_waiting := (s.workers k).job_waiting.signal, job := some t }) ∧
    (∀ s2 j, step s .dispatcher = some s2 → s.worker_id ≠ some j →
      s2.workers j = s.workers j) := by
  obtain ⟨h, _, _, _⟩ := invariant_of_reachable N hN s hr
  have hb := h.basic
  have hn := hb.numThreads_eq
  have hlive : ∀ k, s.dt = .search k ∨ s.dt = .markBusy k → s.done = false := by
    intro k hpc
    cases hd : s.done with
    | false => rfl
    | true =>
      exfalso
      have hdp := (h.shutdown hd).dispatcher_pc
      rcases hpc with h1 | h1 <;> (rw [h1] at hdp; simp at hdp)
  refine ⟨?_, ?_, ?_⟩
  · intro i s2 hpc hs
    obtain ⟨w, hle, hw, _⟩ := (h.live (hlive i (Or.inl hpc))).found i hpc
    have hi : i < s.numThreads := by omega
    simp only [step] at hs
    unfold dispatcher at hs
    rw [hpc] at hs
    simp only [hi, if_true] at hs
    refine ⟨by omega, ?_, ?_, ?_⟩
    · split at hs <;> (simp only [Option.some.injEq] at hs; subst hs; rfl)
    · intro hf
      rw [if_pos hf] at hs
      simp only [Option.some.injEq] at hs
      subst hs
      exact ⟨rfl, by rw [hb.id_eq i]⟩
    · intro hf
      rw [if_neg (by simp [hf])] at hs
      simp only [Option.some.injEq] at hs
      subst hs
      exact ⟨rfl, rfl⟩
  · intro k t rest hpc hk hf hlow hq
    have hk2 : k < s.numThreads := by omega
    have h1 := search_run k k 0 s (by omega) hpc hk2 hf (fun j _ hj => hlow j hj)
    rw [hb.id_eq k] at h1
    have h2 : run s (List.replicate (k + 7) .dispatcher) =
        (run s (List.replicate (k + 1) .dispatcher)).bind
          (fun s1 => run s1 (List.replicate 6 .dispatcher)) := by
      rw [← run_append, ← List.replicate_add]
    rw [h2, h1]
    obtain ⟨s2, hrun, h3, h4, h5, h6⟩ := handoff_run
      { s with worker_id := some k, dt := .markBusy k } k t rest rfl rfl hk2 hq
    refine ⟨s2, hrun, h3, h4, h5, ?_⟩
    rw [h6]
    show Function.update s.workers k _ = Function.update s.workers k _
    rw [hb.id_eq k]
  · intro s2 j hs hne
    simp only [step] at hs
    unfold dispatcher at hs
    split at hs
    all_goals first
      | (cases hs; done)
      | (simp only [Option.map_eq_some'] at hs
         obtain ⟨q, _, hs⟩ := hs
         subst hs
         rfl)
      | (split at hs <;> first
          | (cases hs; done)
          | (simp only [Option.some.injEq] at hs; subst hs; rfl)
          | (split at hs <;> first
              | (cases hs; done)
              | (simp only [Option.some.injEq] at hs; subst hs; rfl)))
      | skip
    all_goals try (simp only [Option.some.injEq] at hs; subst hs; rfl)
    · rename_i x a hpc
      have hm := (h.live (hlive a (Or.inr hpc))).marked a hpc
      simp only [Option.some.injEq] at hs
      subst hs
      show Function.update s.workers a _ j = s.workers j
      have hja : j ≠ a := fun e => hne (by rw [hm.2, e])
      rw [Function.update_noteq hja]
    · split at hs
      · rename_i w th hw hth
        simp only [Option.some.injEq] at hs
        subst hs
        show Function.update s.workers w _ j = s.workers j
        have hja : j ≠ w := fun e => hne (by rw [hw, e])
        rw [Function.update_noteq hja]
      · cases hs
    · split at hs
      · rename_i w hw
        simp only [Option.some.injEq] at hs
        subst hs
        show Function.update s.workers w _ j = s.workers j
        have hja : j ≠ w := fun e => hne (by rw [hw, e])
        rw [Function.update_noteq hja]
      · cases hs

theorem dispatch_picks_first_flag_found_witness :
    (2 : Nat) < 2 ^ 64 ∧ Reachable 2 searchState ∧ searchState.dt = .search 0 ∧
    (searchState.workers 0).available = false ∧ (searchState.workers 1).available = true ∧
    searchState.scheduled = [2] ∧
    ∃ s2, run searchState (List.replicate (1 + 7) .dispatcher) = some s2 ∧
      s2.dt = .waitQueue ∧ s2.worker_id = some 1 ∧ s2.scheduled = [] ∧
      s2.workers = Function.update searchState.workers 1
        { id := 1, available := false,
          job_waiting := (searchState.workers 1).job_waiting.signal, job := some 2 } :=
  ⟨by decide, ⟨searchTrace, rfl⟩, rfl, rfl, rfl, rfl,
    (dispatch_picks_first_flag_found 2 (by decide) searchState ⟨searchTrace, rfl⟩).2.1
      1 2 [] rfl (by decide) rfl
      (fun j hj => by
        have hj0 : j = 0 := by omega
        subst hj0
        rfl)
      rfl⟩

/-- C14, the code at the failing input: in a pool of two workers the dispatcher stores
thunk 1 in `workers[0].job` before thread 0 has started; thread 0 then starts and sets
`workers[0].available` while the handoff holds that job, and goes on to run thunk 1 with
the flag set; or the dispatcher, finding the flag set, stores thunk 2 in `workers[0].job`
over thunk 1, which no worker has started. -/
theorem flag_set_with_job_pending :
    (run (init 2) pendingJobTrace).map (fun s =>
        ((s.workers 0).available, (s.workers 0).job_waiting.value, (s.workers 0).job,
          s.wts 0, s.startLog)) =
      some (true, 1, some 1, .waitJob, []) ∧
    (run (init 2) (pendingJobTrace ++ [.worker 0, .worker 0, .worker 0])).map (fun s =>
        ((s.workers 0).available, s.wts 0)) = some (true, .running 1) ∧
    (run (init 2) (lostThunkTrace.take 32)).map (fun s =>
        ((s.workers 0).job, (s.workers 0).job_waiting.value, s.dispatchLog, s.startLog)) =
      some (some 2, 2, [1, 2], []) ∧
    ∃ s, Reachable 2 s ∧ (s.workers 0).available = true ∧ s.wts 0 = .waitJob ∧
      (s.workers 0).job_waiting.value = 1 ∧ (s.workers 0).job = some 1 ∧ 1 ∉ s.startLog :=
  ⟨rfl, rfl, rfl, (run (init 2) pendingJobTrace).getD (init 2), ⟨pendingJobTrace, rfl⟩,
    rfl, rfl, rfl, rfl, by decide⟩

end ThreadPool
